import Mathlib

/-!
# Dlopen (fvtt-module-dlopen): a shallow embedding of `src/dlopen.js`

The class `Dlopen` keeps three pieces of process-wide state: the registry
`DEPENDENCIES`, the memo `LOADED_DEPENDENCIES` and the set `loadedCss`.  Its
methods are `async` functions, so the embedding is an event-loop machine:

* a promise table, a list of continuations waiting on promises, and a
  microtask queue of continuations ready to resume;
* every `async` method is split at its `await`s into a synchronous part
  (run when the method is called, or when a continuation is resumed) and a
  `Frame` that records where it will resume;
* the host page is the environment: it delivers the `load` / `error` event of
  an appended element (or settles the promise returned by an asynchronous
  `init`) through the action `settle`.

Everything observable is appended to `State.trace` in chronological order.
-/

namespace Dlopen

/-! ## Values -/

abbrev Name := String

/-- A `scripts` / `styles` / `dependencies` field: absent, one string, or an array of strings. -/
inductive Field where
  | undefined
  | str (s : String)
  | arr (l : List String)
  deriving DecidableEq, Repr

/-- JavaScript truthiness of a field, as tested by `if (scripts)`, `if (styles)`,
`if (dependencies)`: `undefined` and the empty string are falsy, every array is truthy. -/
def Field.truthy : Field → Bool
  | .undefined => false
  | .str s => s != ""
  | .arr _ => true

/-- The normalisation `if (typeof(x) === "string") x = [x]`. -/
def Field.toArray : Field → List String
  | .undefined => []
  | .str s => [s]
  | .arr l => l

/-- What the host-supplied `init` routine does when called: return normally,
throw, or return a promise that the environment settles later. -/
inductive InitFn where
  | sync
  | throws
  | async
  deriving DecidableEq, Repr

/-- The object `{scripts, styles, dependencies, init}` stored by `register`. -/
structure Descriptor where
  scripts : Field
  styles : Field
  dependencies : Field
  init : Option InitFn
  deriving DecidableEq, Repr

/-- The descriptor obtained by destructuring a value that has none of the four properties. -/
def Descriptor.empty : Descriptor := ⟨.undefined, .undefined, .undefined, none⟩

/-- Why a promise was rejected. -/
inductive Err where
  | resource (url : String)
  | usage
  | initFailed
  deriving DecidableEq, Repr

/-- The message of the error thrown by `loadCss` (line 155). -/
def Err.message : Err → String
  | .usage => "'url' or 'content' argument required"
  | .resource url => "error event: " ++ url
  | .initFailed => "init failed"

inductive PState where
  | pending
  | fulfilled
  | rejected (e : Err)
  deriving DecidableEq, Repr

/-- A suspended `async` function: the code after one of its `await`s. -/
inductive Frame where
  /-- Suspended `loadDependencies` at line 63: the loop variable `dep`, the names
  still to process and the promise of the call. -/
  | ld (dep : Name) (rest : List Name) (result : Nat)
  /-- Suspended `_loadDependency` at line 91. -/
  | afterDeps (dep : Name) (scripts styles : Field) (init : Option InitFn) (result : Nat)
  /-- Suspended `_loadDependency` at line 97, with the scripts still to load. -/
  | afterScript (dep : Name) (rest : List String) (styles : Field) (init : Option InitFn) (result : Nat)
  /-- Suspended `_loadDependency` at line 104, with the styles still to load. -/
  | afterStyle (dep : Name) (rest : List String) (init : Option InitFn) (result : Nat)
  /-- Suspended `_loadDependency` at line 109. -/
  | afterInit (dep : Name) (result : Nat)
  /-- Suspended `loadCss` at line 129. -/
  | cssHash (content : String) (result : Nat)
  deriving DecidableEq, Repr

/-- A call of `_loadDependency`: the name and the promise of the call. -/
abbrev Run := Name × Nat

/-- Observable events, in the order they happen. `owner` is the `_loadDependency`
call that performed the operation (`none` for a direct call of `loadCss`). -/
inductive Event where
  /-- Call of `ui.notifications.warn` (line 56). -/
  | warn (dep : Name)
  /-- Entry into `_loadDependency(dep)`: the destructured descriptor (line 87) and
  the promise of the call. -/
  | start (dep : Name) (desc : Descriptor) (pid : Nat)
  /-- Call of `head.appendChild(script)` (line 120); `pid` is the promise of its load signal. -/
  | script (owner : Run) (url : String) (pid : Nat)
  /-- Call of `head.appendChild(link)` (line 152). -/
  | link (owner : Option Run) (url : String) (pid : Nat)
  /-- Call of `head.appendChild(style)` (line 140). -/
  | style (content : String)
  /-- Call of `init()` (line 109); `pid` is the promise it returned, if any. -/
  | init (owner : Run) (pid : Option Nat)
  /-- Call of `console.log("Dlopen: Loaded dependency : ", dep)` (line 110). -/
  | log (owner : Run)
  /-- The environment settled the promise of an element or of an asynchronous `init`. -/
  | fired (pid : Nat) (ok : Bool)
  /-- Call of `loadDependencies(names)`, returning promise `pid`; `caller` is the
  name whose `_loadDependency` run made the call at line 91 (`none`: an outside caller). -/
  | call (caller : Option Name) (names : List Name) (pid : Nat)
  deriving DecidableEq, Repr

/-! ## State -/

structure State where
  /-- Own properties of `Dlopen.DEPENDENCIES`, most recent assignment first. -/
  DEPENDENCIES : List (Name × Descriptor)
  /-- The prototype of `Dlopen.DEPENDENCIES` when an assignment to the key
  `__proto__` replaced it (`none`: still `Object.prototype`). -/
  depProto : Option Descriptor
  /-- Own properties of `Dlopen.LOADED_DEPENDENCIES`: name and promise. -/
  LOADED_DEPENDENCIES : List (Name × Nat)
  /-- The set `Dlopen.loadedCss`, in insertion order. -/
  loadedCss : List String
  /-- The promise table; a promise is its index. -/
  promises : List PState
  /-- Continuations registered on a pending promise. -/
  waiters : List (Nat × Frame)
  /-- The microtask queue: continuations ready to resume, with the outcome of their `await`. -/
  jobs : List (Frame × Option Err)
  trace : List Event
  deriving DecidableEq, Repr

/-- The state right after the script has been evaluated (lines 160-161). -/
def State.init : State := ⟨[], none, [], [], [], [], [], []⟩

/-- The property names every plain object inherits from `Object.prototype`. -/
def objectPrototypeKeys : List String :=
  ["constructor", "__defineGetter__", "__defineSetter__", "hasOwnProperty",
   "__lookupGetter__", "__lookupSetter__", "isPrototypeOf", "propertyIsEnumerable",
   "toString", "valueOf", "__proto__", "toLocaleString"]

/-- The result of a property read on `DEPENDENCIES`. -/
inductive Value where
  | undefined
  /-- A descriptor object stored by `register`. -/
  | descriptor (d : Descriptor)
  /-- Any other truthy value (a function or object inherited from the prototype
  chain, or a string / array / function read through a replaced prototype). -/
  | other
  /-- The empty string read through a replaced prototype (falsy). -/
  | emptyString
  deriving DecidableEq, Repr

def Value.truthy : Value → Bool
  | .descriptor _ => true
  | .other => true
  | _ => false

/-- The destructuring `let {scripts, styles, dependencies, init} = v` (line 87). -/
def Value.destructure : Value → Descriptor
  | .descriptor d => d
  | _ => Descriptor.empty

def Field.toValue : Field → Value
  | .undefined => .undefined
  | .str s => if s = "" then .emptyString else .other
  | .arr _ => .other

/-- A property read that reaches the prototype of `DEPENDENCIES`: the four
properties of a descriptor installed as prototype, then `Object.prototype`. -/
def inheritedDependency (proto : Option Descriptor) (dep : Name) : Value :=
  match proto with
  | some d =>
    if dep = "scripts" then d.scripts.toValue
    else if dep = "styles" then d.styles.toValue
    else if dep = "dependencies" then d.dependencies.toValue
    else if dep = "init" then (if d.init.isSome then .other else .undefined)
    else if dep ∈ objectPrototypeKeys then .other else .undefined
  | none => if dep ∈ objectPrototypeKeys then .other else .undefined

/-- The read `this.DEPENDENCIES[dep]`: own property first, then the prototype chain. -/
def State.getDependency (st : State) (dep : Name) : Value :=
  if dep = "__proto__" then
    match st.depProto with
    | some d => .descriptor d
    | none => .other
  else
    match st.DEPENDENCIES.lookup dep with
    | some d => .descriptor d
    | none => inheritedDependency st.depProto dep

/-- The result of the read `this.LOADED_DEPENDENCIES[dep]`: a stored promise, an
inherited (truthy, non-promise) value, or `undefined`. -/
inductive Memo where
  | undefined
  | promise (pid : Nat)
  | inherited
  deriving DecidableEq, Repr

def State.getLoaded (st : State) (dep : Name) : Memo :=
  match st.LOADED_DEPENDENCIES.lookup dep with
  | some p => .promise p
  | none => if dep ∈ objectPrototypeKeys then .inherited else .undefined

/-- The assignment `this.DEPENDENCIES[name] = {scripts, styles, dependencies, init}` (line 44). -/
def register (name : Name) (d : Descriptor) (st : State) : State :=
  if name = "__proto__" then { st with depProto := some d }
  else { st with DEPENDENCIES := (name, d) :: st.DEPENDENCIES }

/-! ## Promises -/

def State.emit (st : State) (e : Event) : State := { st with trace := st.trace ++ [e] }

/-- Create a promise in state `ps`; its identifier is the old size of the table. -/
def State.newPromise (st : State) (ps : PState) : State × Nat :=
  ({ st with promises := st.promises ++ [ps] }, st.promises.length)

def outcomeOf : PState → Option (Option Err)
  | .pending => none
  | .fulfilled => some none
  | .rejected e => some (some e)

/-- Suspend at `await p`: the continuation `f` resumes in a later microtask. -/
def State.await (st : State) (p : Nat) (f : Frame) : State :=
  match st.promises.get? p with
  | some ps =>
    match outcomeOf ps with
    | some o => { st with jobs := st.jobs ++ [(f, o)] }
    | none => { st with waiters := st.waiters ++ [(p, f)] }
  | none => { st with waiters := st.waiters ++ [(p, f)] }

/-- Suspend at `await v` for a value `v` that is not a promise. -/
def State.awaitValue (st : State) (f : Frame) : State :=
  { st with jobs := st.jobs ++ [(f, none)] }

/-- Settle a pending promise and schedule the continuations waiting on it. -/
def State.settle (st : State) (p : Nat) (o : Option Err) : State :=
  match st.promises.get? p with
  | some .pending =>
    { st with
      promises := st.promises.set p (match o with | none => .fulfilled | some e => .rejected e)
      jobs := st.jobs ++ ((st.waiters.filter (fun w => w.1 == p)).map (fun w => (w.2, o)))
      waiters := st.waiters.filter (fun w => !(w.1 == p)) }
  | _ => st

/-! ## The methods of `Dlopen` -/

/-- The digest `crypto.subtle.digest('SHA-256', _)` of the UTF-8 encoding of a
string, supplied by the host. -/
structure Host where
  digest : String → List (Fin 256)

/-- The `Int8Array` view of a byte: a signed value in `-128..127`. -/
def int8View (b : Fin 256) : Int :=
  if b.val < 128 then (b.val : Int) else (b.val : Int) - 256

/-- The expression `byte & 0xFF` on a 32-bit two's complement integer. -/
def andFF (x : Int) : Nat := (x % 256).toNat

/-- The call `n.toString(16)` for a non-negative integer. -/
def toString16 (n : Nat) : List Char := Nat.toDigits 16 n

/-- The call `s.padStart(2, "0")`. -/
def padStart2 (s : List Char) : List Char :=
  List.replicate (2 - s.length) '0' ++ s

/-- The callback of `Array.from` at lines 75-77. -/
def hexByte (b : Fin 256) : List Char := padStart2 (toString16 (andFF (int8View b)))

/-- The method `ArrayBufferToHex` (lines 74-78). -/
def ArrayBufferToHex (ab : List (Fin 256)) : String :=
  String.mk ((ab.map hexByte).flatten)

/-- The method `hash` (lines 68-73). -/
def hash (h : Host) (data : String) : String := ArrayBufferToHex (h.digest data)

/-- The method `loadScript` (lines 113-122): append a script element, return the
promise of its load signal. -/
def loadScript (owner : Run) (url : String) (st : State) : State × Nat :=
  let (st1, p) := st.newPromise .pending
  (st1.emit (.script owner url p), p)

/-- JavaScript truthiness of an optional string argument, as tested by
`if (content)` and `else if (url)`: absent and the empty string are falsy. -/
def argTruthy : Option String → Bool
  | none => false
  | some s => s != ""

/-- The method `loadCss` (lines 124-157) up to its first suspension; returns its promise. -/
def loadCss (owner : Option Run) (url content : Option String) (st : State) : State × Nat :=
  if argTruthy content then
    -- line 129: `await this.hash(content)`
    let (st1, r) := st.newPromise .pending
    (st1.awaitValue (.cssHash (content.getD "") r), r)
  else if argTruthy url then
    let u := url.getD ""
    if u ∈ st.loadedCss then st.newPromise .fulfilled
    else
      let st1 := { st with loadedCss := st.loadedCss ++ [u] }
      let (st2, p) := st1.newPromise .pending
      (st2.emit (.link owner u p), p)
  else st.newPromise (.rejected .usage)

/-- Lines 130-140 of `loadCss`, after the digest is available. -/
def loadCssContent (h : Host) (content : String) (r : Nat) (st : State) : State :=
  let hs := hash h content
  if hs ∈ st.loadedCss then st.settle r none
  else ({ st with loadedCss := st.loadedCss ++ [hs] }.emit (.style content)).settle r none

/-- Line 110 and the normal return of `_loadDependency`. -/
def finishDep (dep : Name) (r : Nat) (st : State) : State :=
  (st.emit (.log (dep, r))).settle r none

/-- Lines 108-109 of `_loadDependency`. -/
def initPhase (dep : Name) (init : Option InitFn) (r : Nat) (st : State) : State :=
  match init with
  | none => finishDep dep r st
  | some .sync => (st.emit (.init (dep, r) none)).awaitValue (.afterInit dep r)
  | some .throws => (st.emit (.init (dep, r) none)).settle r (some .initFailed)
  | some .async =>
    let (st1, p) := st.newPromise .pending
    (st1.emit (.init (dep, r) (some p))).await p (.afterInit dep r)

/-- The loop at lines 103-105 of `_loadDependency`, from the styles still to load. -/
def loopStyles (dep : Name) (styles : List String) (init : Option InitFn) (r : Nat)
    (st : State) : State :=
  match styles with
  | [] => initPhase dep init r st
  | u :: rest =>
    let (st1, p) := loadCss (some (dep, r)) (some u) none st
    st1.await p (.afterStyle dep rest init r)

/-- Lines 101-106 of `_loadDependency`. -/
def stylesPhase (dep : Name) (styles : Field) (init : Option InitFn) (r : Nat)
    (st : State) : State :=
  if styles.truthy then loopStyles dep styles.toArray init r st
  else initPhase dep init r st

/-- The loop at lines 96-98 of `_loadDependency`, from the scripts still to load. -/
def loopScripts (dep : Name) (scripts : List String) (styles : Field) (init : Option InitFn)
    (r : Nat) (st : State) : State :=
  match scripts with
  | [] => stylesPhase dep styles init r st
  | u :: rest =>
    let (st1, p) := loadScript (dep, r) u st
    st1.await p (.afterScript dep rest styles init r)

/-- Lines 94-99 of `_loadDependency`. -/
def scriptsPhase (dep : Name) (scripts styles : Field) (init : Option InitFn) (r : Nat)
    (st : State) : State :=
  if scripts.truthy then loopScripts dep scripts.toArray styles init r st
  else stylesPhase dep styles init r st

/-- The `for` loop of `loadDependencies` (lines 54-64) from the names still to
process, up to its first suspension. `call` is `_loadDependency`; it fails when
the call stack is exhausted. -/
def loopDeps (call : Name → State → Except State (State × Nat)) :
    List Name → Nat → State → Except State State
  | [], r, st => .ok (st.settle r none)
  | dep :: rest, r, st =>
    if !(st.getDependency dep).truthy then
      loopDeps call rest r (st.emit (.warn dep))
    else
      match st.getLoaded dep with
      | .undefined =>
        match call dep st with
        | .error e => .error e
        | .ok (st1, p) =>
          let st2 := { st1 with LOADED_DEPENDENCIES := (dep, p) :: st1.LOADED_DEPENDENCIES }
          .ok (st2.await p (.ld dep rest r))
      | .promise p => .ok (st.await p (.ld dep rest r))
      | .inherited => .ok (st.awaitValue (.ld dep rest r))

/-- The method `_loadDependency` (lines 86-111) up to its first suspension, with
`stack` nested calls still available; returns its promise. -/
def loadDependency : Nat → Name → State → Except State (State × Nat)
  | 0, _, st => .error st
  | stack + 1, dep, st =>
    let d := (st.getDependency dep).destructure
    let (st1, r) := st.newPromise .pending
    let st2 := st1.emit (.start dep d r)
    if d.dependencies.truthy then
      let (st3, q) := st2.newPromise .pending
      let st3 := st3.emit (.call (some dep) d.dependencies.toArray q)
      match loopDeps (loadDependency stack) d.dependencies.toArray q st3 with
      | .error e => .error e
      | .ok st4 => .ok (st4.await q (.afterDeps dep d.scripts d.styles d.init r), r)
    else .ok (scriptsPhase dep d.scripts d.styles d.init r st2, r)

/-- The method `loadDependencies` (lines 53-65) up to its first suspension; returns its promise. -/
def loadDependencies (stack : Nat) (deps : List Name) (st : State) : Except State (State × Nat) :=
  let (st1, r) := st.newPromise .pending
  match loopDeps (loadDependency stack) deps r st1 with
  | .error e => .error e
  | .ok st2 => .ok (st2, r)

/-- Resume a continuation with the outcome of its `await`. -/
def resume (h : Host) (stack : Nat) (f : Frame) (o : Option Err) (st : State) :
    Except State State :=
  match f, o with
  | .ld _ rest r, none => loopDeps (loadDependency stack) rest r st
  | .ld _ _ r, some e => .ok (st.settle r (some e))
  | .afterDeps dep scripts styles init r, none => .ok (scriptsPhase dep scripts styles init r st)
  | .afterDeps _ _ _ _ r, some e => .ok (st.settle r (some e))
  | .afterScript dep rest styles init r, none => .ok (loopScripts dep rest styles init r st)
  | .afterScript _ _ _ _ r, some e => .ok (st.settle r (some e))
  | .afterStyle dep rest init r, none => .ok (loopStyles dep rest init r st)
  | .afterStyle _ _ _ r, some e => .ok (st.settle r (some e))
  | .afterInit dep r, none => .ok (finishDep dep r st)
  | .afterInit _ r, some e => .ok (st.settle r (some e))
  | .cssHash content r, none => .ok (loadCssContent h content r st)
  | .cssHash _ r, some e => .ok (st.settle r (some e))

/-! ## The event loop -/

/-- The promises the environment settles: load signals of appended script and
link elements, and promises returned by an asynchronous `init`. -/
def Event.external : Event → Option (Nat × String)
  | .script _ url p => some (p, url)
  | .link _ url p => some (p, url)
  | .init _ (some p) => some (p, "init")
  | _ => none

def State.externalUrl (st : State) (p : Nat) : Option String :=
  (st.trace.filterMap Event.external).lookup p

/-- What can happen next: a caller invokes a method, the environment delivers a
signal, or the event loop resumes a ready continuation. The browser resumes
them in queue order (`tick 0`); the machine allows any order, which covers the
extra internal turns a real engine spends on promise resolution. -/
inductive Action where
  | register (name : Name) (d : Descriptor)
  | loadDependencies (names : List Name)
  | loadCss (url content : Option String)
  | settle (pid : Nat) (ok : Bool)
  | tick (i : Nat)
  deriving DecidableEq, Repr

/-- One action; fails with the state reached when the call stack is exhausted. -/
def step (h : Host) (stack : Nat) (st : State) : Action → Except State State
  | .register name d => .ok (register name d st)
  | .loadDependencies names =>
    match loadDependencies stack names (st.emit (.call none names st.promises.length)) with
    | .error e => .error e
    | .ok (st1, _) => .ok st1
  | .loadCss url content =>
    .ok (loadCss none url content st).1
  | .settle p ok =>
    match st.externalUrl p, st.promises.get? p with
    | some url, some .pending =>
      .ok ((st.emit (.fired p ok)).settle p (if ok then none else some (.resource url)))
    | _, _ => .ok st
  | .tick i =>
    match st.jobs.get? i with
    | none => .ok st
    | some (f, o) => resume h stack f o { st with jobs := st.jobs.eraseIdx i }

/-- Run a sequence of actions from a state. -/
def exec (h : Host) (stack : Nat) : State → List Action → Except State State
  | st, [] => .ok st
  | st, a :: as =>
    match step h stack st a with
    | .error e => .error e
    | .ok st1 => exec h stack st1 as

/-- Run from the initial state. -/
def run (h : Host) (stack : Nat) (as : List Action) : Except State State :=
  exec h stack State.init as

/-! ## Reference definitions used in the statements -/

/-- The sixteen digits of lower-case hexadecimal. -/
def hexDigits : List Char := "0123456789abcdef".data

/-- The value of a hexadecimal digit. -/
def hexDigitValue (c : Char) : Option Nat :=
  let i := hexDigits.indexOf c
  if i < 16 then some i else none

/-- Decode a hex string two digits at a time. -/
def hexDecode : List Char → Option (List (Fin 256))
  | [] => some []
  | [_] => none
  | a :: b :: rest =>
    match hexDigitValue a, hexDigitValue b, hexDecode rest with
    | some x, some y, some bs => some (Fin.ofNat (16 * x + y) :: bs)
    | _, _, _ => none

/-- The name of a `start` event. -/
def Event.startName : Event → Option Name
  | .start d _ _ => some d
  | _ => none

/-- How many times `_loadDependency(dep)` was entered. -/
def startsOf (dep : Name) (tr : List Event) : Nat :=
  tr.countP (fun e => e.startName == some dep)

/-- The first name a descriptor lists in `dependencies`. -/
def firstDependency (d : Descriptor) : Option Name :=
  if d.dependencies.truthy then d.dependencies.toArray.head? else none

/-- Two registered names that have no memo entry and list each other as first dependency. -/
def FirstCycle (st : State) (a b : Name) : Prop :=
  (∃ da, st.getDependency a = .descriptor da ∧ firstDependency da = some b) ∧
  (∃ db, st.getDependency b = .descriptor db ∧ firstDependency db = some a) ∧
  st.getLoaded a = .undefined ∧ st.getLoaded b = .undefined

/-- The url of a `link` event. -/
def Event.linkUrl : Event → Option String
  | .link _ u _ => some u
  | _ => none

/-- How many link elements for `url` were appended to the page. -/
def linkCount (url : String) (tr : List Event) : Nat :=
  tr.countP (fun e => e.linkUrl == some url)

/-- The state in which `_loadDependency(dep)` calls `loadDependencies` at line 91. -/
def nestedCallState (dep : Name) (d : Descriptor) (st : State) : State :=
  (((st.newPromise .pending).1.emit (.start dep d st.promises.length)).newPromise .pending).1.emit
    (.call (some dep) d.dependencies.toArray (st.promises.length + 1))

/-- The state in which `_loadDependency(dep)` reaches line 93 without calling `loadDependencies`. -/
def leafCallState (dep : Name) (d : Descriptor) (st : State) : State :=
  (st.newPromise .pending).1.emit (.start dep d st.promises.length)

/-- The entry an event adds to the loaded-style set, if any. -/
def Event.cssKey (h : Host) : Event → Option String
  | .link _ u _ => some u
  | .style c => some (hash h c)
  | _ => none

/-- A state property that every primitive operation of the machine preserves. -/
structure Stable (h : Host) (P : State → Prop) : Prop where
  emit : ∀ (st : State) (e : Event), e.cssKey h = none → P st → P (st.emit e)
  newPromise : ∀ (st : State) (ps : PState), P st → P (st.newPromise ps).1
  await : ∀ (st : State) (p : Nat) (f : Frame), P st → P (st.await p f)
  awaitValue : ∀ (st : State) (f : Frame), P st → P (st.awaitValue f)
  settle : ∀ (st : State) (p : Nat) (o : Option Err), P st → P (st.settle p o)
  setLoaded : ∀ (st : State) (d : Name) (p : Nat), P st →
    P { st with LOADED_DEPENDENCIES := (d, p) :: st.LOADED_DEPENDENCIES }
  register : ∀ (st : State) (n : Name) (d : Descriptor), P st → P (register n d st)
  dropJob : ∀ (st : State) (i : Nat), P st → P { st with jobs := st.jobs.eraseIdx i }
  loadCss : ∀ (st : State) (owner : Option Run) (url content : Option String), P st →
    P (loadCss owner url content st).1
  loadCssContent : ∀ (st : State) (c : String) (r : Nat), P st → P (loadCssContent h c r st)

/-- The loaded-style set holds exactly one key per appended link or inline style. -/
def CssInv (h : Host) (st : State) : Prop :=
  st.loadedCss = st.trace.filterMap (Event.cssKey h) ∧ st.loadedCss.Nodup

/-- How many inline styles whose digest is `key` were appended to the page. -/
def digestCount (h : Host) (key : String) (tr : List Event) : Nat :=
  tr.countP (fun e => match e with
    | .style c => hash h c == key
    | _ => false)

/-- Write a non-empty string field as the one-element array holding it. -/
def Field.norm : Field → Field
  | .str s => if s = "" then .str s else .arr [s]
  | f => f

def Descriptor.norm (d : Descriptor) : Descriptor :=
  ⟨d.scripts.norm, d.styles.norm, d.dependencies.norm, d.init⟩

def Frame.norm : Frame → Frame
  | .afterDeps dep scripts styles init r => .afterDeps dep scripts.norm styles.norm init r
  | .afterScript dep rest styles init r => .afterScript dep rest styles.norm init r
  | f => f

def Event.norm : Event → Event
  | .start dep d r => .start dep d.norm r
  | e => e

def Action.norm : Action → Action
  | .register n d => .register n d.norm
  | a => a

/-- The same state with every recorded descriptor field in array form. -/
def State.norm (st : State) : State :=
  { st with
    DEPENDENCIES := st.DEPENDENCIES.map (fun x => (x.1, x.2.norm))
    depProto := st.depProto.map Descriptor.norm
    waiters := st.waiters.map (fun w => (w.1, w.2.norm))
    jobs := st.jobs.map (fun j => (j.1.norm, j.2))
    trace := st.trace.map Event.norm }

def normResult : Except State State → Except State State
  | .ok st => .ok st.norm
  | .error st => .error st.norm

/-- The value read from the registry of a normalised state. -/
def Value.norm : Value → Value
  | .descriptor d => .descriptor d.norm
  | v => v

def normCallResult : Except State (State × Nat) → Except State (State × Nat)
  | .ok (st, p) => .ok (st.norm, p)
  | .error st => .error st.norm

/-! ## The synchronous execution, one block at a time

`step` runs a whole synchronous turn. To reason about what holds while a
turn is in progress, the same execution is described as a sequence of small
transitions between configurations: the state, the code being executed, and the
stack of callers waiting for it to return. -/

def State.addWaiter (st : State) (p : Nat) (f : Frame) : State :=
  { st with waiters := st.waiters ++ [(p, f)] }

def State.addJob (st : State) (f : Frame) (o : Option Err) : State :=
  { st with jobs := st.jobs ++ [(f, o)] }

def State.addCss (st : State) (u : String) : State :=
  { st with loadedCss := st.loadedCss ++ [u] }

def State.setLoaded (st : State) (dep : Name) (p : Nat) : State :=
  { st with LOADED_DEPENDENCIES := (dep, p) :: st.LOADED_DEPENDENCIES }

def State.dropJob (st : State) (i : Nat) : State :=
  { st with jobs := st.jobs.eraseIdx i }

/-- The promise of the `async` call a continuation belongs to. -/
def Frame.result : Frame → Nat
  | .ld _ _ r => r
  | .afterDeps _ _ _ _ r => r
  | .afterScript _ _ _ _ r => r
  | .afterStyle _ _ _ r => r
  | .afterInit _ r => r
  | .cssHash _ r => r

/-- The name whose `_loadDependency` call a continuation belongs to. -/
def Frame.owner : Frame → Option Name
  | .afterDeps dep _ _ _ _ => some dep
  | .afterScript dep _ _ _ _ => some dep
  | .afterStyle dep _ _ _ => some dep
  | .afterInit dep _ => some dep
  | _ => none

/-- Where the body of `_loadDependency` is. -/
inductive Phase where
  /-- Line 94, before the test `if (scripts)`. -/
  | scripts (sc sty : Field) (ini : Option InitFn)
  /-- Line 96, with the scripts still to load. -/
  | loopScripts (l : List String) (sty : Field) (ini : Option InitFn)
  /-- Line 101, before the test `if (styles)`. -/
  | styles (sty : Field) (ini : Option InitFn)
  /-- Line 103, with the styles still to load. -/
  | loopStyles (l : List String) (ini : Option InitFn)
  /-- Line 108, before the test `if (init)`. -/
  | init (ini : Option InitFn)
  /-- Line 110. -/
  | finish
  deriving DecidableEq, Repr

/-- The code being executed. -/
inductive Ctl where
  /-- Nothing: the turn is over. -/
  | idle
  /-- The `for` loop of the `loadDependencies` call with promise `q`, at the head of `names`. -/
  | loop (names : List Name) (q : Nat)
  /-- The body of `_loadDependency(dep)` with promise `r`. -/
  | run (dep : Name) (r : Nat) (ph : Phase)
  /-- A `loadDependencies` call has just returned its promise to its caller. -/
  | ret
  /-- A `_loadDependency` call has just returned promise `r` to its caller. -/
  | retRun (r : Nat)
  deriving DecidableEq, Repr

/-- A caller waiting for the call it made to return. -/
inductive Act where
  /-- The loop of `loadDependencies` (promise `q`) at line 62, inside the call `_loadDependency(dep)`. -/
  | loopCall (dep : Name) (rest : List Name) (q : Nat)
  /-- The body of `_loadDependency(dep)` (promise `r`) at line 91, inside the call
  `loadDependencies(dependencies)` (promise `q`). -/
  | runCall (dep : Name) (d : Descriptor) (r q : Nat)
  deriving DecidableEq, Repr

structure Config where
  st : State
  ctl : Ctl
  stack : List Act

/-- The continuation a waiting caller registers when its callee returns. -/
def Act.frame : Act → Frame
  | .loopCall dep rest q => .ld dep rest q
  | .runCall dep d r _ => .afterDeps dep d.scripts d.styles d.init r

/-- One transition of the machine. -/
inductive Micro (h : Host) : Config → Config → Prop where
  -- callers and environment
  | register (n : Name) (d : Descriptor) (st : State) :
    Micro h ⟨st, .idle, []⟩ ⟨Dlopen.register n d st, .idle, []⟩
  | call (names : List Name) (st : State) :
    Micro h ⟨st, .idle, []⟩
      ⟨((st.emit (.call none names st.promises.length)).newPromise .pending).1,
        .loop names st.promises.length, []⟩
  | cssContent (url content : Option String) (st : State) :
    argTruthy content = true →
    Micro h ⟨st, .idle, []⟩
      ⟨(st.newPromise .pending).1.addJob (.cssHash (content.getD "") st.promises.length) none,
        .idle, []⟩
  | cssLoaded (url content : Option String) (st : State) :
    argTruthy content = false → argTruthy url = true → url.getD "" ∈ st.loadedCss →
    Micro h ⟨st, .idle, []⟩ ⟨(st.newPromise .fulfilled).1, .idle, []⟩
  | cssNew (url content : Option String) (st : State) :
    argTruthy content = false → argTruthy url = true → url.getD "" ∉ st.loadedCss →
    Micro h ⟨st, .idle, []⟩
      ⟨((st.addCss (url.getD "")).newPromise .pending).1.emit
        (.link none (url.getD "") st.promises.length), .idle, []⟩
  | cssUsage (url content : Option String) (st : State) :
    argTruthy content = false → argTruthy url = false →
    Micro h ⟨st, .idle, []⟩ ⟨(st.newPromise (.rejected .usage)).1, .idle, []⟩
  | signal (p : Nat) (ok : Bool) (url : String) (st : State) :
    st.externalUrl p = some url → st.promises.get? p = some .pending →
    Micro h ⟨st, .idle, []⟩
      ⟨(st.emit (.fired p ok)).settle p (if ok then none else some (.resource url)), .idle, []⟩
  -- resuming a continuation
  | resumeErr (i : Nat) (f : Frame) (e : Err) (st : State) :
    st.jobs.get? i = some (f, some e) →
    Micro h ⟨st, .idle, []⟩ ⟨(st.dropJob i).settle f.result (some e), .idle, []⟩
  | resumeLd (i : Nat) (dep : Name) (rest : List Name) (r : Nat) (st : State) :
    st.jobs.get? i = some (.ld dep rest r, none) →
    Micro h ⟨st, .idle, []⟩ ⟨st.dropJob i, .loop rest r, []⟩
  | resumeDeps (i : Nat) (dep : Name) (sc sty : Field) (ini : Option InitFn) (r : Nat)
      (st : State) :
    st.jobs.get? i = some (.afterDeps dep sc sty ini r, none) →
    Micro h ⟨st, .idle, []⟩ ⟨st.dropJob i, .run dep r (.scripts sc sty ini), []⟩
  | resumeScript (i : Nat) (dep : Name) (rest : List String) (sty : Field)
      (ini : Option InitFn) (r : Nat) (st : State) :
    st.jobs.get? i = some (.afterScript dep rest sty ini r, none) →
    Micro h ⟨st, .idle, []⟩ ⟨st.dropJob i, .run dep r (.loopScripts rest sty ini), []⟩
  | resumeStyle (i : Nat) (dep : Name) (rest : List String) (ini : Option InitFn) (r : Nat)
      (st : State) :
    st.jobs.get? i = some (.afterStyle dep rest ini r, none) →
    Micro h ⟨st, .idle, []⟩ ⟨st.dropJob i, .run dep r (.loopStyles rest ini), []⟩
  | resumeInit (i : Nat) (dep : Name) (r : Nat) (st : State) :
    st.jobs.get? i = some (.afterInit dep r, none) →
    Micro h ⟨st, .idle, []⟩ ⟨st.dropJob i, .run dep r .finish, []⟩
  | resumeCssNew (i : Nat) (c : String) (r : Nat) (st : State) :
    st.jobs.get? i = some (.cssHash c r, none) → hash h c ∉ st.loadedCss →
    Micro h ⟨st, .idle, []⟩
      ⟨(((st.dropJob i).addCss (hash h c)).emit (.style c)).settle r none, .idle, []⟩
  | resumeCssLoaded (i : Nat) (c : String) (r : Nat) (st : State) :
    st.jobs.get? i = some (.cssHash c r, none) → hash h c ∈ st.loadedCss →
    Micro h ⟨st, .idle, []⟩ ⟨(st.dropJob i).settle r none, .idle, []⟩
  -- the loop of `loadDependencies`
  | warn (dep : Name) (rest : List Name) (q : Nat) (st : State) (K : List Act) :
    (st.getDependency dep).truthy = false →
    Micro h ⟨st, .loop (dep :: rest) q, K⟩ ⟨st.emit (.warn dep), .loop rest q, K⟩
  | loopEnd (q : Nat) (st : State) (K : List Act) :
    Micro h ⟨st, .loop [] q, K⟩ ⟨st.settle q none, .ret, K⟩
  | memoWait (dep : Name) (rest : List Name) (q p : Nat) (st : State) (K : List Act) :
    (st.getDependency dep).truthy = true → st.getLoaded dep = .promise p →
    outcomeOf (st.promises.getD p .pending) = none →
    Micro h ⟨st, .loop (dep :: rest) q, K⟩ ⟨st.addWaiter p (.ld dep rest q), .ret, K⟩
  | memoReady (dep : Name) (rest : List Name) (q p : Nat) (o : Option Err) (st : State)
      (K : List Act) :
    (st.getDependency dep).truthy = true → st.getLoaded dep = .promise p →
    outcomeOf (st.promises.getD p .pending) = some o →
    Micro h ⟨st, .loop (dep :: rest) q, K⟩ ⟨st.addJob (.ld dep rest q) o, .ret, K⟩
  | inherited (dep : Name) (rest : List Name) (q : Nat) (st : State) (K : List Act) :
    (st.getDependency dep).truthy = true → st.getLoaded dep = .inherited →
    Micro h ⟨st, .loop (dep :: rest) q, K⟩ ⟨st.addJob (.ld dep rest q) none, .ret, K⟩
  | enterNested (dep : Name) (rest : List Name) (q : Nat) (st : State) (K : List Act) :
    (st.getDependency dep).truthy = true → st.getLoaded dep = .undefined →
    (st.getDependency dep).destructure.dependencies.truthy = true →
    Micro h ⟨st, .loop (dep :: rest) q, K⟩
      ⟨nestedCallState dep (st.getDependency dep).destructure st,
        .loop (st.getDependency dep).destructure.dependencies.toArray (st.promises.length + 1),
        .runCall dep (st.getDependency dep).destructure st.promises.length
          (st.promises.length + 1) :: .loopCall dep rest q :: K⟩
  | enterLeaf (dep : Name) (rest : List Name) (q : Nat) (st : State) (K : List Act) :
    (st.getDependency dep).truthy = true → st.getLoaded dep = .undefined →
    (st.getDependency dep).destructure.dependencies.truthy = false →
    Micro h ⟨st, .loop (dep :: rest) q, K⟩
      ⟨leafCallState dep (st.getDependency dep).destructure st,
        .run dep st.promises.length
          (.scripts (st.getDependency dep).destructure.scripts
            (st.getDependency dep).destructure.styles (st.getDependency dep).destructure.init),
        .loopCall dep rest q :: K⟩
  -- returns
  | retNestedWait (dep : Name) (d : Descriptor) (r q : Nat) (st : State) (K : List Act) :
    outcomeOf (st.promises.getD q .pending) = none →
    Micro h ⟨st, .ret, .runCall dep d r q :: K⟩
      ⟨st.addWaiter q (.afterDeps dep d.scripts d.styles d.init r), .retRun r, K⟩
  | retNestedReady (dep : Name) (d : Descriptor) (r q : Nat) (o : Option Err) (st : State)
      (K : List Act) :
    outcomeOf (st.promises.getD q .pending) = some o →
    Micro h ⟨st, .ret, .runCall dep d r q :: K⟩
      ⟨st.addJob (.afterDeps dep d.scripts d.styles d.init r) o, .retRun r, K⟩
  | retLoopWait (dep : Name) (rest : List Name) (q r : Nat) (st : State) (K : List Act) :
    outcomeOf (st.promises.getD r .pending) = none →
    Micro h ⟨st, .retRun r, .loopCall dep rest q :: K⟩
      ⟨(st.setLoaded dep r).addWaiter r (.ld dep rest q), .ret, K⟩
  | retLoopReady (dep : Name) (rest : List Name) (q r : Nat) (o : Option Err) (st : State)
      (K : List Act) :
    outcomeOf (st.promises.getD r .pending) = some o →
    Micro h ⟨st, .retRun r, .loopCall dep rest q :: K⟩
      ⟨(st.setLoaded dep r).addJob (.ld dep rest q) o, .ret, K⟩
  | retIdle (st : State) : Micro h ⟨st, .ret, []⟩ ⟨st, .idle, []⟩
  | retRunIdle (r : Nat) (st : State) : Micro h ⟨st, .retRun r, []⟩ ⟨st, .idle, []⟩
  -- the body of `_loadDependency`
  | scriptsYes (dep : Name) (r : Nat) (sc sty : Field) (ini : Option InitFn) (st : State)
      (K : List Act) :
    sc.truthy = true →
    Micro h ⟨st, .run dep r (.scripts sc sty ini), K⟩
      ⟨st, .run dep r (.loopScripts sc.toArray sty ini), K⟩
  | scriptsNo (dep : Name) (r : Nat) (sc sty : Field) (ini : Option InitFn) (st : State)
      (K : List Act) :
    sc.truthy = false →
    Micro h ⟨st, .run dep r (.scripts sc sty ini), K⟩ ⟨st, .run dep r (.styles sty ini), K⟩
  | scriptsDone (dep : Name) (r : Nat) (sty : Field) (ini : Option InitFn) (st : State)
      (K : List Act) :
    Micro h ⟨st, .run dep r (.loopScripts [] sty ini), K⟩ ⟨st, .run dep r (.styles sty ini), K⟩
  | script (dep : Name) (r : Nat) (u : String) (rest : List String) (sty : Field)
      (ini : Option InitFn) (st : State) (K : List Act) :
    Micro h ⟨st, .run dep r (.loopScripts (u :: rest) sty ini), K⟩
      ⟨((st.newPromise .pending).1.emit (.script (dep, r) u st.promises.length)).addWaiter
        st.promises.length (.afterScript dep rest sty ini r), .retRun r, K⟩
  | stylesYes (dep : Name) (r : Nat) (sty : Field) (ini : Option InitFn) (st : State)
      (K : List Act) :
    sty.truthy = true →
    Micro h ⟨st, .run dep r (.styles sty ini), K⟩ ⟨st, .run dep r (.loopStyles sty.toArray ini), K⟩
  | stylesNo (dep : Name) (r : Nat) (sty : Field) (ini : Option InitFn) (st : State)
      (K : List Act) :
    sty.truthy = false →
    Micro h ⟨st, .run dep r (.styles sty ini), K⟩ ⟨st, .run dep r (.init ini), K⟩
  | stylesDone (dep : Name) (r : Nat) (ini : Option InitFn) (st : State) (K : List Act) :
    Micro h ⟨st, .run dep r (.loopStyles [] ini), K⟩ ⟨st, .run dep r (.init ini), K⟩
  | styleNew (dep : Name) (r : Nat) (u : String) (rest : List String) (ini : Option InitFn)
      (st : State) (K : List Act) :
    u ≠ "" → u ∉ st.loadedCss →
    Micro h ⟨st, .run dep r (.loopStyles (u :: rest) ini), K⟩
      ⟨(((st.addCss u).newPromise .pending).1.emit (.link (some (dep, r)) u st.promises.length)).addWaiter
        st.promises.length (.afterStyle dep rest ini r), .retRun r, K⟩
  | styleLoaded (dep : Name) (r : Nat) (u : String) (rest : List String) (ini : Option InitFn)
      (st : State) (K : List Act) :
    u ≠ "" → u ∈ st.loadedCss →
    Micro h ⟨st, .run dep r (.loopStyles (u :: rest) ini), K⟩
      ⟨(st.newPromise .fulfilled).1.addJob (.afterStyle dep rest ini r) none, .retRun r, K⟩
  | styleUsage (dep : Name) (r : Nat) (rest : List String) (ini : Option InitFn)
      (st : State) (K : List Act) :
    Micro h ⟨st, .run dep r (.loopStyles ("" :: rest) ini), K⟩
      ⟨(st.newPromise (.rejected .usage)).1.addJob (.afterStyle dep rest ini r) (some .usage),
        .retRun r, K⟩
  | initNone (dep : Name) (r : Nat) (st : State) (K : List Act) :
    Micro h ⟨st, .run dep r (.init none), K⟩ ⟨st, .run dep r .finish, K⟩
  | initSync (dep : Name) (r : Nat) (st : State) (K : List Act) :
    Micro h ⟨st, .run dep r (.init (some .sync)), K⟩
      ⟨(st.emit (.init (dep, r) none)).addJob (.afterInit dep r) none, .retRun r, K⟩
  | initThrows (dep : Name) (r : Nat) (st : State) (K : List Act) :
    Micro h ⟨st, .run dep r (.init (some .throws)), K⟩
      ⟨(st.emit (.init (dep, r) none)).settle r (some .initFailed), .retRun r, K⟩
  | initAsync (dep : Name) (r : Nat) (st : State) (K : List Act) :
    Micro h ⟨st, .run dep r (.init (some .async)), K⟩
      ⟨((st.newPromise .pending).1.emit (.init (dep, r) (some st.promises.length))).addWaiter
        st.promises.length (.afterInit dep r), .retRun r, K⟩
  | finish (dep : Name) (r : Nat) (st : State) (K : List Act) :
    Micro h ⟨st, .run dep r .finish, K⟩ ⟨(st.emit (.log (dep, r))).settle r none, .retRun r, K⟩

/-- Several transitions in a row. -/
inductive MicroStar (h : Host) : Config → Config → Prop where
  | refl (c : Config) : MicroStar h c c
  | tail {a b c : Config} : MicroStar h a b → Micro h b c → MicroStar h a c

/-! ## Invariants of the machine: promises and continuations -/

/-- The promise an event creates, if any. -/
def Event.intro : Event → Option Nat
  | .start _ _ r => some r
  | .call _ _ q => some q
  | .script _ _ p => some p
  | .link _ _ p => some p
  | .init _ (some p) => some p
  | _ => none

/-- The promises created by the events of a trace. -/
def introduced (tr : List Event) : List Nat := tr.filterMap Event.intro

/-- The promise of the call being executed, if it will still settle it. -/
def Ctl.results : Ctl → List Nat
  | .loop _ q => [q]
  | .run _ r _ => [r]
  | _ => []

/-- How many registered continuations own promise `x`. -/
def State.wjCount (st : State) (x : Nat) : Nat :=
  st.waiters.countP (fun w => w.2.result == x) + st.jobs.countP (fun j => j.1.result == x)

/-- How many waiting callers own promise `x`. -/
def stackCount (K : List Act) (x : Nat) : Nat :=
  K.countP (fun a => a.frame.result == x)

/-- How many continuations, waiting callers and executing calls own promise `x`. -/
def Config.resCount (c : Config) (x : Nat) : Nat :=
  c.st.wjCount x + stackCount c.stack x + c.ctl.results.count x

/-- The promise of a continuation was created by the call it belongs to. -/
def Frame.RoleOK (tr : List Event) (n : Nat) : Frame → Prop
  | .ld _ _ q => ∃ c names, Event.call c names q ∈ tr
  | .afterDeps dep _ _ _ r => ∃ d, Event.start dep d r ∈ tr
  | .afterScript dep _ _ _ r => ∃ d, Event.start dep d r ∈ tr
  | .afterStyle dep _ _ r => ∃ d, Event.start dep d r ∈ tr
  | .afterInit dep r => ∃ d, Event.start dep d r ∈ tr
  | .cssHash _ r => r < n ∧ r ∉ introduced tr

/-- The promises of a waiting caller were created by the calls they belong to. -/
def Act.RoleOK (tr : List Event) : Act → Prop
  | .loopCall _ _ q => ∃ c names, Event.call c names q ∈ tr
  | .runCall dep d r q =>
    Event.start dep d r ∈ tr ∧ Event.call (some dep) d.dependencies.toArray q ∈ tr

def Ctl.RoleOK (tr : List Event) : Ctl → Prop
  | .loop _ q => ∃ c names, Event.call c names q ∈ tr
  | .run dep r _ => ∃ d, Event.start dep d r ∈ tr
  | _ => True

/-- The callers below a `loadDependencies` call: each `_loadDependency(dep)` body
sits on the loop iteration that called it. -/
def PairStack : List Act → Prop
  | [] => True
  | .runCall dep _ _ _ :: .loopCall dep1 _ _ :: K => dep1 = dep ∧ PairStack K
  | _ => False

/-- The stack of callers fits the code being executed. -/
def StackOK (tr : List Event) : Ctl → List Act → Prop
  | .idle, K => K = []
  | .loop _ _, K => PairStack K
  | .ret, K => PairStack K
  | .run dep _ _, K => K = [] ∨ ∃ rest q K1, K = .loopCall dep rest q :: K1 ∧ PairStack K1
  | .retRun r, K =>
    K = [] ∨ ∃ dep rest q K1, K = .loopCall dep rest q :: K1 ∧
      (∃ d, Event.start dep d r ∈ tr) ∧ PairStack K1

/-- A continuation registered in the state, waiting or ready. -/
def State.hasFrame (st : State) (f : Frame) : Prop :=
  (∃ p, (p, f) ∈ st.waiters) ∨ (∃ o, (f, o) ∈ st.jobs)

/-- Promises are created once, and each pending call is owned by exactly one
continuation, waiting caller or executing call. -/
structure Inv1 (c : Config) : Prop where
  introLt : ∀ x ∈ introduced c.st.trace, x < c.st.promises.length
  introNodup : (introduced c.st.trace).Nodup
  resOnce : ∀ x, c.resCount x ≤ 1
  resPending : ∀ x, 0 < c.resCount x → c.st.promises.get? x = some .pending
  waitPending : ∀ w ∈ c.st.waiters, c.st.promises.get? w.1 = some .pending
  frameRole : ∀ f, c.st.hasFrame f → f.RoleOK c.st.trace c.st.promises.length
  actRole : ∀ a ∈ c.stack, a.RoleOK c.st.trace
  ctlRole : c.ctl.RoleOK c.st.trace
  loadedRole : ∀ x ∈ c.st.LOADED_DEPENDENCIES, ∃ d, Event.start x.1 d x.2 ∈ c.st.trace
  stackOK : StackOK c.st.trace c.ctl c.stack

/-! ## Invariants of the machine: what each call has done so far -/

/-- The `_loadDependency` call an event belongs to. -/
def Event.owner : Event → Option Run
  | .script o _ _ => some o
  | .link o _ _ => o
  | .init o _ => some o
  | .log o => some o
  | _ => none

/-- The script elements a call has appended: url and load promise, in order. -/
def ownScripts (o : Run) (tr : List Event) : List (String × Nat) :=
  tr.filterMap (fun e => match e with
    | .script o1 u p => if o1 = o then some (u, p) else none
    | _ => none)

/-- The link elements a call has appended: url and load promise, in order. -/
def ownLinks (o : Run) (tr : List Event) : List (String × Nat) :=
  tr.filterMap (fun e => match e with
    | .link (some o1) u p => if o1 = o then some (u, p) else none
    | _ => none)

/-- The `init()` calls a call has made. -/
def ownInits (o : Run) (tr : List Event) : List (Option Nat) :=
  tr.filterMap (fun e => match e with
    | .init o1 x => if o1 = o then some x else none
    | _ => none)

/-- The load signal of the element with promise `p` has been delivered. -/
def Fired (p : Nat) (tr : List Event) : Prop := Event.fired p true ∈ tr

/-- Every element of the list has signalled load, except the one with promise `pend`. -/
def AllFiredBut (l : List (String × Nat)) (pend : Option Nat) (tr : List Event) : Prop :=
  ∀ x ∈ l, some x.2 = pend ∨ Fired x.2 tr

/-- The loop of `loadDependencies` is done with the name: it warned about it,
or awaited a `_loadDependency` call for it that completed, or the name is an
inherited key whose memo read is truthy. -/
def Handled (x : Name) (tr : List Event) : Prop :=
  Event.warn x ∈ tr ∨ (∃ r, Event.log (x, r) ∈ tr) ∨ x ∈ objectPrototypeKeys

/-- Line 91 is behind: every listed dependency has been handled. -/
def DepsDone (d : Descriptor) (tr : List Event) : Prop :=
  d.dependencies.truthy = true → ∀ x ∈ d.dependencies.toArray, Handled x tr

/-- The scripts the loop at lines 94-99 goes through. -/
def declScripts (d : Descriptor) : List String :=
  if d.scripts.truthy then d.scripts.toArray else []

/-- The styles the loop at lines 101-106 goes through. -/
def declStyles (d : Descriptor) : List String :=
  if d.styles.truthy then d.styles.toArray else []

/-- The call has appended nothing, called nothing and logged nothing yet. -/
def Quiet (o : Run) (tr : List Event) : Prop :=
  ownScripts o tr = [] ∧ ownLinks o tr = [] ∧ ownInits o tr = [] ∧ Event.log o ∉ tr

/-- The call is in the script loop with `rest` still to load. -/
def AtScripts (o : Run) (d : Descriptor) (rest : List String) (pend : Option Nat)
    (tr : List Event) : Prop :=
  DepsDone d tr ∧ d.scripts.truthy = true ∧
  (ownScripts o tr).map Prod.fst ++ rest = d.scripts.toArray ∧
  AllFiredBut (ownScripts o tr) pend tr ∧
  ownLinks o tr = [] ∧ ownInits o tr = [] ∧ Event.log o ∉ tr

/-- The call has loaded all its scripts. -/
def ScriptsDone (o : Run) (d : Descriptor) (tr : List Event) : Prop :=
  DepsDone d tr ∧ (ownScripts o tr).map Prod.fst = declScripts d ∧
  AllFiredBut (ownScripts o tr) none tr

/-- The call is in the style loop with `rest` still to load. -/
def AtStyles (o : Run) (d : Descriptor) (rest : List String) (pend : Option Nat)
    (tr : List Event) : Prop :=
  ScriptsDone o d tr ∧ d.styles.truthy = true ∧
  (∃ done, d.styles.toArray = done ++ rest ∧ ((ownLinks o tr).map Prod.fst).Sublist done) ∧
  AllFiredBut (ownLinks o tr) pend tr ∧ ownInits o tr = [] ∧ Event.log o ∉ tr

/-- The call has gone through all its styles. -/
def StylesDone (o : Run) (d : Descriptor) (tr : List Event) : Prop :=
  ScriptsDone o d tr ∧ ((ownLinks o tr).map Prod.fst).Sublist (declStyles d) ∧
  AllFiredBut (ownLinks o tr) none tr

/-- The call is about to run lines 108-109. -/
def AtInit (o : Run) (d : Descriptor) (tr : List Event) : Prop :=
  StylesDone o d tr ∧ ownInits o tr = [] ∧ Event.log o ∉ tr

/-- The call is past lines 108-109. -/
def AfterInit (o : Run) (d : Descriptor) (tr : List Event) : Prop :=
  StylesDone o d tr ∧ (ownInits o tr).length = (if d.init.isSome then 1 else 0) ∧
  Event.log o ∉ tr

/-- How a continuation is registered: waiting on promise `p`, or ready with the
outcome of its `await`. -/
inductive Status where
  | wait (p : Nat)
  | ready (o : Option Err)

/-- The promise whose load signal a waiting continuation has not seen yet. -/
def PendOK (s : Status) (pend : Option Nat) : Prop :=
  match s with
  | .wait p => pend = some p
  | .ready none => pend = none
  | .ready (some _) => True

/-- The loop of the `loadDependencies` call with promise `q` has handled every
name before `names`. -/
def LoopFacts (tr : List Event) (names : List Name) (q : Nat) : Prop :=
  ∃ k all done, Event.call k all q ∈ tr ∧ all = done ++ names ∧ ∀ x ∈ done, Handled x tr

/-- What is known of the call a continuation belongs to. -/
def FrameFacts (tr : List Event) (s : Status) : Frame → Prop
  | .ld cur rest q =>
    LoopFacts tr (cur :: rest) q ∧
    (match s with
      | .wait m => ∃ d, Event.start cur d m ∈ tr
      | .ready none => Handled cur tr
      | .ready (some _) => True)
  | .afterDeps dep sc sty ini r =>
    ∃ d, Event.start dep d r ∈ tr ∧ sc = d.scripts ∧ sty = d.styles ∧ ini = d.init ∧
      Quiet (dep, r) tr ∧
      (match s with
        | .wait q => Event.call (some dep) d.dependencies.toArray q ∈ tr
        | .ready none => DepsDone d tr
        | .ready (some _) => True)
  | .afterScript dep rest sty ini r =>
    ∃ d pend, Event.start dep d r ∈ tr ∧ sty = d.styles ∧ ini = d.init ∧ PendOK s pend ∧
      AtScripts (dep, r) d rest pend tr ∧
      (match s with
        | .wait p => ∃ u, Event.script (dep, r) u p ∈ tr
        | _ => True)
  | .afterStyle dep rest ini r =>
    ∃ d pend, Event.start dep d r ∈ tr ∧ ini = d.init ∧ PendOK s pend ∧
      AtStyles (dep, r) d rest pend tr ∧
      (match s, pend with
        | .wait p, _ => ∃ u, Event.link (some (dep, r)) u p ∈ tr
        | _, _ => True)
  | .afterInit dep r =>
    ∃ d, Event.start dep d r ∈ tr ∧ AfterInit (dep, r) d tr ∧ d.init.isSome = true
  | .cssHash _ _ => True

/-- What is known of the call a waiting caller belongs to. -/
def ActFacts (tr : List Event) : Act → Prop
  | .loopCall cur rest q => LoopFacts tr (cur :: rest) q
  | .runCall dep _ r _ => Quiet (dep, r) tr

/-- What is known of the call being executed. -/
def CtlFacts (tr : List Event) : Ctl → Prop
  | .loop names q => LoopFacts tr names q
  | .run dep r ph =>
    ∃ d, Event.start dep d r ∈ tr ∧
      (match ph with
        | .scripts sc sty ini =>
          sc = d.scripts ∧ sty = d.styles ∧ ini = d.init ∧ Quiet (dep, r) tr ∧ DepsDone d tr
        | .loopScripts l sty ini =>
          sty = d.styles ∧ ini = d.init ∧ AtScripts (dep, r) d l none tr
        | .styles sty ini =>
          sty = d.styles ∧ ini = d.init ∧ ScriptsDone (dep, r) d tr ∧
            ownLinks (dep, r) tr = [] ∧ ownInits (dep, r) tr = [] ∧ Event.log (dep, r) ∉ tr
        | .loopStyles l ini => ini = d.init ∧ AtStyles (dep, r) d l none tr
        | .init ini => ini = d.init ∧ AtInit (dep, r) d tr
        | .finish => AfterInit (dep, r) d tr)
  | _ => True

/-- What holds of the trace before an event, at the time the event happens. -/
def Good (e : Event) (pre : List Event) : Prop :=
  match e with
  | .script o u _ => ∃ d rest, Event.start o.1 d o.2 ∈ pre ∧ AtScripts o d (u :: rest) none pre
  | .link (some o) u _ => ∃ d rest, Event.start o.1 d o.2 ∈ pre ∧ AtStyles o d (u :: rest) none pre
  | .init o _ => ∃ d, Event.start o.1 d o.2 ∈ pre ∧ AtInit o d pre ∧ d.init.isSome = true
  | .log o => ∃ d, Event.start o.1 d o.2 ∈ pre ∧ AfterInit o d pre
  | .fired p _ => (∃ e1 ∈ pre, ∃ url, e1.external = some (p, url)) ∧ ∀ ok, Event.fired p ok ∉ pre
  | _ => True

/-- Every event of the trace was good when it happened. -/
def TraceGood (tr : List Event) : Prop :=
  ∀ pre e post, tr = pre ++ e :: post → Good e pre

/-- What a fulfilled promise stands for: the loop of the call handled every name,
the `_loadDependency` call logged its completion, the element signalled load. -/
def Done (e : Event) (tr : List Event) : Prop :=
  match e with
  | .call _ all _ => ∀ x ∈ all, Handled x tr
  | .start dep _ r => Event.log (dep, r) ∈ tr
  | .script _ _ p => Fired p tr
  | .link _ _ p => Fired p tr
  | .init _ (some p) => Fired p tr
  | _ => True

/-- The `_loadDependency` call a continuation belongs to. -/
def Frame.run : Frame → Option Run
  | .afterDeps dep _ _ _ r => some (dep, r)
  | .afterScript dep _ _ _ r => some (dep, r)
  | .afterStyle dep _ _ r => some (dep, r)
  | .afterInit dep r => some (dep, r)
  | _ => none

/-- None of the events belongs to call `o`. -/
def NotBy (o : Run) (new : List Event) : Prop := ∀ e ∈ new, e.owner ≠ some o

/-- None of the events belongs to the call of the continuation. -/
def Foreign (new : List Event) (f : Frame) : Prop :=
  ∀ e ∈ new, ∀ o, e.owner = some o → f.run ≠ some o

/-- What holds of the state whatever is executing: every event was good when it
happened, every fulfilled promise stands for completed work, every delivered
signal settled its promise, and every registered continuation knows what its
call has done. -/
structure SFacts (st : State) : Prop where
  good : TraceGood st.trace
  done : ∀ e ∈ st.trace, ∀ p, e.intro = some p →
    st.promises.get? p = some .fulfilled → Done e st.trace
  firedSettled : ∀ p ok, Event.fired p ok ∈ st.trace →
    ∃ ps, st.promises.get? p = some ps ∧ ps ≠ .pending
  waitFacts : ∀ w ∈ st.waiters, FrameFacts st.trace (.wait w.1) w.2
  jobFacts : ∀ j ∈ st.jobs, FrameFacts st.trace (.ready j.2) j.1

/-- What holds of every call, whether suspended, waiting for a callee or
executing, and of every settled promise. -/
structure Inv3 (c : Config) : Prop where
  sf : SFacts c.st
  ctlFacts : CtlFacts c.st.trace c.ctl
  actFacts : ∀ a ∈ c.stack, ActFacts c.st.trace a
/-! ## Unfolding lemmas -/

theorem getDependency_congr (st st1 : State) (h1 : st1.DEPENDENCIES = st.DEPENDENCIES)
    (h2 : st1.depProto = st.depProto) (dep : Name) :
    st1.getDependency dep = st.getDependency dep := by
  simp only [State.getDependency, h1, h2]

theorem getLoaded_congr (st st1 : State) (h1 : st1.LOADED_DEPENDENCIES = st.LOADED_DEPENDENCIES)
    (dep : Name) : st1.getLoaded dep = st.getLoaded dep := by
  simp only [State.getLoaded, h1]

theorem loopDeps_nil (call : Name → State → Except State (State × Nat)) (r : Nat) (st : State) :
    loopDeps call [] r st = .ok (st.settle r none) := rfl

theorem loopDeps_warn (call : Name → State → Except State (State × Nat)) (dep : Name)
    (rest : List Name) (r : Nat) (st : State) (h : (st.getDependency dep).truthy = false) :
    loopDeps call (dep :: rest) r st = loopDeps call rest r (st.emit (.warn dep)) := by
  simp [loopDeps, h]

theorem loopDeps_promise (call : Name → State → Except State (State × Nat)) (dep : Name)
    (rest : List Name) (r : Nat) (st : State) (p : Nat)
    (h : (st.getDependency dep).truthy = true) (hl : st.getLoaded dep = .promise p) :
    loopDeps call (dep :: rest) r st = .ok (st.await p (.ld dep rest r)) := by
  simp [loopDeps, h, hl]

theorem loopDeps_inherited (call : Name → State → Except State (State × Nat)) (dep : Name)
    (rest : List Name) (r : Nat) (st : State)
    (h : (st.getDependency dep).truthy = true) (hl : st.getLoaded dep = .inherited) :
    loopDeps call (dep :: rest) r st = .ok (st.awaitValue (.ld dep rest r)) := by
  simp [loopDeps, h, hl]

theorem loopDeps_call_error (call : Name → State → Except State (State × Nat)) (dep : Name)
    (rest : List Name) (r : Nat) (st e : State)
    (h : (st.getDependency dep).truthy = true) (hl : st.getLoaded dep = .undefined)
    (hc : call dep st = .error e) :
    loopDeps call (dep :: rest) r st = .error e := by
  simp [loopDeps, h, hl, hc]

theorem loopDeps_call_ok (call : Name → State → Except State (State × Nat)) (dep : Name)
    (rest : List Name) (r : Nat) (st st1 : State) (p : Nat)
    (h : (st.getDependency dep).truthy = true) (hl : st.getLoaded dep = .undefined)
    (hc : call dep st = .ok (st1, p)) :
    loopDeps call (dep :: rest) r st
      = .ok (({ st1 with LOADED_DEPENDENCIES := (dep, p) :: st1.LOADED_DEPENDENCIES } : State).await
          p (.ld dep rest r)) := by
  simp [loopDeps, h, hl, hc]

theorem loopScripts_nil (dep : Name) (styles : Field) (init : Option InitFn) (r : Nat)
    (st : State) : loopScripts dep [] styles init r st = stylesPhase dep styles init r st := rfl

theorem loopScripts_cons (dep : Name) (u : String) (rest : List String) (styles : Field)
    (init : Option InitFn) (r : Nat) (st : State) :
    loopScripts dep (u :: rest) styles init r st
      = ((st.newPromise .pending).1.emit (.script (dep, r) u st.promises.length)).await
          st.promises.length (.afterScript dep rest styles init r) := rfl

theorem loopStyles_nil (dep : Name) (init : Option InitFn) (r : Nat) (st : State) :
    loopStyles dep [] init r st = initPhase dep init r st := rfl

theorem loopStyles_cons (dep : Name) (u : String) (rest : List String) (init : Option InitFn)
    (r : Nat) (st : State) :
    loopStyles dep (u :: rest) init r st
      = (loadCss (some (dep, r)) (some u) none st).1.await (loadCss (some (dep, r)) (some u) none st).2
          (.afterStyle dep rest init r) := rfl

theorem initPhase_none (dep : Name) (r : Nat) (st : State) :
    initPhase dep none r st = finishDep dep r st := rfl

theorem initPhase_sync (dep : Name) (r : Nat) (st : State) :
    initPhase dep (some .sync) r st
      = (st.emit (.init (dep, r) none)).awaitValue (.afterInit dep r) := rfl

theorem initPhase_throws (dep : Name) (r : Nat) (st : State) :
    initPhase dep (some .throws) r st
      = (st.emit (.init (dep, r) none)).settle r (some .initFailed) := rfl

theorem initPhase_async (dep : Name) (r : Nat) (st : State) :
    initPhase dep (some .async) r st
      = ((st.newPromise .pending).1.emit (.init (dep, r) (some st.promises.length))).await
          st.promises.length (.afterInit dep r) := rfl

theorem loadDependency_zero (dep : Name) (st : State) : loadDependency 0 dep st = .error st := rfl

theorem loadDependency_nested (n : Nat) (dep : Name) (st : State)
    (h : (st.getDependency dep).destructure.dependencies.truthy = true) :
    loadDependency (n + 1) dep st =
      match loopDeps (loadDependency n) (st.getDependency dep).destructure.dependencies.toArray
          (st.promises.length + 1) (nestedCallState dep (st.getDependency dep).destructure st) with
      | .error e => .error e
      | .ok st4 =>
        .ok (st4.await (st.promises.length + 1)
          (.afterDeps dep (st.getDependency dep).destructure.scripts
            (st.getDependency dep).destructure.styles (st.getDependency dep).destructure.init
            st.promises.length), st.promises.length) := by
  simp [loadDependency, h, nestedCallState, State.newPromise, State.emit]

theorem loadDependency_leaf (n : Nat) (dep : Name) (st : State)
    (h : (st.getDependency dep).destructure.dependencies.truthy = false) :
    loadDependency (n + 1) dep st =
      .ok (scriptsPhase dep (st.getDependency dep).destructure.scripts
        (st.getDependency dep).destructure.styles (st.getDependency dep).destructure.init
        st.promises.length (leafCallState dep (st.getDependency dep).destructure st),
        st.promises.length) := by
  simp [loadDependency, h, leafCallState, State.newPromise, State.emit]

theorem argTruthy_some {u : String} (hu : u ≠ "") : argTruthy (some u) = true := by
  simp [argTruthy, hu]

theorem get?_newPromise (st : State) (ps : PState) :
    (st.newPromise ps).1.promises.get? (st.newPromise ps).2 = some ps := by
  simp [State.newPromise]

theorem loadCss_content (owner : Option Run) (url content : Option String) (st : State)
    (hc : argTruthy content = true) :
    loadCss owner url content st
      = ({ st with promises := st.promises ++ [.pending],
                   jobs := st.jobs ++ [(.cssHash (content.getD "") st.promises.length, none)] },
         st.promises.length) := by
  simp [loadCss, hc, State.newPromise, State.awaitValue]

theorem loadCss_loaded (owner : Option Run) (url content : Option String) (st : State)
    (hc : argTruthy content = false) (hu : argTruthy url = true)
    (hm : url.getD "" ∈ st.loadedCss) :
    loadCss owner url content st
      = ({ st with promises := st.promises ++ [.fulfilled] }, st.promises.length) := by
  simp [loadCss, hc, hu, hm, State.newPromise]

theorem loadCss_new (owner : Option Run) (url content : Option String) (st : State)
    (hc : argTruthy content = false) (hu : argTruthy url = true)
    (hm : url.getD "" ∉ st.loadedCss) :
    loadCss owner url content st
      = ({ st with loadedCss := st.loadedCss ++ [url.getD ""],
                   promises := st.promises ++ [.pending],
                   trace := st.trace ++ [.link owner (url.getD "") st.promises.length] },
         st.promises.length) := by
  simp [loadCss, hc, hu, hm, State.newPromise, State.emit]

theorem loadCss_usage (owner : Option Run) (url content : Option String) (st : State)
    (hc : argTruthy content = false) (hu : argTruthy url = false) :
    loadCss owner url content st
      = ({ st with promises := st.promises ++ [.rejected .usage] }, st.promises.length) := by
  simp [loadCss, hc, hu, State.newPromise]

theorem loadCssContent_loaded (h : Host) (c : String) (r : Nat) (st : State)
    (hm : hash h c ∈ st.loadedCss) : loadCssContent h c r st = st.settle r none := by
  simp [loadCssContent, hm]

theorem loadCssContent_new (h : Host) (c : String) (r : Nat) (st : State)
    (hm : hash h c ∉ st.loadedCss) :
    loadCssContent h c r st
      = (({ st with loadedCss := st.loadedCss ++ [hash h c] } : State).emit (.style c)).settle r none := by
  simp [loadCssContent, hm]

/-! ## Properties preserved by every primitive operation -/

namespace Stable

variable {h : Host} {P : State → Prop} (hP : Stable h P)
include hP

theorem finishDep (dep : Name) (r : Nat) (st : State) (hs : P st) : P (finishDep dep r st) :=
  hP.settle _ _ _ (hP.emit _ _ (by rfl) hs)

theorem initPhase (dep : Name) (init : Option InitFn) (r : Nat) (st : State) (hs : P st) :
    P (initPhase dep init r st) := by
  match init with
  | none => exact hP.finishDep dep r st hs
  | some .sync =>
    rw [initPhase_sync]
    exact hP.awaitValue _ _ (hP.emit _ _ (by rfl) hs)
  | some .throws =>
    rw [initPhase_throws]
    exact hP.settle _ _ _ (hP.emit _ _ (by rfl) hs)
  | some .async =>
    rw [initPhase_async]
    exact hP.await _ _ _ (hP.emit _ _ (by rfl) (hP.newPromise _ _ hs))

theorem loopStyles (dep : Name) (styles : List String) (init : Option InitFn) (r : Nat)
    (st : State) (hs : P st) : P (loopStyles dep styles init r st) := by
  match styles with
  | [] => exact hP.initPhase dep init r st hs
  | u :: rest =>
    rw [loopStyles_cons]
    exact hP.await _ _ _ (hP.loadCss _ _ _ _ hs)

theorem stylesPhase (dep : Name) (styles : Field) (init : Option InitFn) (r : Nat)
    (st : State) (hs : P st) : P (stylesPhase dep styles init r st) := by
  unfold Dlopen.stylesPhase
  split
  · exact hP.loopStyles dep _ init r st hs
  · exact hP.initPhase dep init r st hs

theorem loopScripts (dep : Name) (scripts : List String) (styles : Field)
    (init : Option InitFn) (r : Nat) (st : State) (hs : P st) :
    P (loopScripts dep scripts styles init r st) := by
  match scripts with
  | [] => exact hP.stylesPhase dep styles init r st hs
  | u :: rest =>
    rw [loopScripts_cons]
    exact hP.await _ _ _ (hP.emit _ _ (by rfl) (hP.newPromise _ _ hs))

theorem scriptsPhase (dep : Name) (scripts styles : Field) (init : Option InitFn) (r : Nat)
    (st : State) (hs : P st) : P (scriptsPhase dep scripts styles init r st) := by
  unfold Dlopen.scriptsPhase
  split
  · exact hP.loopScripts dep _ styles init r st hs
  · exact hP.stylesPhase dep styles init r st hs

theorem loopDeps (call : Name → State → Except State (State × Nat))
    (hcall : ∀ d st st1 p, P st → call d st = .ok (st1, p) → P st1) :
    ∀ (deps : List Name) (r : Nat) (st st1 : State), P st →
      loopDeps call deps r st = .ok st1 → P st1 := by
  intro deps
  induction deps with
  | nil =>
    intro r st st1 hs he
    rw [loopDeps_nil] at he
    cases he
    exact hP.settle _ _ _ hs
  | cons dep rest ih =>
    intro r st st1 hs he
    by_cases ht : (st.getDependency dep).truthy = true
    · cases hl : st.getLoaded dep with
      | undefined =>
        cases hc : call dep st with
        | error e => rw [loopDeps_call_error _ _ _ _ _ e ht hl hc] at he; cases he
        | ok res =>
          obtain ⟨st2, p⟩ := res
          rw [loopDeps_call_ok _ _ _ _ _ st2 p ht hl hc] at he
          cases he
          exact hP.await _ _ _ (hP.setLoaded _ _ _ (hcall _ _ _ _ hs hc))
      | promise p =>
        rw [loopDeps_promise _ _ _ _ _ p ht hl] at he
        cases he
        exact hP.await _ _ _ hs
      | inherited =>
        rw [loopDeps_inherited _ _ _ _ _ ht hl] at he
        cases he
        exact hP.awaitValue _ _ hs
    · simp only [Bool.not_eq_true] at ht
      rw [loopDeps_warn _ _ _ _ _ ht] at he
      exact ih r _ st1 (hP.emit _ _ (by rfl) hs) he

theorem loadDependency (n : Nat) :
    ∀ (dep : Name) (st st1 : State) (p : Nat), P st →
      loadDependency n dep st = .ok (st1, p) → P st1 := by
  induction n with
  | zero => intro dep st st1 p _ he; cases he
  | succ n ih =>
    intro dep st st1 p hs he
    by_cases ht : (st.getDependency dep).destructure.dependencies.truthy = true
    · rw [loadDependency_nested n dep st ht] at he
      have h3 : P (nestedCallState dep (st.getDependency dep).destructure st) :=
        hP.emit _ _ (by rfl) (hP.newPromise _ .pending (hP.emit _ _ (by rfl) (hP.newPromise _ .pending hs)))
      split at he
      · cases he
      · rename_i st4 hl
        cases he
        exact hP.await _ _ _ (hP.loopDeps _ ih _ _ _ _ h3 hl)
    · simp only [Bool.not_eq_true] at ht
      rw [loadDependency_leaf n dep st ht] at he
      cases he
      exact hP.scriptsPhase _ _ _ _ _ _ (hP.emit _ _ (by rfl) (hP.newPromise _ .pending hs))

theorem resume (stack : Nat) (f : Frame) (o : Option Err) (st st1 : State) (hs : P st)
    (he : resume h stack f o st = .ok st1) : P st1 := by
  unfold Dlopen.resume at he
  split at he
  · exact hP.loopDeps _ (hP.loadDependency stack) _ _ _ _ hs he
  · cases he; exact hP.settle _ _ _ hs
  · cases he; exact hP.scriptsPhase _ _ _ _ _ _ hs
  · cases he; exact hP.settle _ _ _ hs
  · cases he; exact hP.loopScripts _ _ _ _ _ _ hs
  · cases he; exact hP.settle _ _ _ hs
  · cases he; exact hP.loopStyles _ _ _ _ _ hs
  · cases he; exact hP.settle _ _ _ hs
  · cases he; exact hP.finishDep _ _ _ hs
  · cases he; exact hP.settle _ _ _ hs
  · cases he; exact hP.loadCssContent _ _ _ hs
  · cases he; exact hP.settle _ _ _ hs

theorem step_Stable (stack : Nat) (a : Action) (st st1 : State) (hs : P st)
    (he : step h stack st a = .ok st1) : P st1 := by
  cases a with
  | register n d => cases he; exact hP.register _ _ _ hs
  | loadDependencies names =>
    simp only [Dlopen.step, Dlopen.loadDependencies] at he
    split at he
    · cases he
    · rename_i st2 r hl
      cases he
      split at hl
      · cases hl
      · rename_i st3 hl3
        cases hl
        exact hP.loopDeps _ (hP.loadDependency stack) _ _ _ _
          (hP.newPromise _ _ (hP.emit _ _ (by rfl) hs)) hl3
  | loadCss url content => cases he; exact hP.loadCss _ _ _ _ hs
  | settle p ok =>
    simp only [Dlopen.step] at he
    split at he
    · cases he; exact hP.settle _ _ _ (hP.emit _ _ (by rfl) hs)
    · cases he; exact hs
  | tick i =>
    simp only [Dlopen.step] at he
    split at he
    · cases he; exact hs
    · exact hP.resume stack _ _ _ _ (hP.dropJob _ _ hs) he

theorem exec (stack : Nat) (as : List Action) :
    ∀ (st st1 : State), P st → exec h stack st as = .ok st1 → P st1 := by
  induction as with
  | nil => intro st st1 hs he; cases he; exact hs
  | cons a as ih =>
    intro st st1 hs he
    simp only [Dlopen.exec] at he
    split at he
    · cases he
    · rename_i st2 h2
      exact ih st2 st1 (hP.step_Stable stack a st st2 hs h2) he

end Stable

/-! ## Every turn of `step` is a sequence of machine transitions -/

theorem MicroStar.trans {h : Host} {a b c : Config} (h1 : MicroStar h a b)
    (h2 : MicroStar h b c) : MicroStar h a c := by
  induction h2 with
  | refl => exact h1
  | tail _ hs ih => exact MicroStar.tail ih hs

theorem MicroStar.single {h : Host} {a b : Config} (h1 : Micro h a b) : MicroStar h a b :=
  MicroStar.tail (MicroStar.refl a) h1

theorem MicroStar.head {h : Host} {a b c : Config} (h1 : Micro h a b) (h2 : MicroStar h b c) :
    MicroStar h a c :=
  MicroStar.trans (MicroStar.single h1) h2

theorem await_wait (st : State) (p : Nat) (f : Frame)
    (hp : outcomeOf (st.promises.getD p .pending) = none) : st.await p f = st.addWaiter p f := by
  unfold State.await
  rw [List.getD_eq_getElem?_getD] at hp
  rw [List.get?_eq_getElem?]
  cases hg : st.promises[p]? with
  | none => rfl
  | some ps =>
    rw [hg] at hp
    simp only [Option.getD_some] at hp
    simp only [hp]
    rfl

theorem await_ready (st : State) (p : Nat) (f : Frame) (o : Option Err)
    (hp : outcomeOf (st.promises.getD p .pending) = some o) : st.await p f = st.addJob f o := by
  unfold State.await
  rw [List.getD_eq_getElem?_getD] at hp
  rw [List.get?_eq_getElem?]
  cases hg : st.promises[p]? with
  | none => rw [hg] at hp; simp [outcomeOf] at hp
  | some ps =>
    rw [hg] at hp
    simp only [Option.getD_some] at hp
    simp only [hp]
    rfl

theorem await_fresh (st : State) (ps : PState) :
    outcomeOf ((st.newPromise ps).1.promises.getD st.promises.length .pending) = outcomeOf ps := by
  simp [State.newPromise]

theorem sim_finish (h : Host) (dep : Name) (r : Nat) (st : State) (K : List Act) :
    MicroStar h ⟨st, .run dep r .finish, K⟩ ⟨finishDep dep r st, .retRun r, K⟩ :=
  MicroStar.single (Micro.finish dep r st K)

theorem sim_initPhase (h : Host) (dep : Name) (ini : Option InitFn) (r : Nat) (st : State)
    (K : List Act) :
    MicroStar h ⟨st, .run dep r (.init ini), K⟩ ⟨initPhase dep ini r st, .retRun r, K⟩ := by
  match ini with
  | none => exact MicroStar.head (Micro.initNone dep r st K) (sim_finish h dep r st K)
  | some .sync => exact MicroStar.single (Micro.initSync dep r st K)
  | some .throws => exact MicroStar.single (Micro.initThrows dep r st K)
  | some .async =>
    rw [initPhase_async, await_wait _ _ _ (by simp [State.newPromise, State.emit, outcomeOf])]
    exact MicroStar.single (Micro.initAsync dep r st K)

theorem sim_loopStyles (h : Host) (dep : Name) (l : List String) (ini : Option InitFn) (r : Nat)
    (st : State) (K : List Act) :
    MicroStar h ⟨st, .run dep r (.loopStyles l ini), K⟩ ⟨loopStyles dep l ini r st, .retRun r, K⟩ := by
  match l with
  | [] => exact MicroStar.head (Micro.stylesDone dep r ini st K) (sim_initPhase h dep ini r st K)
  | u :: rest =>
    rw [loopStyles_cons]
    by_cases hu : u = ""
    · subst hu
      rw [loadCss_usage (some (dep, r)) (some "") none st rfl rfl]
      rw [await_ready _ _ _ (some .usage) (by simp [outcomeOf])]
      exact MicroStar.single (Micro.styleUsage dep r rest ini st K)
    · by_cases hm : u ∈ st.loadedCss
      · rw [loadCss_loaded (some (dep, r)) (some u) none st rfl (argTruthy_some hu) hm]
        rw [await_ready _ _ _ none (by simp [outcomeOf])]
        exact MicroStar.single (Micro.styleLoaded dep r u rest ini st K hu hm)
      · rw [loadCss_new (some (dep, r)) (some u) none st rfl (argTruthy_some hu) hm]
        rw [await_wait _ _ _ (by simp [outcomeOf])]
        exact MicroStar.single (Micro.styleNew dep r u rest ini st K hu hm)

theorem sim_stylesPhase (h : Host) (dep : Name) (sty : Field) (ini : Option InitFn) (r : Nat)
    (st : State) (K : List Act) :
    MicroStar h ⟨st, .run dep r (.styles sty ini), K⟩ ⟨stylesPhase dep sty ini r st, .retRun r, K⟩ := by
  unfold stylesPhase
  by_cases ht : sty.truthy = true
  · rw [if_pos ht]
    exact MicroStar.head (Micro.stylesYes dep r sty ini st K ht) (sim_loopStyles h dep _ ini r st K)
  · rw [if_neg ht]
    simp only [Bool.not_eq_true] at ht
    exact MicroStar.head (Micro.stylesNo dep r sty ini st K ht) (sim_initPhase h dep ini r st K)

theorem sim_loopScripts (h : Host) (dep : Name) (l : List String) (sty : Field)
    (ini : Option InitFn) (r : Nat) (st : State) (K : List Act) :
    MicroStar h ⟨st, .run dep r (.loopScripts l sty ini), K⟩
      ⟨loopScripts dep l sty ini r st, .retRun r, K⟩ := by
  match l with
  | [] =>
    exact MicroStar.head (Micro.scriptsDone dep r sty ini st K) (sim_stylesPhase h dep sty ini r st K)
  | u :: rest =>
    rw [loopScripts_cons, await_wait _ _ _ (by simp [State.newPromise, State.emit, outcomeOf])]
    exact MicroStar.single (Micro.script dep r u rest sty ini st K)

theorem sim_scriptsPhase (h : Host) (dep : Name) (sc sty : Field) (ini : Option InitFn) (r : Nat)
    (st : State) (K : List Act) :
    MicroStar h ⟨st, .run dep r (.scripts sc sty ini), K⟩
      ⟨scriptsPhase dep sc sty ini r st, .retRun r, K⟩ := by
  unfold scriptsPhase
  by_cases ht : sc.truthy = true
  · rw [if_pos ht]
    exact MicroStar.head (Micro.scriptsYes dep r sc sty ini st K ht)
      (sim_loopScripts h dep _ sty ini r st K)
  · rw [if_neg ht]
    simp only [Bool.not_eq_true] at ht
    exact MicroStar.head (Micro.scriptsNo dep r sc sty ini st K ht)
      (sim_stylesPhase h dep sty ini r st K)

theorem sim_loopDeps (h : Host) (call : Name → State → Except State (State × Nat))
    (hcall : ∀ (dep : Name) (rest : List Name) (q : Nat) (st st1 : State) (p : Nat) (K : List Act),
      (st.getDependency dep).truthy = true → st.getLoaded dep = .undefined →
      call dep st = .ok (st1, p) →
      MicroStar h ⟨st, .loop (dep :: rest) q, K⟩ ⟨st1, .retRun p, .loopCall dep rest q :: K⟩) :
    ∀ (deps : List Name) (q : Nat) (st st1 : State) (K : List Act),
      loopDeps call deps q st = .ok st1 → MicroStar h ⟨st, .loop deps q, K⟩ ⟨st1, .ret, K⟩ := by
  intro deps
  induction deps with
  | nil =>
    intro q st st1 K he
    rw [loopDeps_nil] at he
    cases he
    exact MicroStar.single (Micro.loopEnd q st K)
  | cons dep rest ih =>
    intro q st st1 K he
    by_cases ht : (st.getDependency dep).truthy = true
    · cases hl : st.getLoaded dep with
      | undefined =>
        cases hc : call dep st with
        | error e => rw [loopDeps_call_error _ _ _ _ _ e ht hl hc] at he; cases he
        | ok res =>
          obtain ⟨st2, p⟩ := res
          rw [loopDeps_call_ok _ _ _ _ _ st2 p ht hl hc] at he
          cases he
          refine MicroStar.tail (hcall dep rest q st st2 p K ht hl hc) ?_
          show Micro h _ ⟨(st2.setLoaded dep p).await p (.ld dep rest q), .ret, K⟩
          cases ho : outcomeOf (st2.promises.getD p .pending) with
          | none =>
            rw [await_wait (st2.setLoaded dep p) _ _ ho]
            exact Micro.retLoopWait dep rest q p st2 K ho
          | some o =>
            rw [await_ready (st2.setLoaded dep p) _ _ o ho]
            exact Micro.retLoopReady dep rest q p o st2 K ho
      | promise p =>
        rw [loopDeps_promise _ _ _ _ _ p ht hl] at he
        cases he
        cases ho : outcomeOf (st.promises.getD p .pending) with
        | none =>
          rw [await_wait _ _ _ ho]
          exact MicroStar.single (Micro.memoWait dep rest q p st K ht hl ho)
        | some o =>
          rw [await_ready _ _ _ o ho]
          exact MicroStar.single (Micro.memoReady dep rest q p o st K ht hl ho)
      | inherited =>
        rw [loopDeps_inherited _ _ _ _ _ ht hl] at he
        cases he
        exact MicroStar.single (Micro.inherited dep rest q st K ht hl)
    · simp only [Bool.not_eq_true] at ht
      rw [loopDeps_warn _ _ _ _ _ ht] at he
      exact MicroStar.head (Micro.warn dep rest q st K ht) (ih q _ st1 K he)

theorem sim_loadDependency (h : Host) (n : Nat) :
    ∀ (dep : Name) (rest : List Name) (q : Nat) (st st1 : State) (p : Nat) (K : List Act),
      (st.getDependency dep).truthy = true → st.getLoaded dep = .undefined →
      loadDependency n dep st = .ok (st1, p) →
      MicroStar h ⟨st, .loop (dep :: rest) q, K⟩ ⟨st1, .retRun p, .loopCall dep rest q :: K⟩ := by
  induction n with
  | zero => intro dep rest q st st1 p K _ _ he; cases he
  | succ n ih =>
    intro dep rest q st st1 p K ht hl he
    by_cases hd : (st.getDependency dep).destructure.dependencies.truthy = true
    · rw [loadDependency_nested n dep st hd] at he
      split at he
      · cases he
      · rename_i st4 hl4
        cases he
        refine MicroStar.head (Micro.enterNested dep rest q st K ht hl hd) ?_
        refine MicroStar.tail (sim_loopDeps h _ ih _ _ _ _ _ hl4) ?_
        cases ho : outcomeOf (st4.promises.getD (st.promises.length + 1) .pending) with
        | none =>
          rw [await_wait _ _ _ ho]
          exact Micro.retNestedWait dep _ _ _ st4 _ ho
        | some o =>
          rw [await_ready _ _ _ o ho]
          exact Micro.retNestedReady dep _ _ _ o st4 _ ho
    · simp only [Bool.not_eq_true] at hd
      rw [loadDependency_leaf n dep st hd] at he
      cases he
      exact MicroStar.head (Micro.enterLeaf dep rest q st K ht hl hd)
        (sim_scriptsPhase h dep _ _ _ _ _ _)

theorem sim_resume (h : Host) (stack : Nat) (i : Nat) (f : Frame) (o : Option Err)
    (st st1 : State) (hg : st.jobs.get? i = some (f, o))
    (he : resume h stack f o (st.dropJob i) = .ok st1) :
    MicroStar h ⟨st, .idle, []⟩ ⟨st1, .idle, []⟩ := by
  cases o with
  | some e =>
    have : st1 = (st.dropJob i).settle f.result (some e) := by
      cases f <;> (simp only [resume] at he; cases he; rfl)
    subst this
    exact MicroStar.single (Micro.resumeErr i f e st hg)
  | none =>
    cases f with
    | ld dep rest r =>
      simp only [resume] at he
      exact MicroStar.head (Micro.resumeLd i dep rest r st hg)
        (MicroStar.tail (sim_loopDeps h _ (sim_loadDependency h stack) _ _ _ _ _ he)
          (Micro.retIdle st1))
    | afterDeps dep sc sty ini r =>
      simp only [resume] at he
      cases he
      exact MicroStar.head (Micro.resumeDeps i dep sc sty ini r st hg)
        (MicroStar.tail (sim_scriptsPhase h dep sc sty ini r _ []) (Micro.retRunIdle r _))
    | afterScript dep rest sty ini r =>
      simp only [resume] at he
      cases he
      exact MicroStar.head (Micro.resumeScript i dep rest sty ini r st hg)
        (MicroStar.tail (sim_loopScripts h dep rest sty ini r _ []) (Micro.retRunIdle r _))
    | afterStyle dep rest ini r =>
      simp only [resume] at he
      cases he
      exact MicroStar.head (Micro.resumeStyle i dep rest ini r st hg)
        (MicroStar.tail (sim_loopStyles h dep rest ini r _ []) (Micro.retRunIdle r _))
    | afterInit dep r =>
      simp only [resume] at he
      cases he
      exact MicroStar.head (Micro.resumeInit i dep r st hg)
        (MicroStar.tail (sim_finish h dep r _ []) (Micro.retRunIdle r _))
    | cssHash c r =>
      simp only [resume] at he
      cases he
      by_cases hm : hash h c ∈ st.loadedCss
      · rw [loadCssContent_loaded h c r (st.dropJob i) hm]
        exact MicroStar.single (Micro.resumeCssLoaded i c r st hg hm)
      · rw [loadCssContent_new h c r (st.dropJob i) hm]
        exact MicroStar.single (Micro.resumeCssNew i c r st hg hm)

theorem sim_step (h : Host) (stack : Nat) (a : Action) (st st1 : State)
    (he : step h stack st a = .ok st1) : MicroStar h ⟨st, .idle, []⟩ ⟨st1, .idle, []⟩ := by
  cases a with
  | register n d => cases he; exact MicroStar.single (Micro.register n d st)
  | loadDependencies names =>
    simp only [step, loadDependencies] at he
    split at he
    · cases he
    · rename_i st2 r hl
      cases he
      split at hl
      · cases hl
      · rename_i st3 hl3
        cases hl
        exact MicroStar.head (Micro.call names st)
          (MicroStar.tail (sim_loopDeps h _ (sim_loadDependency h stack) _ _ _ _ _ hl3)
            (Micro.retIdle _))
  | loadCss url content =>
    cases he
    by_cases hc : argTruthy content = true
    · rw [loadCss_content none url content st hc]
      exact MicroStar.single (Micro.cssContent url content st hc)
    · simp only [Bool.not_eq_true] at hc
      by_cases hu : argTruthy url = true
      · by_cases hm : url.getD "" ∈ st.loadedCss
        · rw [loadCss_loaded none url content st hc hu hm]
          exact MicroStar.single (Micro.cssLoaded url content st hc hu hm)
        · rw [loadCss_new none url content st hc hu hm]
          exact MicroStar.single (Micro.cssNew url content st hc hu hm)
      · simp only [Bool.not_eq_true] at hu
        rw [loadCss_usage none url content st hc hu]
        exact MicroStar.single (Micro.cssUsage url content st hc hu)
  | settle p ok =>
    simp only [step] at he
    split at he
    · rename_i url hu hp
      cases he
      exact MicroStar.single (Micro.signal p ok url st hu hp)
    · cases he; exact MicroStar.refl _
  | tick i =>
    simp only [step] at he
    split at he
    · cases he; exact MicroStar.refl _
    · rename_i f o hg
      exact sim_resume h stack i f o st st1 hg he

theorem sim_exec (h : Host) (stack : Nat) (as : List Action) :
    ∀ (st st1 : State), exec h stack st as = .ok st1 →
      MicroStar h ⟨st, .idle, []⟩ ⟨st1, .idle, []⟩ := by
  induction as with
  | nil => intro st st1 he; cases he; exact MicroStar.refl _
  | cons a as ih =>
    intro st st1 he
    simp only [exec] at he
    split at he
    · cases he
    · rename_i st2 h2
      exact MicroStar.trans (sim_step h stack a st st2 h2) (ih st2 st1 he)

/-- An invariant of the machine holds after every run of `exec`. -/
theorem invariant_exec (h : Host) (I : Config → Prop)
    (hI : ∀ c c1, I c → Micro h c c1 → I c1) (stack : Nat) (as : List Action) (st st1 : State)
    (h0 : I ⟨st, .idle, []⟩) (he : exec h stack st as = .ok st1) : I ⟨st1, .idle, []⟩ := by
  have hs := sim_exec h stack as st st1 he
  generalize hc0 : (⟨st, .idle, []⟩ : Config) = c0 at hs h0
  generalize hc1 : (⟨st1, .idle, []⟩ : Config) = c1 at hs
  clear hc0 hc1
  induction hs with
  | refl => exact h0
  | tail _ hm ih => exact hI _ _ ih hm

/-! ## Stylesheet deduplication -/

theorem settle_loadedCss (st : State) (p : Nat) (o : Option Err) :
    (st.settle p o).loadedCss = st.loadedCss ∧ (st.settle p o).trace = st.trace := by
  unfold State.settle
  split <;> exact ⟨rfl, rfl⟩

theorem await_loadedCss (st : State) (p : Nat) (f : Frame) :
    (st.await p f).loadedCss = st.loadedCss ∧ (st.await p f).trace = st.trace := by
  unfold State.await
  split
  · split <;> exact ⟨rfl, rfl⟩
  · exact ⟨rfl, rfl⟩

theorem register_loadedCss (st : State) (n : Name) (d : Descriptor) :
    (register n d st).loadedCss = st.loadedCss ∧ (register n d st).trace = st.trace := by
  unfold register
  split <;> exact ⟨rfl, rfl⟩

theorem loadCss_cases (owner : Option Run) (url content : Option String) (st : State) :
    ((loadCss owner url content st).1.loadedCss = st.loadedCss ∧
      (loadCss owner url content st).1.trace = st.trace) ∨
    (argTruthy url = true ∧ url.getD "" ∉ st.loadedCss ∧
      (loadCss owner url content st).1.loadedCss = st.loadedCss ++ [url.getD ""] ∧
      (loadCss owner url content st).1.trace
        = st.trace ++ [.link owner (url.getD "") st.promises.length]) := by
  by_cases hc : argTruthy content = true
  · rw [loadCss_content owner url content st hc]; exact Or.inl ⟨rfl, rfl⟩
  · simp only [Bool.not_eq_true] at hc
    by_cases hu : argTruthy url = true
    · by_cases hm : url.getD "" ∈ st.loadedCss
      · rw [loadCss_loaded owner url content st hc hu hm]; exact Or.inl ⟨rfl, rfl⟩
      · rw [loadCss_new owner url content st hc hu hm]; exact Or.inr ⟨hu, hm, rfl, rfl⟩
    · simp only [Bool.not_eq_true] at hu
      rw [loadCss_usage owner url content st hc hu]; exact Or.inl ⟨rfl, rfl⟩

theorem CssInv.stable (h : Host) : Stable h (CssInv h) where
  emit st e he hs := by
    refine ⟨?_, hs.2⟩
    show st.loadedCss = (st.trace ++ [e]).filterMap (Event.cssKey h)
    rw [List.filterMap_append, ← hs.1]
    simp [he]
  newPromise st ps hs := hs
  await st p f hs := by
    unfold CssInv
    rw [(await_loadedCss st p f).1, (await_loadedCss st p f).2]; exact hs
  awaitValue st f hs := hs
  settle st p o hs := by
    unfold CssInv
    rw [(settle_loadedCss st p o).1, (settle_loadedCss st p o).2]; exact hs
  setLoaded st d p hs := hs
  register st n d hs := by
    unfold CssInv
    rw [(register_loadedCss st n d).1, (register_loadedCss st n d).2]; exact hs
  dropJob st i hs := hs
  loadCss st owner url content hs := by
    unfold CssInv
    rcases loadCss_cases owner url content st with ⟨h1, h2⟩ | ⟨_, hm, h1, h2⟩
    · rw [h1, h2]; exact hs
    · rw [h1, h2, List.filterMap_append, ← hs.1]
      refine ⟨by simp [Event.cssKey], ?_⟩
      exact List.Nodup.append hs.2 (List.nodup_singleton _) (by simpa using hm)
  loadCssContent st c r hs := by
    unfold CssInv
    by_cases hm : hash h c ∈ st.loadedCss
    · rw [loadCssContent_loaded h c r st hm, (settle_loadedCss st r none).1,
        (settle_loadedCss st r none).2]
      exact hs
    · rw [loadCssContent_new h c r st hm, (settle_loadedCss _ r none).1,
        (settle_loadedCss _ r none).2]
      show st.loadedCss ++ [hash h c]
          = (st.trace ++ [Event.style c]).filterMap (Event.cssKey h) ∧
        (st.loadedCss ++ [hash h c]).Nodup
      rw [List.filterMap_append, ← hs.1]
      refine ⟨by simp [Event.cssKey], ?_⟩
      exact List.Nodup.append hs.2 (List.nodup_singleton _) (by simpa using hm)

theorem linkCount_cons (u : String) (e : Event) (tr : List Event) :
    linkCount u (e :: tr) = linkCount u tr + (if e.linkUrl = some u then 1 else 0) := by
  simp [linkCount, List.countP_cons]

theorem linkCount_append (u : String) (l1 l2 : List Event) :
    linkCount u (l1 ++ l2) = linkCount u l1 + linkCount u l2 := by
  simp [linkCount, List.countP_append]

theorem count_cssKey (h : Host) (u : String) (tr : List Event) :
    (tr.filterMap (Event.cssKey h)).count u = linkCount u tr + digestCount h u tr := by
  induction tr with
  | nil => simp [linkCount, digestCount]
  | cons e tr ih =>
    rw [linkCount_cons]
    unfold digestCount at ih ⊢
    rw [List.countP_cons]
    cases e with
    | link o v p =>
      simp only [List.filterMap_cons, Event.cssKey, Event.linkUrl, List.count_cons, ih]
      by_cases hv : v = u <;> simp [hv]; omega
    | style c =>
      simp only [List.filterMap_cons, Event.cssKey, Event.linkUrl, List.count_cons, ih]
      by_cases hv : hash h c = u <;> simp [hv]; omega
    | _ => simp [List.filterMap_cons, Event.cssKey, Event.linkUrl, ih]

theorem mem_loadedCss_stable (h : Host) (u : String) : Stable h (fun st => u ∈ st.loadedCss) where
  emit st e _ hs := hs
  newPromise st ps hs := hs
  await st p f hs := by rw [(await_loadedCss st p f).1]; exact hs
  awaitValue st f hs := hs
  settle st p o hs := by rw [(settle_loadedCss st p o).1]; exact hs
  setLoaded st d p hs := hs
  register st n d hs := by rw [(register_loadedCss st n d).1]; exact hs
  dropJob st i hs := hs
  loadCss st owner url content hs := by
    rcases loadCss_cases owner url content st with ⟨h1, _⟩ | ⟨_, _, h1, _⟩
    · rw [h1]; exact hs
    · rw [h1]; exact List.mem_append_left _ hs
  loadCssContent st c r hs := by
    by_cases hm : hash h c ∈ st.loadedCss
    · rw [loadCssContent_loaded h c r st hm, (settle_loadedCss st r none).1]; exact hs
    · rw [loadCssContent_new h c r st hm, (settle_loadedCss _ r none).1]
      exact List.mem_append_left _ hs

theorem loadCss_url_mem (owner : Option Run) (u : String) (st : State) (hu : u ≠ "") :
    u ∈ (loadCss owner (some u) none st).1.loadedCss := by
  by_cases hm : u ∈ st.loadedCss
  · rw [loadCss_loaded owner (some u) none st rfl (argTruthy_some hu) hm]; exact hm
  · rw [loadCss_new owner (some u) none st rfl (argTruthy_some hu) hm]
    exact List.mem_append_right _ (List.mem_singleton_self _)

theorem exec_loadCss_mem (h : Host) (stack : Nat) (u : String) (hu : u ≠ "") (as : List Action) :
    ∀ (st st1 : State), exec h stack st as = .ok st1 →
      (u ∈ st.loadedCss ∨ Action.loadCss (some u) none ∈ as) → u ∈ st1.loadedCss := by
  induction as with
  | nil =>
    intro st st1 he hm
    cases he
    simpa using hm
  | cons a as ih =>
    intro st st1 he hm
    simp only [exec] at he
    split at he
    · cases he
    · rename_i st2 h2
      refine ih st2 st1 he ?_
      rcases hm with hm | hm
      · exact Or.inl ((mem_loadedCss_stable h u).step_Stable stack a st st2 hm h2)
      · rcases List.mem_cons.1 hm with rfl | hm
        · left
          cases h2
          exact loadCss_url_mem none u st hu
        · exact Or.inr hm

@[simp] theorem emit_trace (st : State) (e : Event) : (st.emit e).trace = st.trace ++ [e] := rfl
@[simp] theorem emit_promises (st : State) (e : Event) : (st.emit e).promises = st.promises := rfl
@[simp] theorem emit_waiters (st : State) (e : Event) : (st.emit e).waiters = st.waiters := rfl
@[simp] theorem emit_jobs (st : State) (e : Event) : (st.emit e).jobs = st.jobs := rfl
@[simp] theorem emit_loadedCss (st : State) (e : Event) : (st.emit e).loadedCss = st.loadedCss := rfl
@[simp] theorem emit_LOADED (st : State) (e : Event) :
    (st.emit e).LOADED_DEPENDENCIES = st.LOADED_DEPENDENCIES := rfl
@[simp] theorem emit_DEPENDENCIES (st : State) (e : Event) :
    (st.emit e).DEPENDENCIES = st.DEPENDENCIES := rfl
@[simp] theorem emit_depProto (st : State) (e : Event) : (st.emit e).depProto = st.depProto := rfl

@[simp] theorem newPromise_trace (st : State) (ps : PState) :
    (st.newPromise ps).1.trace = st.trace := rfl
@[simp] theorem newPromise_promises (st : State) (ps : PState) :
    (st.newPromise ps).1.promises = st.promises ++ [ps] := rfl
@[simp] theorem newPromise_waiters (st : State) (ps : PState) :
    (st.newPromise ps).1.waiters = st.waiters := rfl
@[simp] theorem newPromise_jobs (st : State) (ps : PState) :
    (st.newPromise ps).1.jobs = st.jobs := rfl
@[simp] theorem newPromise_loadedCss (st : State) (ps : PState) :
    (st.newPromise ps).1.loadedCss = st.loadedCss := rfl
@[simp] theorem newPromise_LOADED (st : State) (ps : PState) :
    (st.newPromise ps).1.LOADED_DEPENDENCIES = st.LOADED_DEPENDENCIES := rfl
@[simp] theorem newPromise_DEPENDENCIES (st : State) (ps : PState) :
    (st.newPromise ps).1.DEPENDENCIES = st.DEPENDENCIES := rfl
@[simp] theorem newPromise_depProto (st : State) (ps : PState) :
    (st.newPromise ps).1.depProto = st.depProto := rfl

@[simp] theorem addWaiter_trace (st : State) (p : Nat) (f : Frame) :
    (st.addWaiter p f).trace = st.trace := rfl
@[simp] theorem addWaiter_promises (st : State) (p : Nat) (f : Frame) :
    (st.addWaiter p f).promises = st.promises := rfl
@[simp] theorem addWaiter_waiters (st : State) (p : Nat) (f : Frame) :
    (st.addWaiter p f).waiters = st.waiters ++ [(p, f)] := rfl
@[simp] theorem addWaiter_jobs (st : State) (p : Nat) (f : Frame) :
    (st.addWaiter p f).jobs = st.jobs := rfl
@[simp] theorem addWaiter_loadedCss (st : State) (p : Nat) (f : Frame) :
    (st.addWaiter p f).loadedCss = st.loadedCss := rfl
@[simp] theorem addWaiter_LOADED (st : State) (p : Nat) (f : Frame) :
    (st.addWaiter p f).LOADED_DEPENDENCIES = st.LOADED_DEPENDENCIES := rfl
@[simp] theorem addWaiter_DEPENDENCIES (st : State) (p : Nat) (f : Frame) :
    (st.addWaiter p f).DEPENDENCIES = st.DEPENDENCIES := rfl
@[simp] theorem addWaiter_depProto (st : State) (p : Nat) (f : Frame) :
    (st.addWaiter p f).depProto = st.depProto := rfl

@[simp] theorem addJob_trace (st : State) (f : Frame) (o : Option Err) :
    (st.addJob f o).trace = st.trace := rfl
@[simp] theorem addJob_promises (st : State) (f : Frame) (o : Option Err) :
    (st.addJob f o).promises = st.promises := rfl
@[simp] theorem addJob_waiters (st : State) (f : Frame) (o : Option Err) :
    (st.addJob f o).waiters = st.waiters := rfl
@[simp] theorem addJob_jobs (st : State) (f : Frame) (o : Option Err) :
    (st.addJob f o).jobs = st.jobs ++ [(f, o)] := rfl
@[simp] theorem addJob_loadedCss (st : State) (f : Frame) (o : Option Err) :
    (st.addJob f o).loadedCss = st.loadedCss := rfl
@[simp] theorem addJob_LOADED (st : State) (f : Frame) (o : Option Err) :
    (st.addJob f o).LOADED_DEPENDENCIES = st.LOADED_DEPENDENCIES := rfl
@[simp] theorem addJob_DEPENDENCIES (st : State) (f : Frame) (o : Option Err) :
    (st.addJob f o).DEPENDENCIES = st.DEPENDENCIES := rfl
@[simp] theorem addJob_depProto (st : State) (f : Frame) (o : Option Err) :
    (st.addJob f o).depProto = st.depProto := rfl

@[simp] theorem addCss_trace (st : State) (u : String) : (st.addCss u).trace = st.trace := rfl
@[simp] theorem addCss_promises (st : State) (u : String) :
    (st.addCss u).promises = st.promises := rfl
@[simp] theorem addCss_waiters (st : State) (u : String) : (st.addCss u).waiters = st.waiters := rfl
@[simp] theorem addCss_jobs (st : State) (u : String) : (st.addCss u).jobs = st.jobs := rfl
@[simp] theorem addCss_loadedCss (st : State) (u : String) :
    (st.addCss u).loadedCss = st.loadedCss ++ [u] := rfl
@[simp] theorem addCss_LOADED (st : State) (u : String) :
    (st.addCss u).LOADED_DEPENDENCIES = st.LOADED_DEPENDENCIES := rfl
@[simp] theorem addCss_DEPENDENCIES (st : State) (u : String) :
    (st.addCss u).DEPENDENCIES = st.DEPENDENCIES := rfl
@[simp] theorem addCss_depProto (st : State) (u : String) : (st.addCss u).depProto = st.depProto := rfl

@[simp] theorem setLoaded_trace (st : State) (d : Name) (p : Nat) :
    (st.setLoaded d p).trace = st.trace := rfl
@[simp] theorem setLoaded_promises (st : State) (d : Name) (p : Nat) :
    (st.setLoaded d p).promises = st.promises := rfl
@[simp] theorem setLoaded_waiters (st : State) (d : Name) (p : Nat) :
    (st.setLoaded d p).waiters = st.waiters := rfl
@[simp] theorem setLoaded_jobs (st : State) (d : Name) (p : Nat) :
    (st.setLoaded d p).jobs = st.jobs := rfl
@[simp] theorem setLoaded_loadedCss (st : State) (d : Name) (p : Nat) :
    (st.setLoaded d p).loadedCss = st.loadedCss := rfl
@[simp] theorem setLoaded_LOADED (st : State) (d : Name) (p : Nat) :
    (st.setLoaded d p).LOADED_DEPENDENCIES = (d, p) :: st.LOADED_DEPENDENCIES := rfl
@[simp] theorem setLoaded_DEPENDENCIES (st : State) (d : Name) (p : Nat) :
    (st.setLoaded d p).DEPENDENCIES = st.DEPENDENCIES := rfl
@[simp] theorem setLoaded_depProto (st : State) (d : Name) (p : Nat) :
    (st.setLoaded d p).depProto = st.depProto := rfl

@[simp] theorem dropJob_trace (st : State) (i : Nat) : (st.dropJob i).trace = st.trace := rfl
@[simp] theorem dropJob_promises (st : State) (i : Nat) :
    (st.dropJob i).promises = st.promises := rfl
@[simp] theorem dropJob_waiters (st : State) (i : Nat) : (st.dropJob i).waiters = st.waiters := rfl
@[simp] theorem dropJob_jobs (st : State) (i : Nat) :
    (st.dropJob i).jobs = st.jobs.eraseIdx i := rfl
@[simp] theorem dropJob_loadedCss (st : State) (i : Nat) :
    (st.dropJob i).loadedCss = st.loadedCss := rfl
@[simp] theorem dropJob_LOADED (st : State) (i : Nat) :
    (st.dropJob i).LOADED_DEPENDENCIES = st.LOADED_DEPENDENCIES := rfl
@[simp] theorem dropJob_DEPENDENCIES (st : State) (i : Nat) :
    (st.dropJob i).DEPENDENCIES = st.DEPENDENCIES := rfl
@[simp] theorem dropJob_depProto (st : State) (i : Nat) : (st.dropJob i).depProto = st.depProto := rfl

@[simp] theorem register_trace (n : Name) (d : Descriptor) (st : State) :
    (register n d st).trace = st.trace := (register_loadedCss st n d).2
@[simp] theorem register_promises (n : Name) (d : Descriptor) (st : State) :
    (register n d st).promises = st.promises := by unfold register; split <;> rfl
@[simp] theorem register_waiters (n : Name) (d : Descriptor) (st : State) :
    (register n d st).waiters = st.waiters := by unfold register; split <;> rfl
@[simp] theorem register_jobs (n : Name) (d : Descriptor) (st : State) :
    (register n d st).jobs = st.jobs := by unfold register; split <;> rfl
@[simp] theorem register_loadedCss' (n : Name) (d : Descriptor) (st : State) :
    (register n d st).loadedCss = st.loadedCss := (register_loadedCss st n d).1
@[simp] theorem register_LOADED (n : Name) (d : Descriptor) (st : State) :
    (register n d st).LOADED_DEPENDENCIES = st.LOADED_DEPENDENCIES := by
  unfold register; split <;> rfl

@[simp] theorem settle_trace (st : State) (p : Nat) (o : Option Err) :
    (st.settle p o).trace = st.trace := (settle_loadedCss st p o).2
@[simp] theorem settle_loadedCss' (st : State) (p : Nat) (o : Option Err) :
    (st.settle p o).loadedCss = st.loadedCss := (settle_loadedCss st p o).1
@[simp] theorem settle_LOADED (st : State) (p : Nat) (o : Option Err) :
    (st.settle p o).LOADED_DEPENDENCIES = st.LOADED_DEPENDENCIES := by
  unfold State.settle; split <;> rfl
@[simp] theorem settle_DEPENDENCIES (st : State) (p : Nat) (o : Option Err) :
    (st.settle p o).DEPENDENCIES = st.DEPENDENCIES := by
  unfold State.settle; split <;> rfl
@[simp] theorem settle_depProto (st : State) (p : Nat) (o : Option Err) :
    (st.settle p o).depProto = st.depProto := by
  unfold State.settle; split <;> rfl

/-- The state a promise takes when it is settled with outcome `o`. -/
theorem settle_pending (st : State) (p : Nat) (o : Option Err)
    (hp : st.promises.get? p = some .pending) :
    (st.settle p o).promises
        = st.promises.set p (match o with | none => .fulfilled | some e => .rejected e) ∧
    (st.settle p o).jobs
        = st.jobs ++ ((st.waiters.filter (fun w => w.1 == p)).map (fun w => (w.2, o))) ∧
    (st.settle p o).waiters = st.waiters.filter (fun w => !(w.1 == p)) := by
  unfold State.settle
  rw [hp]
  exact ⟨rfl, rfl, rfl⟩

/-! ## Promises are created once and owned once -/

theorem introduced_append (l1 l2 : List Event) :
    introduced (l1 ++ l2) = introduced l1 ++ introduced l2 := by
  simp [introduced, List.filterMap_append]

theorem introduced_singleton (e : Event) : introduced [e] = e.intro.toList := by
  cases h : e.intro <;> simp [introduced, h]

@[simp] theorem settle_promises_length (st : State) (p : Nat) (o : Option Err) :
    (st.settle p o).promises.length = st.promises.length := by
  unfold State.settle
  split <;> simp

theorem lt_mono_of_forall {l : List Nat} {n m : Nat} (h0 : ∀ x ∈ l, x < n) (hnm : n ≤ m) :
    ∀ x ∈ l, x < m := fun x hx => lt_of_lt_of_le (h0 x hx) hnm

theorem Inv1.introLt_step {h : Host} {c c1 : Config} (hi : Inv1 c) (hs : Micro h c c1) :
    ∀ x ∈ introduced c1.st.trace, x < c1.st.promises.length := by
  have h0 := hi.introLt
  cases hs <;>
    simp only [emit_trace, newPromise_trace, addWaiter_trace, addJob_trace, addCss_trace,
      setLoaded_trace, dropJob_trace, register_trace, settle_trace, emit_promises,
      newPromise_promises, addWaiter_promises, addJob_promises, addCss_promises,
      setLoaded_promises, dropJob_promises, register_promises, settle_promises_length,
      nestedCallState, leafCallState, introduced_append, List.forall_mem_append,
      List.length_append, List.length_singleton, introduced_singleton, Event.intro,
      Option.toList, List.forall_mem_cons, List.not_mem_nil,
      false_implies, implies_true, and_true] at h0 ⊢ <;>
    first
    | exact h0
    | exact lt_mono_of_forall h0 (by omega)
    | exact ⟨lt_mono_of_forall h0 (by omega), by omega⟩
    | exact ⟨⟨lt_mono_of_forall h0 (by omega), by omega⟩, by omega⟩

theorem nodup_append_fresh {l : List Nat} {n : Nat} (hn : l.Nodup) (h0 : ∀ x ∈ l, x < n) :
    (l ++ [n]).Nodup := by
  refine List.Nodup.append hn (List.nodup_singleton _) ?_
  intro x hx hx1
  rw [List.mem_singleton] at hx1
  have := h0 x hx
  omega

theorem nodup_append_fresh2 {l : List Nat} {n : Nat} (hn : l.Nodup) (h0 : ∀ x ∈ l, x < n) :
    (l ++ [n] ++ [n + 1]).Nodup := by
  refine nodup_append_fresh (nodup_append_fresh hn h0) ?_
  intro x hx
  rcases List.mem_append.1 hx with hx | hx
  · have := h0 x hx; omega
  · rw [List.mem_singleton] at hx; omega

theorem Inv1.introNodup_step {h : Host} {c c1 : Config} (hi : Inv1 c) (hs : Micro h c c1) :
    (introduced c1.st.trace).Nodup := by
  have h0 := hi.introLt
  have h1 := hi.introNodup
  cases hs <;>
    simp only [emit_trace, newPromise_trace, addWaiter_trace, addJob_trace, addCss_trace,
      setLoaded_trace, dropJob_trace, register_trace, settle_trace,
      nestedCallState, leafCallState, introduced_append, introduced_singleton, Event.intro,
      Option.toList, List.append_nil] at h0 h1 ⊢ <;>
    first
    | exact h1
    | exact nodup_append_fresh h1 h0
    | exact nodup_append_fresh2 h1 h0

theorem resCount_eq (st : State) (ctl : Ctl) (K : List Act) (x : Nat) :
    Config.resCount ⟨st, ctl, K⟩ x = st.wjCount x + stackCount K x + ctl.results.count x := rfl

@[simp] theorem stackCount_nil (x : Nat) : stackCount [] x = 0 := rfl

@[simp] theorem stackCount_loopCall (dep : Name) (rest : List Name) (q : Nat) (K : List Act)
    (x : Nat) :
    stackCount (.loopCall dep rest q :: K) x = stackCount K x + (if q = x then 1 else 0) := by
  simp [stackCount, List.countP_cons, Act.frame, Frame.result]

@[simp] theorem stackCount_runCall (dep : Name) (d : Descriptor) (r q : Nat) (K : List Act)
    (x : Nat) :
    stackCount (.runCall dep d r q :: K) x = stackCount K x + (if r = x then 1 else 0) := by
  simp [stackCount, List.countP_cons, Act.frame, Frame.result]

@[simp] theorem wjCount_emit (st : State) (e : Event) (x : Nat) :
    (st.emit e).wjCount x = st.wjCount x := rfl
@[simp] theorem wjCount_newPromise (st : State) (ps : PState) (x : Nat) :
    (st.newPromise ps).1.wjCount x = st.wjCount x := rfl
@[simp] theorem wjCount_addCss (st : State) (u : String) (x : Nat) :
    (st.addCss u).wjCount x = st.wjCount x := rfl
@[simp] theorem wjCount_setLoaded (st : State) (d : Name) (p x : Nat) :
    (st.setLoaded d p).wjCount x = st.wjCount x := rfl
@[simp] theorem wjCount_register (n : Name) (d : Descriptor) (st : State) (x : Nat) :
    (register n d st).wjCount x = st.wjCount x := by
  simp [State.wjCount]
@[simp] theorem wjCount_addWaiter (st : State) (p : Nat) (f : Frame) (x : Nat) :
    (st.addWaiter p f).wjCount x = st.wjCount x + (if f.result = x then 1 else 0) := by
  simp [State.wjCount, List.countP_append, List.countP_cons]
  omega
@[simp] theorem wjCount_addJob (st : State) (f : Frame) (o : Option Err) (x : Nat) :
    (st.addJob f o).wjCount x = st.wjCount x + (if f.result = x then 1 else 0) := by
  simp [State.wjCount, List.countP_append, List.countP_cons]
  omega

theorem countP_filter_add {α : Type} (l : List α) (g q : α → Bool) :
    (l.filter q).countP g + (l.filter (fun a => !q a)).countP g = l.countP g := by
  induction l with
  | nil => rfl
  | cons a l ih =>
    by_cases hq : q a = true <;> by_cases hg : g a = true <;>
      simp [List.filter_cons, List.countP_cons, hq, hg] <;> omega

@[simp] theorem wjCount_settle (st : State) (p : Nat) (o : Option Err) (x : Nat) :
    (st.settle p o).wjCount x = st.wjCount x := by
  unfold State.settle
  split
  · simp only [State.wjCount, List.countP_append, List.countP_map]
    have := countP_filter_add st.waiters (fun w => w.2.result == x) (fun w => w.1 == p)
    have e1 : ((fun j : Frame × Option Err => j.1.result == x) ∘ fun w : Nat × Frame => (w.2, o))
        = (fun w : Nat × Frame => w.2.result == x) := rfl
    rw [e1]
    omega
  · rfl

theorem countP_eraseIdx {α : Type} (l : List α) (g : α → Bool) (i : Nat) (a : α)
    (hg : l.get? i = some a) :
    (l.eraseIdx i).countP g + (if g a = true then 1 else 0) = l.countP g := by
  induction l generalizing i with
  | nil => simp at hg
  | cons b l ih =>
    cases i with
    | zero =>
      simp only [List.get?_cons_zero, Option.some.injEq] at hg
      subst hg
      simp only [List.eraseIdx_cons_zero, List.countP_cons]
    | succ i =>
      simp only [List.get?_cons_succ] at hg
      have := ih i hg
      simp only [List.eraseIdx_cons_succ, List.countP_cons]
      omega

theorem wjCount_dropJob (st : State) (i : Nat) (f : Frame) (o : Option Err) (x : Nat)
    (hg : st.jobs.get? i = some (f, o)) :
    (st.dropJob i).wjCount x + (if f.result = x then 1 else 0) = st.wjCount x := by
  have := countP_eraseIdx st.jobs (fun j => j.1.result == x) i (f, o) hg
  simp only [State.wjCount, dropJob_waiters, dropJob_jobs]
  simp only [beq_iff_eq] at this
  omega

theorem mem_introduced {tr : List Event} {e : Event} {x : Nat} (he : e ∈ tr)
    (hx : e.intro = some x) : x ∈ introduced tr :=
  List.mem_filterMap.2 ⟨e, he, hx⟩

theorem intro_inj {tr : List Event} (hn : (introduced tr).Nodup) {e1 e2 : Event} {x : Nat}
    (h1 : e1 ∈ tr) (h2 : e2 ∈ tr) (hx1 : e1.intro = some x) (hx2 : e2.intro = some x) :
    e1 = e2 := by
  induction tr with
  | nil => cases h1
  | cons e tr ih =>
    have hcons : introduced (e :: tr) = e.intro.toList ++ introduced tr := by
      cases he : e.intro <;> simp [introduced, List.filterMap_cons, he]
    rw [hcons] at hn
    have hn2 : (introduced tr).Nodup := (List.nodup_append.1 hn).2.1
    have hdisj : ∀ e3 ∈ tr, e3.intro = some x → e.intro = some x → False := by
      intro e3 h3 hx3 hxe
      have hm := mem_introduced h3 hx3
      have := (List.nodup_append.1 hn).2.2
      exact this (by rw [hxe]; simp) hm
    rcases List.mem_cons.1 h1 with h1e | h1t
    · rcases List.mem_cons.1 h2 with h2e | h2t
      · rw [h1e, h2e]
      · exact (hdisj e2 h2t hx2 (h1e ▸ hx1)).elim
    · rcases List.mem_cons.1 h2 with h2e | h2t
      · exact (hdisj e1 h1t hx1 (h2e ▸ hx2)).elim
      · exact ih hn2 h1t h2t

theorem externalUrl_mem {st : State} {p : Nat} {url : String}
    (h : st.externalUrl p = some url) :
    ∃ e ∈ st.trace, e.external = some (p, url) := by
  unfold State.externalUrl at h
  have hm : (p, url) ∈ st.trace.filterMap Event.external := by
    generalize st.trace.filterMap Event.external = l at h
    induction l with
    | nil => cases h
    | cons a l ih =>
      obtain ⟨k, v⟩ := a
      simp only [List.lookup_cons] at h
      by_cases hk : p = k
      · subst hk
        simp only [beq_self_eq_true, Option.some.injEq] at h
        subst h
        exact List.mem_cons_self _ _
      · have : (p == k) = false := by simpa using hk
        rw [this] at h
        exact List.mem_cons_of_mem _ (ih h)
  obtain ⟨e, he, hx⟩ := List.mem_filterMap.1 hm
  exact ⟨e, he, hx⟩

theorem external_intro {e : Event} {p : Nat} {url : String} (h : e.external = some (p, url)) :
    e.intro = some p ∧ (∀ dep d r, e ≠ .start dep d r) ∧ (∀ c names q, e ≠ .call c names q) := by
  cases e with
  | script o u q =>
    simp only [Event.external, Option.some.injEq, Prod.mk.injEq] at h
    exact ⟨by rw [← h.1]; rfl, by intros; simp, by intros; simp⟩
  | link o u q =>
    simp only [Event.external, Option.some.injEq, Prod.mk.injEq] at h
    exact ⟨by rw [← h.1]; rfl, by intros; simp, by intros; simp⟩
  | init o x =>
    cases x with
    | none => simp [Event.external] at h
    | some q =>
      simp only [Event.external, Option.some.injEq, Prod.mk.injEq] at h
      exact ⟨by rw [← h.1]; rfl, by intros; simp, by intros; simp⟩
  | _ => simp [Event.external] at h

/-- What owns promise `x` when some continuation, caller or executing call does. -/
theorem Inv1.count_pos_role {c : Config} (hi : Inv1 c) {x : Nat} (hx : 0 < c.resCount x) :
    (∃ k names, Event.call k names x ∈ c.st.trace) ∨ (∃ dep d, Event.start dep d x ∈ c.st.trace) ∨
      (x < c.st.promises.length ∧ x ∉ introduced c.st.trace) := by
  have frameCase : ∀ f : Frame, f.RoleOK c.st.trace c.st.promises.length → f.result = x →
      (∃ k names, Event.call k names x ∈ c.st.trace) ∨
      (∃ dep d, Event.start dep d x ∈ c.st.trace) ∨
      (x < c.st.promises.length ∧ x ∉ introduced c.st.trace) := by
    intro f hf hr
    cases f <;> simp only [Frame.result] at hr <;> subst hr <;> simp only [Frame.RoleOK] at hf
    · exact Or.inl hf
    · exact Or.inr (Or.inl ⟨_, hf⟩)
    · exact Or.inr (Or.inl ⟨_, hf⟩)
    · exact Or.inr (Or.inl ⟨_, hf⟩)
    · exact Or.inr (Or.inl ⟨_, hf⟩)
    · exact Or.inr (Or.inr hf)
  unfold Config.resCount State.wjCount stackCount at hx
  by_cases h1 : 0 < c.st.waiters.countP (fun w => w.2.result == x)
  · obtain ⟨w, hw, hr⟩ := List.countP_pos_iff.1 h1
    exact frameCase w.2 (hi.frameRole w.2 (Or.inl ⟨w.1, hw⟩)) (by simpa using hr)
  by_cases h2 : 0 < c.st.jobs.countP (fun j => j.1.result == x)
  · obtain ⟨j, hj, hr⟩ := List.countP_pos_iff.1 h2
    exact frameCase j.1 (hi.frameRole j.1 (Or.inr ⟨j.2, hj⟩)) (by simpa using hr)
  by_cases h3 : 0 < c.stack.countP (fun a => a.frame.result == x)
  · obtain ⟨a, ha, hr⟩ := List.countP_pos_iff.1 h3
    have hrole := hi.actRole a ha
    cases a with
    | loopCall dep rest q =>
      simp only [Act.frame, Frame.result, beq_iff_eq] at hr
      subst hr
      exact Or.inl hrole
    | runCall dep d r q =>
      simp only [Act.frame, Frame.result, beq_iff_eq] at hr
      subst hr
      exact Or.inr (Or.inl ⟨_, _, hrole.1⟩)
  have h4 : 0 < c.ctl.results.count x := by omega
  have hrole := hi.ctlRole
  cases hc : c.ctl with
  | loop names q =>
    rw [hc] at h4 hrole
    simp only [Ctl.results, List.count_cons, List.count_nil] at h4
    have : q = x := by
      by_contra hne
      simp [hne] at h4
    subst this
    exact Or.inl hrole
  | run dep r ph =>
    rw [hc] at h4 hrole
    simp only [Ctl.results, List.count_cons, List.count_nil] at h4
    have : r = x := by
      by_contra hne
      simp [hne] at h4
    subst this
    exact Or.inr (Or.inl ⟨_, hrole⟩)
  | idle => rw [hc] at h4; simp [Ctl.results] at h4
  | ret => rw [hc] at h4; simp [Ctl.results] at h4
  | retRun r => rw [hc] at h4; simp [Ctl.results] at h4

/-- A promise the environment settles is owned by no continuation. -/
theorem Inv1.external_count {c : Config} (hi : Inv1 c) {p : Nat} {url : String}
    (h : c.st.externalUrl p = some url) : c.resCount p = 0 := by
  by_contra hne
  have hpos : 0 < c.resCount p := Nat.pos_of_ne_zero hne
  obtain ⟨e, he, hx⟩ := externalUrl_mem h
  obtain ⟨hin, hns, hnc⟩ := external_intro hx
  rcases hi.count_pos_role hpos with ⟨k, names, hc⟩ | ⟨dep, d, hs⟩ | ⟨_, hni⟩
  · exact hnc k names p (intro_inj hi.introNodup he hc hin rfl)
  · exact hns dep d p (intro_inj hi.introNodup he hs hin rfl)
  · exact hni (mem_introduced he hin)

theorem Inv1.count_pos_lt {c : Config} (hi : Inv1 c) {x : Nat} (hx : 0 < c.resCount x) :
    x < c.st.promises.length := by
  have := hi.resPending x hx
  rw [List.get?_eq_some] at this
  exact this.1

theorem get?_append_pending {P l : List PState} {x : Nat} (h : P.get? x = some .pending) :
    (P ++ l).get? x = some .pending := by
  rw [List.get?_eq_some] at h
  obtain ⟨hl, hx⟩ := h
  rw [List.get?_eq_getElem?, List.getElem?_append_left hl, List.getElem?_eq_getElem hl]
  simpa using hx

theorem settle_get?_ne (st : State) (p : Nat) (o : Option Err) (x : Nat) (hne : x ≠ p) :
    (st.settle p o).promises.get? x = st.promises.get? x := by
  unfold State.settle
  split
  · simp only [List.get?_eq_getElem?]
    rw [List.getElem?_set_ne (Ne.symm hne)]
  · rfl

theorem pending_after_append {P : List PState} {ps : PState} {x cnt cnt1 : Nat}
    (hp : 0 < cnt → P.get? x = some .pending) (hrel : x ≠ P.length → 0 < cnt1 → 0 < cnt)
    (hfresh : x = P.length → 0 < cnt1 → ps = .pending) :
    0 < cnt1 → (P ++ [ps]).get? x = some .pending := by
  intro hx
  by_cases he : x = P.length
  · rw [hfresh he hx, he]; simp
  · exact get?_append_pending (hp (hrel he hx))

theorem pending_after_settle (st : State) {p : Nat} {o : Option Err} {x cnt cnt1 : Nat}
    (hp : 0 < cnt → st.promises.get? x = some .pending) (hrel : 0 < cnt1 → 0 < cnt ∧ x ≠ p) :
    0 < cnt1 → (st.settle p o).promises.get? x = some .pending := by
  intro hx
  rw [settle_get?_ne st p o x (hrel hx).2]
  exact hp (hrel hx).1

theorem Inv1.resOnce_step {h : Host} {c c1 : Config} (hi : Inv1 c) (hs : Micro h c c1) (x : Nat) :
    c1.resCount x ≤ 1 := by
  have h0 := hi.resOnce x
  have hf : 0 < c.resCount x → x < c.st.promises.length := hi.count_pos_lt
  cases hs with
  | resumeErr i f e st hg =>
    have := wjCount_dropJob st i f (some e) x hg
    simp only [resCount_eq, wjCount_settle, stackCount_nil, Ctl.results, List.count_nil] at h0 ⊢
    omega
  | resumeLd i dep rest r st hg =>
    have := wjCount_dropJob st i _ none x hg
    simp only [resCount_eq, stackCount_nil, Ctl.results, List.count_nil, List.count_cons,
      Frame.result, beq_iff_eq] at this h0 ⊢
    omega
  | resumeDeps i dep sc sty ini r st hg =>
    have := wjCount_dropJob st i _ none x hg
    simp only [resCount_eq, stackCount_nil, Ctl.results, List.count_nil, List.count_cons,
      Frame.result, beq_iff_eq] at this h0 ⊢
    omega
  | resumeScript i dep rest sty ini r st hg =>
    have := wjCount_dropJob st i _ none x hg
    simp only [resCount_eq, stackCount_nil, Ctl.results, List.count_nil, List.count_cons,
      Frame.result, beq_iff_eq] at this h0 ⊢
    omega
  | resumeStyle i dep rest ini r st hg =>
    have := wjCount_dropJob st i _ none x hg
    simp only [resCount_eq, stackCount_nil, Ctl.results, List.count_nil, List.count_cons,
      Frame.result, beq_iff_eq] at this h0 ⊢
    omega
  | resumeInit i dep r st hg =>
    have := wjCount_dropJob st i _ none x hg
    simp only [resCount_eq, stackCount_nil, Ctl.results, List.count_nil, List.count_cons,
      Frame.result, beq_iff_eq] at this h0 ⊢
    omega
  | resumeCssNew i c r st hg hm =>
    have := wjCount_dropJob st i _ none x hg
    simp only [resCount_eq, wjCount_settle, wjCount_emit, wjCount_addCss, stackCount_nil,
      Ctl.results, List.count_nil] at h0 ⊢
    omega
  | resumeCssLoaded i c r st hg hm =>
    have := wjCount_dropJob st i _ none x hg
    simp only [resCount_eq, wjCount_settle, stackCount_nil, Ctl.results, List.count_nil] at h0 ⊢
    omega
  | _ =>
    simp only [resCount_eq, wjCount_emit, wjCount_newPromise, wjCount_addCss, wjCount_setLoaded,
      wjCount_register, wjCount_addWaiter, wjCount_addJob, wjCount_settle, nestedCallState,
      leafCallState, stackCount_nil, stackCount_loopCall, stackCount_runCall, Ctl.results,
      List.count_cons, List.count_nil, Frame.result, beq_iff_eq] at h0 hf ⊢
    first
    | omega
    | (split_ifs at h0 hf ⊢ <;> omega)
theorem get?_fresh2 (P : List PState) (ps ps2 : PState) :
    (P ++ [ps] ++ [ps2]).get? P.length = some ps ∧
    (P ++ [ps] ++ [ps2]).get? (P.length + 1) = some ps2 := by
  constructor
  · rw [List.append_assoc, List.get?_eq_getElem?, List.getElem?_append_right (le_refl _)]
    simp
  · rw [List.get?_eq_getElem?, List.getElem?_append_right (by simp)]
    simp

theorem Inv1.resPending_step {h : Host} {c c1 : Config} (hi : Inv1 c) (hs : Micro h c c1)
    (x : Nat) : 0 < c1.resCount x → c1.st.promises.get? x = some .pending := by
  have h0 := hi.resOnce x
  have hp := hi.resPending x
  have hf : 0 < c.resCount x → x < c.st.promises.length := hi.count_pos_lt
  cases hs with
  | signal p ok url st hu hpp =>
    have hz := hi.external_count hu
    have h1 := hi.resOnce p
    simp only [resCount_eq, wjCount_settle, wjCount_emit, stackCount_nil, Ctl.results,
      List.count_nil] at h0 hp hz ⊢
    refine pending_after_settle (st.emit _) hp ?_
    intro hx
    refine ⟨hx, ?_⟩
    rintro rfl
    omega
  | resumeErr i f e st hg =>
    have := wjCount_dropJob st i f (some e) x hg
    simp only [resCount_eq, wjCount_settle, stackCount_nil, Ctl.results, List.count_nil] at h0 hp ⊢
    refine pending_after_settle (st.dropJob i) hp ?_
    intro hx
    refine ⟨by omega, ?_⟩
    rintro rfl
    simp only [if_true] at this
    omega
  | resumeCssNew i c r st hg hm =>
    have := wjCount_dropJob st i _ none x hg
    simp only [resCount_eq, wjCount_settle, wjCount_emit, wjCount_addCss, stackCount_nil,
      Ctl.results, List.count_nil, Frame.result] at this h0 hp ⊢
    refine pending_after_settle (((st.dropJob i).addCss _).emit _) hp ?_
    intro hx
    refine ⟨by omega, ?_⟩
    rintro rfl
    simp only [if_true] at this
    omega
  | resumeCssLoaded i c r st hg hm =>
    have := wjCount_dropJob st i _ none x hg
    simp only [resCount_eq, wjCount_settle, stackCount_nil, Ctl.results, List.count_nil,
      Frame.result] at this h0 hp ⊢
    refine pending_after_settle (st.dropJob i) hp ?_
    intro hx
    refine ⟨by omega, ?_⟩
    rintro rfl
    simp only [if_true] at this
    omega
  | loopEnd q st K =>
    simp only [resCount_eq, wjCount_settle, Ctl.results, List.count_nil, List.count_cons,
      beq_iff_eq] at h0 hp ⊢
    refine pending_after_settle st hp ?_
    intro hx
    refine ⟨by omega, ?_⟩
    rintro rfl
    simp only [if_true] at h0
    omega
  | initThrows dep r st K =>
    simp only [resCount_eq, wjCount_settle, wjCount_emit, Ctl.results, List.count_nil,
      List.count_cons, beq_iff_eq] at h0 hp ⊢
    refine pending_after_settle (st.emit _) hp ?_
    intro hx
    refine ⟨by omega, ?_⟩
    rintro rfl
    simp only [if_true] at h0
    omega
  | finish dep r st K =>
    simp only [resCount_eq, wjCount_settle, wjCount_emit, Ctl.results, List.count_nil,
      List.count_cons, beq_iff_eq] at h0 hp ⊢
    refine pending_after_settle (st.emit _) hp ?_
    intro hx
    refine ⟨by omega, ?_⟩
    rintro rfl
    simp only [if_true] at h0
    omega
  | resumeLd i dep rest r st hg =>
    have := wjCount_dropJob st i _ none x hg
    simp only [resCount_eq, stackCount_nil, Ctl.results, List.count_nil, List.count_cons,
      Frame.result, beq_iff_eq] at this h0 hp ⊢
    intro hx
    exact hp (by omega)
  | resumeDeps i dep sc sty ini r st hg =>
    have := wjCount_dropJob st i _ none x hg
    simp only [resCount_eq, stackCount_nil, Ctl.results, List.count_nil, List.count_cons,
      Frame.result, beq_iff_eq] at this h0 hp ⊢
    intro hx
    exact hp (by omega)
  | resumeScript i dep rest sty ini r st hg =>
    have := wjCount_dropJob st i _ none x hg
    simp only [resCount_eq, stackCount_nil, Ctl.results, List.count_nil, List.count_cons,
      Frame.result, beq_iff_eq] at this h0 hp ⊢
    intro hx
    exact hp (by omega)
  | resumeStyle i dep rest ini r st hg =>
    have := wjCount_dropJob st i _ none x hg
    simp only [resCount_eq, stackCount_nil, Ctl.results, List.count_nil, List.count_cons,
      Frame.result, beq_iff_eq] at this h0 hp ⊢
    intro hx
    exact hp (by omega)
  | resumeInit i dep r st hg =>
    have := wjCount_dropJob st i _ none x hg
    simp only [resCount_eq, stackCount_nil, Ctl.results, List.count_nil, List.count_cons,
      Frame.result, beq_iff_eq] at this h0 hp ⊢
    intro hx
    exact hp (by omega)
  | enterNested dep rest q st K ht hl hd =>
    simp only [resCount_eq, nestedCallState, wjCount_emit, wjCount_newPromise,
      stackCount_loopCall, stackCount_runCall, Ctl.results, List.count_nil, List.count_cons,
      beq_iff_eq, emit_promises, newPromise_promises] at h0 hp hf ⊢
    intro hx
    by_cases h1 : x = st.promises.length + 1
    · subst h1; exact (get?_fresh2 _ _ _).2
    by_cases h2 : x = st.promises.length
    · subst h2; exact (get?_fresh2 _ _ _).1
    · rw [List.append_assoc]
      exact get?_append_pending (hp (by split_ifs at hx ⊢ <;> omega))
  | _ =>
    simp only [resCount_eq, wjCount_emit, wjCount_newPromise, wjCount_addCss, wjCount_setLoaded,
      wjCount_register, wjCount_addWaiter, wjCount_addJob, leafCallState, stackCount_nil,
      stackCount_loopCall, stackCount_runCall, Ctl.results, List.count_cons, List.count_nil,
      Frame.result, beq_iff_eq, emit_promises, newPromise_promises, addWaiter_promises,
      addJob_promises, addCss_promises, setLoaded_promises, register_promises] at h0 hp hf ⊢
    first
    | exact hp
    | (intro hx; exact hp (by first | omega | (split_ifs at hx ⊢ <;> omega)))
    | exact pending_after_append hp
        (by intro hne hx; first | omega | (split_ifs at hx ⊢ <;> omega))
        (by intro he hx; first | rfl | (exfalso; omega))
/-- Every transition only appends events, and the promises they create are new. -/
theorem Micro.trace_ext {h : Host} {c c1 : Config} (hs : Micro h c c1) :
    ∃ new, c1.st.trace = c.st.trace ++ new ∧ c.st.promises.length ≤ c1.st.promises.length ∧
      ∀ x ∈ introduced new, c.st.promises.length ≤ x := by
  cases hs <;>
    simp only [emit_trace, newPromise_trace, addWaiter_trace, addJob_trace, addCss_trace,
      setLoaded_trace, dropJob_trace, register_trace, settle_trace, emit_promises,
      newPromise_promises, addWaiter_promises, addJob_promises, addCss_promises,
      setLoaded_promises, dropJob_promises, register_promises, settle_promises_length,
      nestedCallState, leafCallState, List.length_append, List.length_singleton,
      List.append_assoc] <;>
    first
    | (refine ⟨[], ?_, ?_, ?_⟩
       · rw [List.append_nil]
       · omega
       · simp [introduced])
    | (refine ⟨[_], rfl, ?_, ?_⟩
       · omega
       · simp [introduced, Event.intro])
    | (refine ⟨[_, _], rfl, ?_, ?_⟩
       · omega
       · simp [introduced, Event.intro])

theorem hasFrame_settle (st : State) (p : Nat) (o : Option Err) (f : Frame) :
    (st.settle p o).hasFrame f ↔ st.hasFrame f := by
  unfold State.settle
  split
  · simp only [State.hasFrame, List.mem_append, List.mem_map, List.mem_filter, Prod.exists,
      Prod.mk.injEq, Bool.not_eq_true', beq_iff_eq, beq_eq_false_iff_ne]
    constructor
    · rintro (⟨q, hq, _⟩ | ⟨o1, ho | ⟨a, b, ⟨hab, _⟩, rfl, _⟩⟩)
      · exact Or.inl ⟨q, hq⟩
      · exact Or.inr ⟨o1, ho⟩
      · exact Or.inl ⟨a, hab⟩
    · rintro (⟨q, hq⟩ | ⟨o1, ho⟩)
      · by_cases hqp : q = p
        · subst hqp
          exact Or.inr ⟨o, Or.inr ⟨q, f, ⟨hq, rfl⟩, rfl, rfl⟩⟩
        · exact Or.inl ⟨q, hq, hqp⟩
      · exact Or.inr ⟨o1, Or.inl ho⟩
  · rfl

theorem hasFrame_dropJob (st : State) (i : Nat) (f : Frame) (hf : (st.dropJob i).hasFrame f) :
    st.hasFrame f := by
  rcases hf with ⟨p, hp⟩ | ⟨o, ho⟩
  · exact Or.inl ⟨p, hp⟩
  · exact Or.inr ⟨o, List.mem_of_mem_eraseIdx ho⟩

theorem hasFrame_addWaiter (st : State) (p : Nat) (g f : Frame) :
    (st.addWaiter p g).hasFrame f ↔ st.hasFrame f ∨ f = g := by
  simp only [State.hasFrame, addWaiter_waiters, addWaiter_jobs, List.mem_append,
    List.mem_singleton, Prod.mk.injEq]
  constructor
  · rintro (⟨q, hq | ⟨_, rfl⟩⟩ | ho)
    · exact Or.inl (Or.inl ⟨q, hq⟩)
    · exact Or.inr rfl
    · exact Or.inl (Or.inr ho)
  · rintro ((⟨q, hq⟩ | ho) | rfl)
    · exact Or.inl ⟨q, Or.inl hq⟩
    · exact Or.inr ho
    · exact Or.inl ⟨p, Or.inr ⟨rfl, rfl⟩⟩

theorem hasFrame_addJob (st : State) (g f : Frame) (o : Option Err) :
    (st.addJob g o).hasFrame f ↔ st.hasFrame f ∨ f = g := by
  simp only [State.hasFrame, addJob_waiters, addJob_jobs, List.mem_append,
    List.mem_singleton, Prod.mk.injEq]
  constructor
  · rintro (hq | ⟨o1, ho | ⟨rfl, _⟩⟩)
    · exact Or.inl (Or.inl hq)
    · exact Or.inl (Or.inr ⟨o1, ho⟩)
    · exact Or.inr rfl
  · rintro ((hq | ⟨o1, ho⟩) | rfl)
    · exact Or.inl hq
    · exact Or.inr ⟨o1, Or.inl ho⟩
    · exact Or.inr ⟨o, Or.inr ⟨rfl, rfl⟩⟩

@[simp] theorem hasFrame_emit (st : State) (e : Event) (f : Frame) :
    (st.emit e).hasFrame f ↔ st.hasFrame f := Iff.rfl
@[simp] theorem hasFrame_newPromise (st : State) (ps : PState) (f : Frame) :
    (st.newPromise ps).1.hasFrame f ↔ st.hasFrame f := Iff.rfl
@[simp] theorem hasFrame_addCss (st : State) (u : String) (f : Frame) :
    (st.addCss u).hasFrame f ↔ st.hasFrame f := Iff.rfl
@[simp] theorem hasFrame_setLoaded (st : State) (d : Name) (p : Nat) (f : Frame) :
    (st.setLoaded d p).hasFrame f ↔ st.hasFrame f := Iff.rfl
@[simp] theorem hasFrame_register (n : Name) (d : Descriptor) (st : State) (f : Frame) :
    (register n d st).hasFrame f ↔ st.hasFrame f := by
  simp [State.hasFrame]

theorem Frame.RoleOK.mono_FrameRoleOK {tr new : List Event} {n n1 : Nat} {f : Frame}
    (hf : f.RoleOK tr n) (hn : n ≤ n1) (hnew : ∀ x ∈ introduced new, n ≤ x) :
    f.RoleOK (tr ++ new) n1 := by
  cases f <;> simp only [Frame.RoleOK] at hf ⊢
  · obtain ⟨k, names, hk⟩ := hf; exact ⟨k, names, List.mem_append_left _ hk⟩
  · obtain ⟨d, hd⟩ := hf; exact ⟨d, List.mem_append_left _ hd⟩
  · obtain ⟨d, hd⟩ := hf; exact ⟨d, List.mem_append_left _ hd⟩
  · obtain ⟨d, hd⟩ := hf; exact ⟨d, List.mem_append_left _ hd⟩
  · obtain ⟨d, hd⟩ := hf; exact ⟨d, List.mem_append_left _ hd⟩
  · refine ⟨by omega, ?_⟩
    rw [introduced_append, List.mem_append]
    rintro (h1 | h1)
    · exact hf.2 h1
    · have := hnew _ h1; omega

theorem Act.RoleOK.mono_ActRoleOK {tr new : List Event} {a : Act} (ha : a.RoleOK tr) :
    a.RoleOK (tr ++ new) := by
  cases a <;> simp only [Act.RoleOK] at ha ⊢
  · obtain ⟨k, names, hk⟩ := ha; exact ⟨k, names, List.mem_append_left _ hk⟩
  · exact ⟨List.mem_append_left _ ha.1, List.mem_append_left _ ha.2⟩


theorem get?_job_hasFrame {st : State} {i : Nat} {f : Frame} {o : Option Err}
    (hg : st.jobs.get? i = some (f, o)) : st.hasFrame f :=
  Or.inr ⟨o, List.get?_mem hg⟩

theorem Inv1.frames_step {h : Host} {c c1 : Config} (hi : Inv1 c) (hs : Micro h c c1) :
    ∀ f, c1.st.hasFrame f → c.st.hasFrame f ∨ f.RoleOK c1.st.trace c1.st.promises.length := by
  have hrole := hi.ctlRole
  have hact := hi.actRole
  have hlt := hi.introLt
  intro f hf
  cases hs <;> (try dsimp only at hrole hact hlt ⊢) <;>
    simp only [hasFrame_settle, hasFrame_addWaiter, hasFrame_addJob, hasFrame_emit,
      hasFrame_newPromise, hasFrame_addCss, hasFrame_setLoaded, hasFrame_register,
      nestedCallState, leafCallState] at hf <;>
    first
    | exact Or.inl hf
    | exact Or.inl (hasFrame_dropJob _ _ _ hf)
    | (rcases hf with hf | rfl
       · exact Or.inl hf
       · right
         first
         | exact hrole
         | (obtain ⟨d, hd⟩ := hrole; exact ⟨d, by simp [hd]⟩)
         | exact ⟨_, (hact _ (List.mem_cons_self _ _)).1⟩
         | exact hact _ (List.mem_cons_self _ _)
         | exact ⟨by simp, fun hmem => by have := hlt _ hmem; omega⟩)


theorem Inv1.frameRole_step {h : Host} {c c1 : Config} (hi : Inv1 c) (hs : Micro h c c1) :
    ∀ f, c1.st.hasFrame f → f.RoleOK c1.st.trace c1.st.promises.length := by
  intro f hf
  obtain ⟨new, htr, hn, hnew⟩ := hs.trace_ext
  rcases hi.frames_step hs f hf with hold | hnewf
  · rw [htr]
    exact (hi.frameRole f hold).mono_FrameRoleOK hn hnew
  · exact hnewf

theorem Ctl.RoleOK.mono_CtlRoleOK {tr new : List Event} {ctl : Ctl} (hc : ctl.RoleOK tr) :
    ctl.RoleOK (tr ++ new) := by
  cases ctl <;> simp only [Ctl.RoleOK] at hc ⊢
  · obtain ⟨k, names, hk⟩ := hc; exact ⟨k, names, List.mem_append_left _ hk⟩
  · obtain ⟨d, hd⟩ := hc; exact ⟨d, List.mem_append_left _ hd⟩

theorem Inv1.ctlRole_step {h : Host} {c c1 : Config} (hi : Inv1 c) (hs : Micro h c c1) :
    c1.ctl.RoleOK c1.st.trace := by
  have hrole := hi.ctlRole
  have hfr := hi.frameRole
  cases hs with
  | resumeLd i dep rest r st hg => exact hfr _ (get?_job_hasFrame hg)
  | resumeDeps i dep sc sty ini r st hg => exact hfr _ (get?_job_hasFrame hg)
  | resumeScript i dep rest sty ini r st hg => exact hfr _ (get?_job_hasFrame hg)
  | resumeStyle i dep rest ini r st hg => exact hfr _ (get?_job_hasFrame hg)
  | resumeInit i dep r st hg => exact hfr _ (get?_job_hasFrame hg)
  | _ =>
    (try dsimp only at hrole ⊢) <;>
    simp only [Ctl.RoleOK, emit_trace, newPromise_trace, nestedCallState, leafCallState,
      List.mem_append, List.mem_singleton] at hrole ⊢ <;>
    first
    | trivial
    | exact hrole
    | (obtain ⟨k, names, hk⟩ := hrole; exact ⟨k, names, Or.inl hk⟩)
    | exact ⟨_, _, Or.inr rfl⟩
    | exact ⟨_, Or.inr rfl⟩

theorem Inv1.actRole_step {h : Host} {c c1 : Config} (hi : Inv1 c) (hs : Micro h c c1) :
    ∀ a ∈ c1.stack, a.RoleOK c1.st.trace := by
  have hrole := hi.ctlRole
  have hact := hi.actRole
  obtain ⟨new, htr, -, -⟩ := hs.trace_ext
  intro a ha
  rw [htr]
  cases hs with
  | enterNested dep rest q st K ht hl hd =>
    dsimp only at ha htr hrole hact ⊢
    rw [← htr]
    rcases List.mem_cons.1 ha with rfl | ha
    · simp [Act.RoleOK, nestedCallState]
    rcases List.mem_cons.1 ha with rfl | ha
    · rw [htr]; exact Act.RoleOK.mono_ActRoleOK hrole
    · rw [htr]; exact (hact a ha).mono_ActRoleOK
  | enterLeaf dep rest q st K ht hl hd =>
    dsimp only at ha htr hrole hact ⊢
    rcases List.mem_cons.1 ha with rfl | ha
    · exact Act.RoleOK.mono_ActRoleOK hrole
    · exact (hact a ha).mono_ActRoleOK
  | _ =>
    first
    | exact (hact a ha).mono_ActRoleOK
    | exact (hact a (List.mem_cons_of_mem _ ha)).mono_ActRoleOK


theorem Inv1.loadedRole_step {h : Host} {c c1 : Config} (hi : Inv1 c) (hs : Micro h c c1) :
    ∀ x ∈ c1.st.LOADED_DEPENDENCIES, ∃ d, Event.start x.1 d x.2 ∈ c1.st.trace := by
  have hl := hi.loadedRole
  have hst := hi.stackOK
  obtain ⟨new, htr, -, -⟩ := hs.trace_ext
  intro x hx
  rw [htr]
  have hmono : (∃ d, Event.start x.1 d x.2 ∈ c.st.trace) →
      ∃ d, Event.start x.1 d x.2 ∈ c.st.trace ++ new :=
    fun ⟨d, hd⟩ => ⟨d, List.mem_append_left _ hd⟩
  apply hmono
  cases hs with
  | retLoopWait dep rest q r st K ho =>
    dsimp only at hx hl hst ⊢
    simp only [addWaiter_LOADED, setLoaded_LOADED, List.mem_cons] at hx
    rcases hx with rfl | hx
    · rcases hst with hK | ⟨dep1, rest1, q1, K1, hK, hstart, -⟩
      · cases hK
      · cases hK; exact hstart
    · exact hl x hx
  | retLoopReady dep rest q r o st K ho =>
    dsimp only at hx hl hst ⊢
    simp only [addJob_LOADED, setLoaded_LOADED, List.mem_cons] at hx
    rcases hx with rfl | hx
    · rcases hst with hK | ⟨dep1, rest1, q1, K1, hK, hstart, -⟩
      · cases hK
      · cases hK; exact hstart
    · exact hl x hx
  | _ =>
    (try dsimp only at hx hl ⊢)
    (try simp only [emit_LOADED, newPromise_LOADED, addWaiter_LOADED, addJob_LOADED,
      addCss_LOADED, dropJob_LOADED, register_LOADED, settle_LOADED, nestedCallState,
      leafCallState] at hx)
    exact hl x hx

theorem Inv1.stackOK_step {h : Host} {c c1 : Config} (hi : Inv1 c) (hs : Micro h c c1) :
    StackOK c1.st.trace c1.ctl c1.stack := by
  have hst := hi.stackOK
  have hrole := hi.ctlRole
  have hact := hi.actRole
  cases hs with
  | retNestedWait dep d r q st K ho =>
    dsimp only at hst hact ⊢
    have hstart := (hact _ (List.mem_cons_self _ _)).1
    match K, hst with
    | .loopCall dep1 rest1 q1 :: K1, hp =>
      exact Or.inr ⟨dep1, rest1, q1, K1, rfl, ⟨d, by rw [hp.1]; exact hstart⟩, hp.2⟩
  | retNestedReady dep d r q o st K ho =>
    dsimp only at hst hact ⊢
    have hstart := (hact _ (List.mem_cons_self _ _)).1
    match K, hst with
    | .loopCall dep1 rest1 q1 :: K1, hp =>
      exact Or.inr ⟨dep1, rest1, q1, K1, rfl, ⟨d, by rw [hp.1]; exact hstart⟩, hp.2⟩
  | retLoopWait dep rest q r st K ho =>
    dsimp only at hst ⊢
    rcases hst with hK | ⟨dep1, rest1, q1, K1, hK, -, hp⟩
    · cases hK
    · cases hK; exact hp
  | retLoopReady dep rest q r o st K ho =>
    dsimp only at hst ⊢
    rcases hst with hK | ⟨dep1, rest1, q1, K1, hK, -, hp⟩
    · cases hK
    · cases hK; exact hp
  | enterNested dep rest q st K ht hl hd => exact ⟨rfl, hst⟩
  | enterLeaf dep rest q st K ht hl hd => exact Or.inr ⟨rest, q, K, rfl, hst⟩
  | _ =>
    (try dsimp only at hst hrole ⊢)
    first
    | exact hst
    | rfl
    | trivial
    | exact Or.inl rfl
    | (obtain ⟨d, hd⟩ := hrole
       rcases hst with hK | ⟨rest1, q1, K1, hK, hp⟩
       · exact Or.inl hK
       · exact Or.inr ⟨_, rest1, q1, K1, hK, ⟨d, by simp [hd]⟩, hp⟩)


theorem getLoaded_promise_mem {st : State} {dep : Name} {p : Nat}
    (h : st.getLoaded dep = .promise p) : (dep, p) ∈ st.LOADED_DEPENDENCIES := by
  unfold State.getLoaded at h
  cases hl : st.LOADED_DEPENDENCIES.lookup dep with
  | none => rw [hl] at h; simp only [] at h; split at h <;> cases h
  | some q =>
    rw [hl] at h
    simp only [Memo.promise.injEq] at h
    subst h
    generalize st.LOADED_DEPENDENCIES = l at hl
    induction l with
    | nil => cases hl
    | cons a l ih =>
      obtain ⟨k, v⟩ := a
      simp only [List.lookup_cons] at hl
      by_cases hk : dep = k
      · subst hk
        simp only [beq_self_eq_true, Option.some.injEq] at hl
        subst hl
        exact List.mem_cons_self _ _
      · have : (dep == k) = false := by simpa using hk
        rw [this] at hl
        exact List.mem_cons_of_mem _ (ih hl)

theorem outcome_none_pending {P : List PState} {p : Nat}
    (ho : outcomeOf (P.getD p .pending) = none) (hp : p < P.length) :
    P.get? p = some .pending := by
  rw [List.getD_eq_getElem?_getD, List.getElem?_eq_getElem hp] at ho
  simp only [Option.getD_some] at ho
  rw [List.get?_eq_getElem?, List.getElem?_eq_getElem hp]
  cases hq : P[p] with
  | pending => rfl
  | fulfilled => rw [hq] at ho; cases ho
  | rejected e => rw [hq] at ho; cases ho

theorem Inv1.start_lt {c : Config} (hi : Inv1 c) {dep : Name} {d : Descriptor} {r : Nat}
    (hs : Event.start dep d r ∈ c.st.trace) : r < c.st.promises.length :=
  hi.introLt r (mem_introduced hs rfl)

theorem Inv1.call_lt {c : Config} (hi : Inv1 c) {k : Option Name} {names : List Name} {q : Nat}
    (hs : Event.call k names q ∈ c.st.trace) : q < c.st.promises.length :=
  hi.introLt q (mem_introduced hs rfl)

theorem settle_waiter (st : State) (p : Nat) (o : Option Err) (w : Nat × Frame)
    (hw : w ∈ (st.settle p o).waiters) :
    w ∈ st.waiters ∧ (st.settle p o).promises.get? w.1 = st.promises.get? w.1 := by
  by_cases hp : st.promises.get? p = some .pending
  · rw [(settle_pending st p o hp).2.2, List.mem_filter] at hw
    have hne : w.1 ≠ p := by simpa using hw.2
    exact ⟨hw.1, settle_get?_ne st p o w.1 hne⟩
  · have : st.settle p o = st := by
      unfold State.settle
      split
      · rename_i h1; exact (hp h1).elim
      · rfl
    rw [this] at hw ⊢
    exact ⟨hw, rfl⟩

theorem Inv1.waitPending_step {h : Host} {c c1 : Config} (hi : Inv1 c) (hs : Micro h c c1) :
    ∀ w ∈ c1.st.waiters, c1.st.promises.get? w.1 = some .pending := by
  have hw := hi.waitPending
  intro w hmem
  cases hs with
  | memoWait dep rest q p st K ht hl ho =>
    dsimp only at hmem hw ⊢
    simp only [addWaiter_waiters, List.mem_append, List.mem_singleton] at hmem
    rcases hmem with hmem | rfl
    · exact hw w hmem
    · obtain ⟨d, hd⟩ := hi.loadedRole _ (getLoaded_promise_mem hl)
      exact outcome_none_pending ho (hi.start_lt hd)
  | retNestedWait dep d r q st K ho =>
    dsimp only at hmem hw ⊢
    simp only [addWaiter_waiters, List.mem_append, List.mem_singleton] at hmem
    rcases hmem with hmem | rfl
    · exact hw w hmem
    · exact outcome_none_pending ho (hi.call_lt (hi.actRole _ (List.mem_cons_self _ _)).2)
  | retLoopWait dep rest q r st K ho =>
    dsimp only at hmem hw ⊢
    simp only [addWaiter_waiters, setLoaded_waiters, List.mem_append, List.mem_singleton] at hmem
    rcases hmem with hmem | rfl
    · exact hw w hmem
    · rcases hi.stackOK with hK | ⟨dep1, rest1, q1, K1, hK, ⟨d, hd⟩, -⟩
      · cases hK
      · exact outcome_none_pending ho (hi.start_lt hd)
  | signal p ok url st hu hp =>
    obtain ⟨h1, h2⟩ := settle_waiter _ _ _ w hmem
    rw [h2]; exact hw w h1
  | resumeErr i f e st hg =>
    obtain ⟨h1, h2⟩ := settle_waiter _ _ _ w hmem
    rw [h2]; exact hw w h1
  | resumeCssNew i c r st hg hm =>
    obtain ⟨h1, h2⟩ := settle_waiter _ _ _ w hmem
    rw [h2]; exact hw w h1
  | resumeCssLoaded i c r st hg hm =>
    obtain ⟨h1, h2⟩ := settle_waiter _ _ _ w hmem
    rw [h2]; exact hw w h1
  | loopEnd q st K =>
    obtain ⟨h1, h2⟩ := settle_waiter _ _ _ w hmem
    rw [h2]; exact hw w h1
  | initThrows dep r st K =>
    obtain ⟨h1, h2⟩ := settle_waiter _ _ _ w hmem
    rw [h2]; exact hw w h1
  | finish dep r st K =>
    obtain ⟨h1, h2⟩ := settle_waiter _ _ _ w hmem
    rw [h2]; exact hw w h1
  | _ =>
    (try dsimp only at hmem hw ⊢)
    (try simp only [emit_waiters, newPromise_waiters, addWaiter_waiters, addJob_waiters,
      addCss_waiters, setLoaded_waiters, dropJob_waiters, register_waiters, nestedCallState,
      leafCallState, emit_promises, newPromise_promises, addWaiter_promises, addJob_promises,
      addCss_promises, setLoaded_promises, dropJob_promises, register_promises,
      List.mem_append, List.mem_singleton] at hmem ⊢)
    first
    | exact hw w hmem
    | exact get?_append_pending (hw w hmem)
    | (rw [List.append_assoc]; exact get?_append_pending (hw w hmem))
    | (rcases hmem with hmem | rfl
       · exact get?_append_pending (hw w hmem)
       · simp)

theorem Inv1.step_Inv1 {h : Host} {c c1 : Config} (hi : Inv1 c) (hs : Micro h c c1) : Inv1 c1 where
  introLt := hi.introLt_step hs
  introNodup := hi.introNodup_step hs
  resOnce := hi.resOnce_step hs
  resPending := hi.resPending_step hs
  waitPending := hi.waitPending_step hs
  frameRole := hi.frameRole_step hs
  actRole := hi.actRole_step hs
  ctlRole := hi.ctlRole_step hs
  loadedRole := hi.loadedRole_step hs
  stackOK := hi.stackOK_step hs

theorem Inv1.init_Inv1 : Inv1 ⟨State.init, .idle, []⟩ where
  introLt := by intro x hx; cases hx
  introNodup := List.nodup_nil
  resOnce := by intro x; simp [Config.resCount, State.wjCount, stackCount, Ctl.results, State.init]
  resPending := by
    intro x hx
    simp [Config.resCount, State.wjCount, stackCount, Ctl.results, State.init] at hx
  waitPending := by intro w hw; cases hw
  frameRole := by
    intro f hf
    rcases hf with ⟨p, hp⟩ | ⟨o, ho⟩
    · cases hp
    · cases ho
  actRole := by intro a ha; cases ha
  ctlRole := trivial
  loadedRole := by intro x hx; cases hx
  stackOK := rfl

/-! ## Facts about a call survive what other calls do -/

theorem ownScripts_append (o : Run) (l1 l2 : List Event) :
    ownScripts o (l1 ++ l2) = ownScripts o l1 ++ ownScripts o l2 := by
  simp [ownScripts, List.filterMap_append]

theorem ownLinks_append (o : Run) (l1 l2 : List Event) :
    ownLinks o (l1 ++ l2) = ownLinks o l1 ++ ownLinks o l2 := by
  simp [ownLinks, List.filterMap_append]

theorem ownInits_append (o : Run) (l1 l2 : List Event) :
    ownInits o (l1 ++ l2) = ownInits o l1 ++ ownInits o l2 := by
  simp [ownInits, List.filterMap_append]

theorem ownScripts_notBy {o : Run} {new : List Event} (h : NotBy o new) :
    ownScripts o new = [] := by
  induction new with
  | nil => rfl
  | cons e l ih =>
    have h1 : e.owner ≠ some o := h e (List.mem_cons_self _ _)
    have h2 : NotBy o l := fun x hx => h x (List.mem_cons_of_mem _ hx)
    have ih2 := ih h2
    unfold ownScripts at ih2 ⊢
    rw [List.filterMap_cons]
    cases e <;> simp only [ih2] <;> try rfl
    rename_i o1 u p
    have : o1 ≠ o := fun hh => h1 (by rw [hh]; rfl)
    simp [this]

theorem ownLinks_notBy {o : Run} {new : List Event} (h : NotBy o new) :
    ownLinks o new = [] := by
  induction new with
  | nil => rfl
  | cons e l ih =>
    have h1 : e.owner ≠ some o := h e (List.mem_cons_self _ _)
    have h2 : NotBy o l := fun x hx => h x (List.mem_cons_of_mem _ hx)
    have ih2 := ih h2
    unfold ownLinks at ih2 ⊢
    rw [List.filterMap_cons]
    cases e <;> simp only [ih2] <;> try rfl
    rename_i o1 u p
    cases o1 with
    | none => rfl
    | some o2 =>
      have : o2 ≠ o := fun hh => h1 (by rw [hh]; rfl)
      simp [this]

theorem ownInits_notBy {o : Run} {new : List Event} (h : NotBy o new) :
    ownInits o new = [] := by
  induction new with
  | nil => rfl
  | cons e l ih =>
    have h1 : e.owner ≠ some o := h e (List.mem_cons_self _ _)
    have h2 : NotBy o l := fun x hx => h x (List.mem_cons_of_mem _ hx)
    have ih2 := ih h2
    unfold ownInits at ih2 ⊢
    rw [List.filterMap_cons]
    cases e <;> simp only [ih2] <;> try rfl
    rename_i o1 x
    have : o1 ≠ o := fun hh => h1 (by rw [hh]; rfl)
    simp [this]

theorem log_notBy {o : Run} {tr new : List Event} (h : NotBy o new) (hl : Event.log o ∉ tr) :
    Event.log o ∉ tr ++ new := by
  intro hm
  rcases List.mem_append.1 hm with hm | hm
  · exact hl hm
  · exact h _ hm rfl

theorem Fired.mono_Fired {p : Nat} {tr : List Event} (h : Fired p tr) (new : List Event) :
    Fired p (tr ++ new) := List.mem_append_left _ h

theorem AllFiredBut.mono_AllFiredBut {l : List (String × Nat)} {pend : Option Nat} {tr : List Event}
    (h : AllFiredBut l pend tr) (new : List Event) : AllFiredBut l pend (tr ++ new) := by
  intro x hx
  rcases h x hx with h1 | h1
  · exact Or.inl h1
  · exact Or.inr (h1.mono_Fired new)

theorem Handled.mono_Handled {x : Name} {tr : List Event} (h : Handled x tr) (new : List Event) :
    Handled x (tr ++ new) := by
  rcases h with h | ⟨r, h⟩ | h
  · exact Or.inl (List.mem_append_left _ h)
  · exact Or.inr (Or.inl ⟨r, List.mem_append_left _ h⟩)
  · exact Or.inr (Or.inr h)

theorem DepsDone.mono_DepsDone {d : Descriptor} {tr : List Event} (h : DepsDone d tr)
    (new : List Event) : DepsDone d (tr ++ new) :=
  fun ht x hx => (h ht x hx).mono_Handled new

theorem Quiet.mono_Quiet {o : Run} {tr new : List Event} (h : Quiet o tr) (hn : NotBy o new) :
    Quiet o (tr ++ new) := by
  obtain ⟨h1, h2, h3, h4⟩ := h
  refine ⟨?_, ?_, ?_, log_notBy hn h4⟩
  · rw [ownScripts_append, ownScripts_notBy hn, h1]; rfl
  · rw [ownLinks_append, ownLinks_notBy hn, h2]; rfl
  · rw [ownInits_append, ownInits_notBy hn, h3]; rfl

theorem AtScripts.mono_AtScripts {o : Run} {d : Descriptor} {rest : List String} {pend : Option Nat}
    {tr new : List Event} (h : AtScripts o d rest pend tr) (hn : NotBy o new) :
    AtScripts o d rest pend (tr ++ new) := by
  obtain ⟨h1, h2, h3, h4, h5, h6, h7⟩ := h
  refine ⟨h1.mono_DepsDone new, h2, ?_, ?_, ?_, ?_, log_notBy hn h7⟩
  · rw [ownScripts_append, ownScripts_notBy hn, List.append_nil]; exact h3
  · rw [ownScripts_append, ownScripts_notBy hn, List.append_nil]; exact h4.mono_AllFiredBut new
  · rw [ownLinks_append, ownLinks_notBy hn, h5]; rfl
  · rw [ownInits_append, ownInits_notBy hn, h6]; rfl

theorem ScriptsDone.mono_ScriptsDone {o : Run} {d : Descriptor} {tr new : List Event}
    (h : ScriptsDone o d tr) (hn : NotBy o new) : ScriptsDone o d (tr ++ new) := by
  obtain ⟨h1, h2, h3⟩ := h
  refine ⟨h1.mono_DepsDone new, ?_, ?_⟩
  · rw [ownScripts_append, ownScripts_notBy hn, List.append_nil]; exact h2
  · rw [ownScripts_append, ownScripts_notBy hn, List.append_nil]; exact h3.mono_AllFiredBut new

theorem AtStyles.mono_AtStyles {o : Run} {d : Descriptor} {rest : List String} {pend : Option Nat}
    {tr new : List Event} (h : AtStyles o d rest pend tr) (hn : NotBy o new) :
    AtStyles o d rest pend (tr ++ new) := by
  obtain ⟨h1, h2, h3, h4, h5, h6⟩ := h
  refine ⟨h1.mono_ScriptsDone hn, h2, ?_, ?_, ?_, log_notBy hn h6⟩
  · rw [ownLinks_append, ownLinks_notBy hn, List.append_nil]; exact h3
  · rw [ownLinks_append, ownLinks_notBy hn, List.append_nil]; exact h4.mono_AllFiredBut new
  · rw [ownInits_append, ownInits_notBy hn, h5]; rfl

theorem StylesDone.mono_StylesDone {o : Run} {d : Descriptor} {tr new : List Event}
    (h : StylesDone o d tr) (hn : NotBy o new) : StylesDone o d (tr ++ new) := by
  obtain ⟨h1, h2, h3⟩ := h
  refine ⟨h1.mono_ScriptsDone hn, ?_, ?_⟩
  · rw [ownLinks_append, ownLinks_notBy hn, List.append_nil]; exact h2
  · rw [ownLinks_append, ownLinks_notBy hn, List.append_nil]; exact h3.mono_AllFiredBut new

theorem AtInit.mono_AtInit {o : Run} {d : Descriptor} {tr new : List Event}
    (h : AtInit o d tr) (hn : NotBy o new) : AtInit o d (tr ++ new) := by
  obtain ⟨h1, h2, h3⟩ := h
  refine ⟨h1.mono_StylesDone hn, ?_, log_notBy hn h3⟩
  rw [ownInits_append, ownInits_notBy hn, h2]; rfl

theorem AfterInit.mono_AfterInit {o : Run} {d : Descriptor} {tr new : List Event}
    (h : AfterInit o d tr) (hn : NotBy o new) : AfterInit o d (tr ++ new) := by
  obtain ⟨h1, h2, h3⟩ := h
  refine ⟨h1.mono_StylesDone hn, ?_, log_notBy hn h3⟩
  rw [ownInits_append, ownInits_notBy hn, List.append_nil]; exact h2

theorem LoopFacts.mono_LoopFacts {tr : List Event} {names : List Name} {q : Nat}
    (h : LoopFacts tr names q) (new : List Event) : LoopFacts (tr ++ new) names q := by
  obtain ⟨k, all, done, h1, h2, h3⟩ := h
  exact ⟨k, all, done, List.mem_append_left _ h1, h2, fun x hx => (h3 x hx).mono_Handled new⟩

/-! ## Preservation of the call facts -/

theorem Frame.run_result {f : Frame} {o : Run} (h : f.run = some o) : f.result = o.2 := by
  cases f <;> simp only [Frame.run, Option.some.injEq] at h <;> first | (subst h; rfl) | cases h

theorem Foreign.notBy {new : List Event} {f : Frame} {o : Run} (h : Foreign new f)
    (hr : f.run = some o) : NotBy o new :=
  fun e he ho => h e he o ho hr

theorem Foreign.of_none {new : List Event} {f : Frame} (h : ∀ e ∈ new, e.owner = none) :
    Foreign new f := by
  intro e he o ho
  rw [h e he] at ho
  cases ho

theorem Foreign.of_result {new : List Event} {f : Frame} (o : Run)
    (h : ∀ e ∈ new, e.owner = none ∨ e.owner = some o) (hr : f.result ≠ o.2) :
    Foreign new f := by
  intro e he o1 ho hrun
  rcases h e he with h1 | h1
  · rw [h1] at ho; cases ho
  · rw [h1] at ho
    cases ho
    exact hr (Frame.run_result hrun)

theorem FrameFacts.mono_FrameFacts {tr new : List Event} {s : Status} {f : Frame}
    (h : FrameFacts tr s f) (hn : Foreign new f) : FrameFacts (tr ++ new) s f := by
  cases f with
  | ld cur rest q =>
    obtain ⟨h1, h2⟩ := h
    refine ⟨h1.mono_LoopFacts new, ?_⟩
    cases s with
    | wait m => obtain ⟨d, hd⟩ := h2; exact ⟨d, List.mem_append_left _ hd⟩
    | ready o =>
      cases o with
      | none => exact Handled.mono_Handled h2 new
      | some e => trivial
  | afterDeps dep sc sty ini r =>
    obtain ⟨d, h1, h2, h3, h4, h5, h6⟩ := h
    refine ⟨d, List.mem_append_left _ h1, h2, h3, h4, h5.mono_Quiet (hn.notBy rfl), ?_⟩
    cases s with
    | wait m => exact List.mem_append_left _ h6
    | ready o =>
      cases o with
      | none => exact DepsDone.mono_DepsDone h6 new
      | some e => trivial
  | afterScript dep rest sty ini r =>
    obtain ⟨d, pend, h1, h2, h3, h4, h5, h6⟩ := h
    refine ⟨d, pend, List.mem_append_left _ h1, h2, h3, h4, h5.mono_AtScripts (hn.notBy rfl), ?_⟩
    cases s with
    | wait m => obtain ⟨u, hu⟩ := h6; exact ⟨u, List.mem_append_left _ hu⟩
    | ready o => trivial
  | afterStyle dep rest ini r =>
    obtain ⟨d, pend, h1, h2, h3, h4, h5⟩ := h
    refine ⟨d, pend, List.mem_append_left _ h1, h2, h3, h4.mono_AtStyles (hn.notBy rfl), ?_⟩
    cases s with
    | wait m => obtain ⟨u, hu⟩ := h5; exact ⟨u, List.mem_append_left _ hu⟩
    | ready o => trivial
  | afterInit dep r =>
    obtain ⟨d, h1, h2, h3⟩ := h
    exact ⟨d, List.mem_append_left _ h1, h2.mono_AfterInit (hn.notBy rfl), h3⟩
  | cssHash c r => trivial

theorem ActFacts.mono_ActFacts {tr new : List Event} {a : Act} (h : ActFacts tr a)
    (hn : Foreign new a.frame) : ActFacts (tr ++ new) a := by
  cases a with
  | loopCall cur rest q => exact LoopFacts.mono_LoopFacts h new
  | runCall dep d r q => exact Quiet.mono_Quiet h (hn.notBy rfl)

theorem hasFrame_count {st : State} {f : Frame} (h : st.hasFrame f) : 0 < st.wjCount f.result := by
  unfold State.wjCount
  rcases h with ⟨p, hp⟩ | ⟨o, ho⟩
  · have : 0 < st.waiters.countP (fun w => w.2.result == f.result) :=
      List.countP_pos_iff.2 ⟨(p, f), hp, by simp⟩
    omega
  · have : 0 < st.jobs.countP (fun j => j.1.result == f.result) :=
      List.countP_pos_iff.2 ⟨(f, o), ho, by simp⟩
    omega

theorem mem_stackCount {K : List Act} {a : Act} (h : a ∈ K) : 0 < stackCount K a.frame.result :=
  List.countP_pos_iff.2 ⟨a, h, by simp⟩

theorem Inv1.run_unique {st : State} {dep : Name} {r : Nat} {ph : Phase} {K : List Act}
    (hi : Inv1 ⟨st, .run dep r ph, K⟩) :
    (∀ f, st.hasFrame f → f.result ≠ r) ∧ (∀ a ∈ K, a.frame.result ≠ r) := by
  have h0 := hi.resOnce r
  simp only [resCount_eq, Ctl.results, List.count_cons, List.count_nil, beq_self_eq_true,
    if_true] at h0
  constructor
  · intro f hf he
    have := hasFrame_count hf
    rw [he] at this
    omega
  · intro a ha he
    have := mem_stackCount ha
    rw [he] at this
    omega

theorem Micro.foreign {h : Host} {c c1 : Config} (hi : Inv1 c) (hs : Micro h c c1) :
    ∃ new, c1.st.trace = c.st.trace ++ new ∧ (∀ f, c.st.hasFrame f → Foreign new f) ∧
      (∀ a ∈ c.stack, Foreign new a.frame) := by
  cases hs with
  | script dep r u rest sty ini st K =>
    obtain ⟨h1, h2⟩ := hi.run_unique
    refine ⟨[_], rfl, fun f hf => ?_, fun a ha => ?_⟩
    · exact Foreign.of_result (dep, r) (by simp [Event.owner]) (h1 f hf)
    · exact Foreign.of_result (dep, r) (by simp [Event.owner]) (h2 a ha)
  | styleNew dep r u rest ini st K hu hm =>
    obtain ⟨h1, h2⟩ := hi.run_unique
    refine ⟨[_], rfl, fun f hf => ?_, fun a ha => ?_⟩
    · exact Foreign.of_result (dep, r) (by simp [Event.owner]) (h1 f hf)
    · exact Foreign.of_result (dep, r) (by simp [Event.owner]) (h2 a ha)
  | initSync dep r st K =>
    obtain ⟨h1, h2⟩ := hi.run_unique
    refine ⟨[_], rfl, fun f hf => ?_, fun a ha => ?_⟩
    · exact Foreign.of_result (dep, r) (by simp [Event.owner]) (h1 f hf)
    · exact Foreign.of_result (dep, r) (by simp [Event.owner]) (h2 a ha)
  | initThrows dep r st K =>
    obtain ⟨h1, h2⟩ := hi.run_unique
    refine ⟨[Event.init (dep, r) none], by simp, fun f hf => ?_, fun a ha => ?_⟩
    · exact Foreign.of_result (dep, r) (by simp [Event.owner]) (h1 f hf)
    · exact Foreign.of_result (dep, r) (by simp [Event.owner]) (h2 a ha)
  | initAsync dep r st K =>
    obtain ⟨h1, h2⟩ := hi.run_unique
    refine ⟨[_], rfl, fun f hf => ?_, fun a ha => ?_⟩
    · exact Foreign.of_result (dep, r) (by simp [Event.owner]) (h1 f hf)
    · exact Foreign.of_result (dep, r) (by simp [Event.owner]) (h2 a ha)
  | finish dep r st K =>
    obtain ⟨h1, h2⟩ := hi.run_unique
    refine ⟨[Event.log (dep, r)], by simp, fun f hf => ?_, fun a ha => ?_⟩
    · exact Foreign.of_result (dep, r) (by simp [Event.owner]) (h1 f hf)
    · exact Foreign.of_result (dep, r) (by simp [Event.owner]) (h2 a ha)
  | _ =>
    simp only [emit_trace, newPromise_trace, addWaiter_trace, addJob_trace, addCss_trace,
      setLoaded_trace, dropJob_trace, register_trace, settle_trace, nestedCallState,
      leafCallState, List.append_assoc]
    first
    | (refine ⟨[], ?_, fun f _ => Foreign.of_none ?_, fun a _ => Foreign.of_none ?_⟩
       · simp
       · simp
       · simp)
    | (refine ⟨[_], rfl, fun f _ => Foreign.of_none ?_, fun a _ => Foreign.of_none ?_⟩
       · simp [Event.owner]
       · simp [Event.owner])
    | (refine ⟨[_, _], rfl, fun f _ => Foreign.of_none ?_, fun a _ => Foreign.of_none ?_⟩
       · simp [Event.owner]
       · simp [Event.owner])


theorem settle_noop (st : State) (p : Nat) (o : Option Err)
    (hp : st.promises.get? p ≠ some .pending) : st.settle p o = st := by
  unfold State.settle
  split
  · next h => exact absurd h hp
  · rfl

theorem settle_get?_self (st : State) (p : Nat) (o : Option Err)
    (hp : st.promises.get? p = some .pending) :
    (st.settle p o).promises.get? p
      = some (match o with | none => .fulfilled | some e => .rejected e) := by
  rw [(settle_pending st p o hp).1]
  rw [List.get?_eq_some] at hp
  obtain ⟨hl, -⟩ := hp
  rw [List.get?_eq_getElem?, List.getElem?_set_eq hl]

theorem Done.mono_Done {e : Event} {tr : List Event} (h : Done e tr) (new : List Event) :
    Done e (tr ++ new) := by
  cases e with
  | call k all q => exact fun x hx => Handled.mono_Handled (h x hx) new
  | start dep d r => exact List.mem_append_left _ h
  | script o u p => exact Fired.mono_Fired h new
  | link o u p => exact Fired.mono_Fired h new
  | init o x =>
    cases x with
    | none => trivial
    | some p => exact Fired.mono_Fired h new
  | _ => trivial

theorem TraceGood.nil : TraceGood [] := by
  intro pre e post h
  cases pre <;> cases h

theorem TraceGood.snoc {tr : List Event} {e : Event} (h : TraceGood tr) (he : Good e tr) :
    TraceGood (tr ++ [e]) := by
  intro pre e1 post heq
  rcases List.eq_nil_or_concat post with hp | ⟨post1, x, hp⟩
  · subst hp
    have h2 : tr ++ [e] = pre ++ [e1] := heq
    obtain ⟨h3, h4⟩ := List.append_inj' h2 rfl
    cases h4
    subst h3
    exact he
  · subst hp
    have h2 : tr ++ [e] = (pre ++ e1 :: post1) ++ [x] := by
      rw [heq]; simp
    obtain ⟨h3, -⟩ := List.append_inj' h2 rfl
    exact h pre e1 post1 h3

theorem AllFiredBut.wake_AllFiredBut {l : List (String × Nat)} {p : Nat} {tr : List Event}
    (h : AllFiredBut l (some p) tr) (hf : Fired p tr) : AllFiredBut l none tr := by
  intro x hx
  rcases h x hx with h1 | h1
  · right
    cases h1
    exact hf
  · exact Or.inr h1

theorem FrameFacts.wake_err {tr : List Event} {p : Nat} {e : Err} {f : Frame}
    (h : FrameFacts tr (.wait p) f) : FrameFacts tr (.ready (some e)) f := by
  cases f with
  | ld cur rest q => exact ⟨h.1, trivial⟩
  | afterDeps dep sc sty ini r =>
    obtain ⟨d, h1, h2, h3, h4, h5, -⟩ := h
    exact ⟨d, h1, h2, h3, h4, h5, trivial⟩
  | afterScript dep rest sty ini r =>
    obtain ⟨d, pend, h1, h2, h3, -, h5, -⟩ := h
    exact ⟨d, pend, h1, h2, h3, trivial, h5, trivial⟩
  | afterStyle dep rest ini r =>
    obtain ⟨d, pend, h1, h2, -, h4, -⟩ := h
    exact ⟨d, pend, h1, h2, trivial, h4, trivial⟩
  | afterInit dep r => exact h
  | cssHash c r => trivial

theorem FrameFacts.wake_FrameFacts {tr : List Event} {p : Nat} {f : Frame}
    (hd : ∀ e ∈ tr, e.intro = some p → Done e tr)
    (h : FrameFacts tr (.wait p) f) : FrameFacts tr (.ready none) f := by
  cases f with
  | ld cur rest q =>
    obtain ⟨h1, d, h2⟩ := h
    exact ⟨h1, Or.inr (Or.inl ⟨p, hd _ h2 rfl⟩)⟩
  | afterDeps dep sc sty ini r =>
    obtain ⟨d, h1, h2, h3, h4, h5, h6⟩ := h
    refine ⟨d, h1, h2, h3, h4, h5, ?_⟩
    intro _
    exact hd _ h6 rfl
  | afterScript dep rest sty ini r =>
    obtain ⟨d, pend, h1, h2, h3, h4, h5, u, h6⟩ := h
    have h4 : pend = some p := h4
    subst h4
    obtain ⟨a1, a2, a3, a4, a5⟩ := h5
    exact ⟨d, none, h1, h2, h3, rfl, ⟨a1, a2, a3, a4.wake_AllFiredBut (hd _ h6 rfl), a5⟩, trivial⟩
  | afterStyle dep rest ini r =>
    obtain ⟨d, pend, h1, h2, h3, h4, u, h5⟩ := h
    have h3 : pend = some p := h3
    subst h3
    obtain ⟨a1, a2, a3, a4, a5⟩ := h4
    exact ⟨d, none, h1, h2, rfl, ⟨a1, a2, a3, a4.wake_AllFiredBut (hd _ h5 rfl), a5⟩, trivial⟩
  | afterInit dep r => exact h
  | cssHash c r => trivial

theorem SFacts.settle {st : State} (hs : SFacts st) (p : Nat) (o : Option Err)
    (hd : o = none → ∀ e ∈ st.trace, e.intro = some p → Done e st.trace) :
    SFacts (st.settle p o) := by
  by_cases hp : st.promises.get? p = some .pending
  · obtain ⟨h1, h2, h3⟩ := settle_pending st p o hp
    refine ⟨by rw [settle_trace]; exact hs.good, ?_, ?_, ?_, ?_⟩
    · intro e he q hq hful
      rw [settle_trace] at he ⊢
      by_cases hqp : q = p
      · subst hqp
        rw [settle_get?_self st q o hp] at hful
        cases o with
        | none => exact hd rfl e he hq
        | some e1 => cases hful
      · rw [settle_get?_ne st p o q hqp] at hful
        exact hs.done e he q hq hful
    · intro q ok hq
      rw [settle_trace] at hq
      obtain ⟨ps, h4, h5⟩ := hs.firedSettled q ok hq
      by_cases hqp : q = p
      · subst hqp
        rw [hp] at h4
        cases h4
        exact absurd rfl h5
      · exact ⟨ps, by rw [settle_get?_ne st p o q hqp]; exact h4, h5⟩
    · intro w hw
      rw [settle_trace]
      rw [h3] at hw
      exact hs.waitFacts w (List.mem_filter.1 hw).1
    · intro j hj
      rw [settle_trace]
      rw [h2] at hj
      rcases List.mem_append.1 hj with hj | hj
      · exact hs.jobFacts j hj
      · obtain ⟨w, hw, rfl⟩ := List.mem_map.1 hj
        obtain ⟨hw1, hw2⟩ := List.mem_filter.1 hw
        have hw3 : w.1 = p := by simpa using hw2
        have hf := hs.waitFacts w hw1
        rw [hw3] at hf
        cases o with
        | none => exact hf.wake_FrameFacts (hd rfl)
        | some e => exact hf.wake_err
  · rw [settle_noop st p o hp]
    exact hs

theorem SFacts.newPromise {st : State} (hs : SFacts st) (ps : PState)
    (hfresh : ps = .fulfilled → st.promises.length ∉ introduced st.trace) :
    SFacts (st.newPromise ps).1 := by
  refine ⟨hs.good, ?_, ?_, hs.waitFacts, hs.jobFacts⟩
  · intro e he q hq hful
    have hq1 : q < st.promises.length ∨ q = st.promises.length := by
      have h1 := hful
      rw [List.get?_eq_some] at h1
      obtain ⟨hl, -⟩ := h1
      simp only [newPromise_promises, List.length_append, List.length_singleton] at hl
      omega
    rcases hq1 with hlt1 | heq
    · have : (st.newPromise ps).1.promises.get? q = st.promises.get? q := by
        simp only [newPromise_promises, List.get?_eq_getElem?]
        rw [List.getElem?_append_left hlt1]
      rw [this] at hful
      exact hs.done e he q hq hful
    · subst heq
      have h2 : (st.newPromise ps).1.promises.get? st.promises.length = some ps := by
        simp only [newPromise_promises, List.get?_eq_getElem?]
        rw [List.getElem?_append_right (le_refl _)]
        simp
      rw [h2] at hful
      cases hful
      exact absurd (mem_introduced he hq) (hfresh rfl)
  · intro q ok hq
    obtain ⟨ps1, h4, h5⟩ := hs.firedSettled q ok hq
    refine ⟨ps1, ?_, h5⟩
    rw [List.get?_eq_some] at h4
    obtain ⟨hl, hx⟩ := h4
    simp only [newPromise_promises, List.get?_eq_getElem?]
    rw [List.getElem?_append_left hl, List.getElem?_eq_getElem hl]
    exact congrArg some hx

theorem hasFrame_of_waiter {st : State} {w : Nat × Frame} (h : w ∈ st.waiters) :
    st.hasFrame w.2 := Or.inl ⟨w.1, h⟩

theorem hasFrame_of_job {st : State} {j : Frame × Option Err} (h : j ∈ st.jobs) :
    st.hasFrame j.1 := Or.inr ⟨j.2, h⟩

theorem SFacts.emit {st : State} (hs : SFacts st) (e : Event) (hg : Good e st.trace)
    (hfor : ∀ f, st.hasFrame f → Foreign [e] f)
    (hintro : ∀ p, e.intro = some p → st.promises.get? p ≠ some .fulfilled)
    (hnf : ∀ p ok, e ≠ .fired p ok) : SFacts (st.emit e) := by
  refine ⟨hs.good.snoc hg, ?_, ?_, ?_, ?_⟩
  · intro e1 he1 q hq hful
    rw [emit_trace] at he1 ⊢
    rw [emit_promises] at hful
    rcases List.mem_append.1 he1 with h1 | h1
    · exact (hs.done e1 h1 q hq hful).mono_Done _
    · rw [List.mem_singleton] at h1
      subst h1
      exact absurd hful (hintro q hq)
  · intro q ok hq
    rw [emit_trace] at hq
    rcases List.mem_append.1 hq with h1 | h1
    · exact hs.firedSettled q ok h1
    · rw [List.mem_singleton] at h1
      exact absurd h1.symm (hnf q ok)
  · intro w hw
    exact (hs.waitFacts w hw).mono_FrameFacts (hfor _ (hasFrame_of_waiter hw))
  · intro j hj
    exact (hs.jobFacts j hj).mono_FrameFacts (hfor _ (hasFrame_of_job hj))

theorem SFacts.addWaiter {st : State} (hs : SFacts st) (p : Nat) (f : Frame)
    (hf : FrameFacts st.trace (.wait p) f) : SFacts (st.addWaiter p f) := by
  refine ⟨hs.good, hs.done, hs.firedSettled, ?_, hs.jobFacts⟩
  intro w hw
  rcases List.mem_append.1 hw with h1 | h1
  · exact hs.waitFacts w h1
  · rw [List.mem_singleton] at h1
    subst h1
    exact hf

theorem SFacts.addJob {st : State} (hs : SFacts st) (f : Frame) (o : Option Err)
    (hf : FrameFacts st.trace (.ready o) f) : SFacts (st.addJob f o) := by
  refine ⟨hs.good, hs.done, hs.firedSettled, hs.waitFacts, ?_⟩
  intro j hj
  rcases List.mem_append.1 hj with h1 | h1
  · exact hs.jobFacts j h1
  · rw [List.mem_singleton] at h1
    subst h1
    exact hf

theorem SFacts.dropJob {st : State} (hs : SFacts st) (i : Nat) : SFacts (st.dropJob i) :=
  ⟨hs.good, hs.done, hs.firedSettled, hs.waitFacts,
    fun j hj => hs.jobFacts j (List.mem_of_mem_eraseIdx hj)⟩

theorem SFacts.addCss {st : State} (hs : SFacts st) (u : String) : SFacts (st.addCss u) :=
  ⟨hs.good, hs.done, hs.firedSettled, hs.waitFacts, hs.jobFacts⟩

theorem SFacts.setLoaded {st : State} (hs : SFacts st) (dep : Name) (p : Nat) :
    SFacts (st.setLoaded dep p) :=
  ⟨hs.good, hs.done, hs.firedSettled, hs.waitFacts, hs.jobFacts⟩

theorem SFacts.register {st : State} (hs : SFacts st) (n : Name) (d : Descriptor) :
    SFacts (Dlopen.register n d st) := by
  refine ⟨?_, ?_, ?_, ?_, ?_⟩
  · rw [register_trace]; exact hs.good
  · rw [register_trace, register_promises]; exact hs.done
  · rw [register_trace, register_promises]; exact hs.firedSettled
  · rw [register_trace, register_waiters]; exact hs.waitFacts
  · rw [register_trace, register_jobs]; exact hs.jobFacts

theorem owned_start {tr : List Event} (hg : TraceGood tr) {e : Event} {o : Run}
    (he : e ∈ tr) (ho : e.owner = some o) : ∃ d, Event.start o.1 d o.2 ∈ tr := by
  obtain ⟨pre, post, rfl⟩ := List.append_of_mem he
  have h := hg pre e post rfl
  cases e with
  | script o1 u p =>
    cases ho
    obtain ⟨d, rest, h1, -⟩ := h
    exact ⟨d, List.mem_append_left _ h1⟩
  | link o1 u p =>
    cases o1 with
    | none => cases ho
    | some o2 =>
      cases ho
      obtain ⟨d, rest, h1, -⟩ := h
      exact ⟨d, List.mem_append_left _ h1⟩
  | init o1 x =>
    cases ho
    obtain ⟨d, h1, -⟩ := h
    exact ⟨d, List.mem_append_left _ h1⟩
  | log o1 =>
    cases ho
    obtain ⟨d, h1, -⟩ := h
    exact ⟨d, List.mem_append_left _ h1⟩
  | warn x => cases ho
  | start a b c => cases ho
  | style c => cases ho
  | fired p ok => cases ho
  | call k ns q => cases ho

theorem Quiet.of_notBy {o : Run} {tr : List Event} (h : NotBy o tr) : Quiet o tr := by
  refine ⟨ownScripts_notBy h, ownLinks_notBy h, ownInits_notBy h, ?_⟩
  intro hm
  exact h _ hm rfl

theorem notBy_fresh {tr : List Event} (hg : TraceGood tr) {n : Nat}
    (hlt : ∀ x ∈ introduced tr, x < n) (dep : Name) : NotBy (dep, n) tr := by
  intro e he ho
  obtain ⟨d, hd⟩ := owned_start hg he ho
  have := hlt n (mem_introduced hd rfl)
  omega

theorem getLoaded_inherited {st : State} {dep : Name} (h : st.getLoaded dep = .inherited) :
    dep ∈ objectPrototypeKeys := by
  unfold State.getLoaded at h
  split at h
  · cases h
  · split at h
    · assumption
    · cases h

theorem outcome_ready {P : List PState} {p : Nat}
    (ho : outcomeOf (P.getD p .pending) = some none) : P.get? p = some .fulfilled := by
  rw [List.getD_eq_getElem?_getD] at ho
  rw [List.get?_eq_getElem?]
  cases hg : P[p]? with
  | none => rw [hg] at ho; cases ho
  | some ps =>
    rw [hg] at ho
    cases ps <;> first | rfl | cases ho

theorem AllFiredBut.weaken {l : List (String × Nat)} {tr : List Event}
    (h : AllFiredBut l none tr) (pend : Option Nat) : AllFiredBut l pend tr := by
  intro x hx
  rcases h x hx with h1 | h1
  · cases h1
  · exact Or.inr h1

theorem ownScripts_script (o : Run) (u : String) (p : Nat) :
    ownScripts o [Event.script o u p] = [(u, p)] := by
  simp [ownScripts]

theorem ownLinks_link (o : Run) (u : String) (p : Nat) :
    ownLinks o [Event.link (some o) u p] = [(u, p)] := by
  simp [ownLinks]

theorem ownInits_init (o : Run) (x : Option Nat) :
    ownInits o [Event.init o x] = [x] := by
  simp [ownInits]

theorem AtScripts.script {o : Run} {d : Descriptor} {u : String} {rest : List String}
    {tr : List Event} (h : AtScripts o d (u :: rest) none tr) (p : Nat) :
    AtScripts o d rest (some p) (tr ++ [Event.script o u p]) := by
  obtain ⟨h1, h2, h3, h4, h5, h6, h7⟩ := h
  refine ⟨h1.mono_DepsDone _, h2, ?_, ?_, ?_, ?_, ?_⟩
  · rw [ownScripts_append, ownScripts_script, List.map_append, List.append_assoc]
    exact h3
  · rw [ownScripts_append, ownScripts_script]
    intro x hx
    rcases List.mem_append.1 hx with hx | hx
    · exact (h4.weaken (some p)).mono_AllFiredBut _ x hx
    · rw [List.mem_singleton] at hx
      subst hx
      exact Or.inl rfl
  · rw [ownLinks_append, h5]; simp [ownLinks]
  · rw [ownInits_append, h6]; simp [ownInits]
  · intro hm
    rcases List.mem_append.1 hm with hm | hm
    · exact h7 hm
    · rw [List.mem_singleton] at hm; cases hm

theorem ScriptsDone.own_ScriptsDone {o : Run} {d : Descriptor} {tr : List Event} (h : ScriptsDone o d tr)
    {new : List Event} (hn : ownScripts o new = []) : ScriptsDone o d (tr ++ new) := by
  obtain ⟨h1, h2, h3⟩ := h
  refine ⟨h1.mono_DepsDone _, ?_, ?_⟩
  · rw [ownScripts_append, hn, List.append_nil]; exact h2
  · rw [ownScripts_append, hn, List.append_nil]; exact h3.mono_AllFiredBut _

theorem StylesDone.own_StylesDone {o : Run} {d : Descriptor} {tr : List Event} (h : StylesDone o d tr)
    {new : List Event} (hn : ownScripts o new = []) (hl : ownLinks o new = []) :
    StylesDone o d (tr ++ new) := by
  obtain ⟨h1, h2, h3⟩ := h
  refine ⟨h1.own_ScriptsDone hn, ?_, ?_⟩
  · rw [ownLinks_append, hl, List.append_nil]; exact h2
  · rw [ownLinks_append, hl, List.append_nil]; exact h3.mono_AllFiredBut _

theorem AtStyles.link {o : Run} {d : Descriptor} {u : String} {rest : List String}
    {tr : List Event} (h : AtStyles o d (u :: rest) none tr) (p : Nat) :
    AtStyles o d rest (some p) (tr ++ [Event.link (some o) u p]) := by
  obtain ⟨h1, h2, ⟨done, h3, h3b⟩, h4, h5, h6⟩ := h
  refine ⟨h1.own_ScriptsDone (by simp [ownScripts]), h2, ⟨done ++ [u], ?_, ?_⟩, ?_, ?_, ?_⟩
  · rw [h3]; simp
  · rw [ownLinks_append, ownLinks_link, List.map_append]
    exact List.Sublist.append h3b (List.Sublist.refl _)
  · rw [ownLinks_append, ownLinks_link]
    intro x hx
    rcases List.mem_append.1 hx with hx | hx
    · exact (h4.weaken (some p)).mono_AllFiredBut _ x hx
    · rw [List.mem_singleton] at hx
      subst hx
      exact Or.inl rfl
  · rw [ownInits_append, h5]; simp [ownInits]
  · intro hm
    rcases List.mem_append.1 hm with hm | hm
    · exact h6 hm
    · rw [List.mem_singleton] at hm; cases hm

theorem AtStyles.skip {o : Run} {d : Descriptor} {u : String} {rest : List String}
    {tr : List Event} (h : AtStyles o d (u :: rest) none tr) (pend : Option Nat) :
    AtStyles o d rest pend tr := by
  obtain ⟨h1, h2, ⟨done, h3, h3b⟩, h4, h5, h6⟩ := h
  refine ⟨h1, h2, ⟨done ++ [u], ?_, ?_⟩, h4.weaken pend, h5, h6⟩
  · rw [h3]; simp
  · exact h3b.trans (List.sublist_append_left _ _)

theorem AtInit.init_AtInit {o : Run} {d : Descriptor} {tr : List Event} (h : AtInit o d tr)
    (hd : d.init.isSome = true) (x : Option Nat) :
    AfterInit o d (tr ++ [Event.init o x]) := by
  obtain ⟨h1, h2, h3⟩ := h
  refine ⟨h1.own_StylesDone (by simp [ownScripts]) (by simp [ownLinks]), ?_, ?_⟩
  · rw [ownInits_append, h2, ownInits_init, hd]; rfl
  · intro hm
    rcases List.mem_append.1 hm with hm | hm
    · exact h3 hm
    · rw [List.mem_singleton] at hm; cases hm
/-! ## Hex digest encoding -/

set_option maxRecDepth 100000 in
theorem hexByte_eq : ∀ b : Fin 256,
    hexByte b = [hexDigits.getD (b.val / 16) '?', hexDigits.getD (b.val % 16) '?'] := by
  decide

set_option maxRecDepth 100000 in
theorem hexByte_decode : ∀ b : Fin 256,
    hexDigitValue (hexDigits.getD (b.val / 16) '?') = some (b.val / 16) ∧
    hexDigitValue (hexDigits.getD (b.val % 16) '?') = some (b.val % 16) := by
  decide

theorem hexDigits_getD_mem (d : Nat) (h : d < 16) : hexDigits.getD d '?' ∈ hexDigits := by
  interval_cases d <;> decide

theorem hex_data (ab : List (Fin 256)) :
    (ArrayBufferToHex ab).data = (ab.map hexByte).flatten := rfl

theorem hexDecode_encode (ab : List (Fin 256)) :
    hexDecode (ab.map hexByte).flatten = some ab := by
  induction ab with
  | nil => rfl
  | cons b bs ih =>
    have h1 := (hexByte_decode b).1
    have h2 := (hexByte_decode b).2
    simp only [List.map_cons, List.flatten_cons, hexByte_eq b, List.cons_append, List.nil_append,
      hexDecode, h1, h2, ih]
    congr 2
    apply Fin.ext
    simp [Fin.ofNat]
    omega

theorem hex_get (ab : List (Fin 256)) (i : Nat) (h : i < ab.length) :
    (ab.map hexByte).flatten.get? (2 * i) = some (hexDigits.getD ((ab.get ⟨i, h⟩).val / 16) '?') ∧
    (ab.map hexByte).flatten.get? (2 * i + 1) = some (hexDigits.getD ((ab.get ⟨i, h⟩).val % 16) '?') := by
  induction ab generalizing i with
  | nil => simp at h
  | cons b bs ih =>
    cases i with
    | zero => simp [hexByte_eq b]
    | succ j =>
      have hj : j < bs.length := by simpa using h
      have := ih j hj
      simp only [List.map_cons, List.flatten_cons, hexByte_eq b, List.cons_append, List.nil_append]
      have e1 : 2 * (j + 1) = (2 * j) + 1 + 1 := by ring
      rw [e1]
      simpa using this

/-- C10: for every byte buffer, `ArrayBufferToHex` returns a string of twice
its length, made of the digits `0-9a-f`, whose characters `2i` and `2i+1` are the
two base-16 digits (high, then low) of byte `i` read as an unsigned value; the
decoder recovers the buffer from the string, so the encoding is injective. -/
theorem C10_hex (ab : List (Fin 256)) :
    (ArrayBufferToHex ab).length = 2 * ab.length ∧
    (∀ c ∈ (ArrayBufferToHex ab).data, c ∈ hexDigits) ∧
    (∀ (i : Nat) (h : i < ab.length),
      (ArrayBufferToHex ab).data.get? (2 * i)
        = some (hexDigits.getD ((ab.get ⟨i, h⟩).val / 16) '?') ∧
      (ArrayBufferToHex ab).data.get? (2 * i + 1)
        = some (hexDigits.getD ((ab.get ⟨i, h⟩).val % 16) '?')) ∧
    hexDecode (ArrayBufferToHex ab).data = some ab ∧
    (∀ ab2, ArrayBufferToHex ab2 = ArrayBufferToHex ab → ab2 = ab) := by
  refine ⟨?_, ?_, ?_, ?_, ?_⟩
  · show (ArrayBufferToHex ab).data.length = _
    rw [hex_data]
    induction ab with
    | nil => rfl
    | cons b bs ih => simp [hexByte_eq b, ih]; omega
  · rw [hex_data]
    intro c hc
    simp only [List.mem_flatten, List.mem_map] at hc
    obtain ⟨l, ⟨b, -, rfl⟩, hc⟩ := hc
    rw [hexByte_eq b] at hc
    simp only [List.mem_cons, List.mem_singleton, List.not_mem_nil, or_false] at hc
    rcases hc with rfl | rfl
    · exact hexDigits_getD_mem _ (by omega)
    · exact hexDigits_getD_mem _ (by omega)
  · intro i h
    rw [hex_data]
    exact hex_get ab i h
  · rw [hex_data]; exact hexDecode_encode ab
  · intro ab2 h
    have h1 := hexDecode_encode ab
    have h2 := hexDecode_encode ab2
    rw [← hex_data, h] at h2
    rw [← hex_data, h2] at h1
    exact Option.some.inj h1

/-! ## The style source argument of `loadCss` -/

/-- C9 as stated fails: with `url` supplied as the empty string and no
`content`, `loadCss` raises the "'url' or 'content' argument required" error
although a url argument was supplied. -/
theorem C9_counterexample :
    ¬ (∀ (url content : Option String) (st : State),
        ((loadCss none url content st).1.promises.get? (loadCss none url content st).2
            = some (.rejected .usage)
          ↔ (url = none ∧ content = none))) := by
  intro h
  have h1 := (h (some "") none State.init).1 (by decide)
  simp at h1

/-- C9, amended: `loadCss` returns a fresh promise, and that promise is rejected
with the "'url' or 'content' argument required" error if and only if neither a
non-empty `url` nor a non-empty `content` is supplied; in that case no element
is appended, the loaded-style set is unchanged and nothing is scheduled; and
when `content` is non-empty the continuation after the digest fulfils the
promise (it does not raise the error). -/
theorem C9_loadCss_usage (h : Host) (owner : Option Run) (url content : Option String)
    (st : State) :
    (loadCss owner url content st).2 = st.promises.length ∧
    ((loadCss owner url content st).1.promises.get? (loadCss owner url content st).2
        = some (.rejected .usage)
      ↔ (argTruthy url = false ∧ argTruthy content = false)) ∧
    (Err.usage.message = "'url' or 'content' argument required") ∧
    (argTruthy url = false ∧ argTruthy content = false →
      (loadCss owner url content st).1.trace = st.trace ∧
      (loadCss owner url content st).1.loadedCss = st.loadedCss ∧
      (loadCss owner url content st).1.jobs = st.jobs ∧
      (loadCss owner url content st).1.waiters = st.waiters) ∧
    (argTruthy content = true →
      (loadCss owner url content st).1.jobs
        = st.jobs ++ [(.cssHash (content.getD "") st.promises.length, none)] ∧
      (loadCssContent h (content.getD "") st.promises.length
          (loadCss owner url content st).1).promises.get? st.promises.length
        = some .fulfilled) := by
  by_cases hc : argTruthy content = true
  · rw [loadCss_content owner url content st hc]
    simp [hc, loadCssContent, State.settle, State.emit]
    split <;> simp [Err.message]
  · simp only [Bool.not_eq_true] at hc
    by_cases hu : argTruthy url = true
    · by_cases hm : url.getD "" ∈ st.loadedCss
      · rw [loadCss_loaded owner url content st hc hu hm]
        simp [hc, hu, Err.message]
      · rw [loadCss_new owner url content st hc hu hm]
        simp [hc, hu, Err.message]
    · simp only [Bool.not_eq_true] at hu
      rw [loadCss_usage owner url content st hc hu]
      simp [hc, hu, Err.message]

/-- C9, amended, at a concrete call: an empty `url` is rejected, a non-empty `content` is not. -/
theorem C9_loadCss_usage_witness :
    (loadCss none (some "") none State.init).1.promises.get? 0 = some (.rejected .usage) ∧
    (loadCssContent ⟨fun _ => []⟩ "a{}" 0
      (loadCss none none (some "a{}") State.init).1).promises.get? 0 = some .fulfilled :=
  ⟨by
    have h1 := (C9_loadCss_usage ⟨fun _ => []⟩ none (some "") none State.init).2.1
    exact h1.2 ⟨by decide, by decide⟩,
   ((C9_loadCss_usage ⟨fun _ => []⟩ none none (some "a{}") State.init).2.2.2.2 (by decide)).2⟩

/-! ## Cycles -/

theorem startsOf_append (dep : Name) (l1 l2 : List Event) :
    startsOf dep (l1 ++ l2) = startsOf dep l1 + startsOf dep l2 := by
  simp [startsOf, List.countP_append]

theorem firstDependency_some {d : Descriptor} {b : Name} (h : firstDependency d = some b) :
    d.dependencies.truthy = true ∧ ∃ l, d.dependencies.toArray = b :: l := by
  unfold firstDependency at h
  by_cases ht : d.dependencies.truthy = true
  · simp only [ht, if_true] at h
    refine ⟨ht, ?_⟩
    cases hl : d.dependencies.toArray with
    | nil => simp [hl] at h
    | cons x l => simp [hl] at h; exact ⟨l, by rw [h]⟩
  · simp [ht] at h

theorem FirstCycle.symm {st : State} {a b : Name} (h : FirstCycle st a b) : FirstCycle st b a :=
  ⟨h.2.1, h.1, h.2.2.2, h.2.2.1⟩

theorem FirstCycle.congr {st st1 : State} {a b : Name} (h : FirstCycle st a b)
    (h1 : st1.DEPENDENCIES = st.DEPENDENCIES) (h2 : st1.depProto = st.depProto)
    (h3 : st1.LOADED_DEPENDENCIES = st.LOADED_DEPENDENCIES) : FirstCycle st1 a b := by
  unfold FirstCycle
  rw [getDependency_congr st st1 h1 h2, getDependency_congr st st1 h1 h2,
    getLoaded_congr st st1 h3, getLoaded_congr st st1 h3]
  exact h

/-- On a first-dependency cycle `_loadDependency` exhausts every call stack:
each nested call finds no memo entry and enters `_loadDependency` again. -/
theorem loadDependency_firstCycle (n : Nat) :
    ∀ (st : State) (a b : Name), FirstCycle st a b →
      ∃ e, loadDependency n a st = .error e ∧
        e.LOADED_DEPENDENCIES = st.LOADED_DEPENDENCIES ∧
        startsOf a st.trace + (n + 1) / 2 ≤ startsOf a e.trace ∧
        startsOf b st.trace + n / 2 ≤ startsOf b e.trace := by
  induction n with
  | zero => intro st a b _; exact ⟨st, rfl, rfl, by simp, by simp⟩
  | succ n ih =>
    intro st a b hc
    obtain ⟨⟨da, hda, hfa⟩, ⟨db, hdb, _⟩, hla, hlb⟩ := id hc
    obtain ⟨hta, l, hl⟩ := firstDependency_some hfa
    have hdes : (st.getDependency a).destructure = da := by rw [hda]; rfl
    have hc3 : FirstCycle (nestedCallState a da st) b a :=
      FirstCycle.congr (FirstCycle.symm hc) rfl rfl rfl
    obtain ⟨e, he, heL, hsb, hsa⟩ := ih (nestedCallState a da st) b a hc3
    have htb : ((nestedCallState a da st).getDependency b).truthy = true := by
      rw [getDependency_congr st (nestedCallState a da st) rfl rfl, hdb]; rfl
    have hlb3 : (nestedCallState a da st).getLoaded b = .undefined := by
      rw [getLoaded_congr st (nestedCallState a da st) rfl]; exact hlb
    refine ⟨e, ?_, ?_, ?_, ?_⟩
    · rw [loadDependency_nested n a st (by rw [hdes]; exact hta), hdes, hl,
        loopDeps_call_error _ b l _ _ e htb hlb3 he]
    · rw [heL]; rfl
    · have h1 : startsOf a (nestedCallState a da st).trace = startsOf a st.trace + 1 := by
        simp [nestedCallState, State.newPromise, State.emit, startsOf_append, startsOf, Event.startName]
      omega
    · have h1 : startsOf b st.trace ≤ startsOf b (nestedCallState a da st).trace := by
        simp [nestedCallState, State.newPromise, State.emit, startsOf_append]
      omega

/-- C4 at the failing input: `toString` was never registered, yet requesting
it emits no warning (the read `DEPENDENCIES["toString"]` finds the inherited
method, which is truthy); and when a descriptor is registered under that name,
requesting it injects nothing, because `LOADED_DEPENDENCIES["toString"]` is
truthy as well. -/
theorem C4_inherited_name_no_warning :
    (∃ st, run ⟨fun _ => []⟩ 1 [.loadDependencies ["toString"], .tick 0] = .ok st ∧
      st.trace = [.call none ["toString"] 0] ∧ st.promises = [.fulfilled] ∧
      st.jobs = [] ∧ st.waiters = []) ∧
    (∃ st, run ⟨fun _ => []⟩ 1
        [.register "toString" ⟨.str "x.js", .undefined, .undefined, none⟩,
         .loadDependencies ["toString"], .tick 0] = .ok st ∧
      st.trace = [.call none ["toString"] 0] ∧ st.promises = [.fulfilled] ∧
      st.jobs = [] ∧ st.waiters = []) :=
  ⟨⟨_, rfl, rfl, rfl, rfl, rfl⟩, ⟨_, rfl, rfl, rfl, rfl, rfl⟩⟩

/-! ## String-or-array tolerance -/

theorem Field.norm_truthy (f : Field) : f.norm.truthy = f.truthy := by
  cases f with
  | str s => by_cases hs : s = "" <;> simp [Field.norm, Field.truthy, hs]
  | _ => rfl

theorem Field.norm_toArray (f : Field) : f.norm.toArray = f.toArray := by
  cases f with
  | str s => by_cases hs : s = "" <;> simp [Field.norm, Field.toArray, hs]
  | _ => rfl

theorem Field.norm_toValue (f : Field) : f.norm.toValue = f.toValue := by
  cases f with
  | str s => by_cases hs : s = "" <;> simp [Field.norm, Field.toValue, hs]
  | _ => rfl

theorem lookup_map_norm (l : List (Name × Descriptor)) (k : Name) :
    (l.map (fun x => (x.1, x.2.norm))).lookup k = (l.lookup k).map Descriptor.norm := by
  induction l with
  | nil => rfl
  | cons x l ih =>
    obtain ⟨n, d⟩ := x
    simp only [List.map_cons, List.lookup_cons]
    cases hk : k == n <;> simp [ih]

theorem Field.toValue_norm (f : Field) : f.toValue.norm = f.toValue := by
  cases f with
  | str s => by_cases hs : s = "" <;> simp [Field.toValue, hs, Value.norm]
  | _ => rfl

theorem inheritedDependency_map (proto : Option Descriptor) (dep : Name) :
    inheritedDependency (proto.map Descriptor.norm) dep = inheritedDependency proto dep := by
  cases proto with
  | none => rfl
  | some d => simp only [Option.map_some', inheritedDependency, Descriptor.norm, Field.norm_toValue]

theorem inheritedDependency_norm_self (proto : Option Descriptor) (dep : Name) :
    (inheritedDependency proto dep).norm = inheritedDependency proto dep := by
  unfold inheritedDependency
  cases proto with
  | none => simp only []; split_ifs <;> rfl
  | some d =>
    simp only []
    split_ifs <;> first | rfl | exact Field.toValue_norm _

theorem inheritedDependency_norm (proto : Option Descriptor) (dep : Name) :
    inheritedDependency (proto.map Descriptor.norm) dep = (inheritedDependency proto dep).norm := by
  rw [inheritedDependency_map, inheritedDependency_norm_self]

theorem getDependency_norm (st : State) (dep : Name) :
    st.norm.getDependency dep = (st.getDependency dep).norm := by
  unfold State.getDependency
  by_cases h1 : dep = "__proto__"
  · simp only [h1, if_true, State.norm]
    cases st.depProto <;> rfl
  · simp only [h1, if_false, State.norm, lookup_map_norm]
    cases st.DEPENDENCIES.lookup dep with
    | some d => rfl
    | none => exact inheritedDependency_norm st.depProto dep

theorem Value.truthy_norm (v : Value) : v.norm.truthy = v.truthy := by
  cases v <;> rfl

theorem Value.destructure_norm (v : Value) : v.norm.destructure = v.destructure.norm := by
  cases v <;> rfl

theorem getLoaded_norm (st : State) (dep : Name) : st.norm.getLoaded dep = st.getLoaded dep := rfl

theorem emit_norm (st : State) (e : Event) : (st.emit e).norm = st.norm.emit e.norm := by
  simp [State.norm, State.emit]

theorem newPromise_norm (st : State) (ps : PState) :
    (st.newPromise ps).1.norm = (st.norm.newPromise ps).1 := rfl

theorem await_norm (st : State) (p : Nat) (f : Frame) :
    (st.await p f).norm = st.norm.await p f.norm := by
  unfold State.await
  show (match st.promises.get? p with
    | some ps => _
    | none => _ : State).norm = (match st.promises.get? p with
    | some ps => _
    | none => _ : State)
  cases st.promises.get? p with
  | none => simp [State.norm]
  | some ps =>
    cases ps <;> simp [State.norm, outcomeOf]

theorem awaitValue_norm (st : State) (f : Frame) :
    (st.awaitValue f).norm = st.norm.awaitValue f.norm := by
  simp [State.norm, State.awaitValue]

theorem settle_norm (st : State) (p : Nat) (o : Option Err) :
    (st.settle p o).norm = st.norm.settle p o := by
  unfold State.settle
  show (match st.promises.get? p with
    | some .pending => _
    | _ => _ : State).norm = (match st.promises.get? p with
    | some .pending => _
    | _ => _ : State)
  cases st.promises.get? p with
  | none => rfl
  | some ps =>
    cases ps with
    | pending => simp [State.norm, List.filter_map, Function.comp_def]
    | _ => rfl

theorem register_norm (n : Name) (d : Descriptor) (st : State) :
    (register n d st).norm = register n d.norm st.norm := by
  unfold register
  split <;> rfl

theorem loadCss_norm (owner : Option Run) (url content : Option String) (st : State) :
    (loadCss owner url content st).1.norm = (loadCss owner url content st.norm).1 ∧
    (loadCss owner url content st).2 = (loadCss owner url content st.norm).2 := by
  by_cases hc : argTruthy content = true
  · rw [loadCss_content owner url content st hc, loadCss_content owner url content st.norm hc]
    exact ⟨by simp [State.norm, Frame.norm], rfl⟩
  · simp only [Bool.not_eq_true] at hc
    by_cases hu : argTruthy url = true
    · by_cases hm : url.getD "" ∈ st.loadedCss
      · rw [loadCss_loaded owner url content st hc hu hm,
          loadCss_loaded owner url content st.norm hc hu hm]
        exact ⟨rfl, rfl⟩
      · rw [loadCss_new owner url content st hc hu hm,
          loadCss_new owner url content st.norm hc hu hm]
        exact ⟨by simp [State.norm, Event.norm], rfl⟩
    · simp only [Bool.not_eq_true] at hu
      rw [loadCss_usage owner url content st hc hu, loadCss_usage owner url content st.norm hc hu]
      exact ⟨rfl, rfl⟩

theorem loadCssContent_norm (h : Host) (c : String) (r : Nat) (st : State) :
    (loadCssContent h c r st).norm = loadCssContent h c r st.norm := by
  by_cases hm : hash h c ∈ st.loadedCss
  · rw [loadCssContent_loaded h c r st hm, loadCssContent_loaded h c r st.norm hm, settle_norm]
  · rw [loadCssContent_new h c r st hm, loadCssContent_new h c r st.norm hm, settle_norm, emit_norm]
    rfl

theorem finishDep_norm (dep : Name) (r : Nat) (st : State) :
    (finishDep dep r st).norm = finishDep dep r st.norm := by
  unfold finishDep
  rw [settle_norm, emit_norm]
  rfl

theorem initPhase_norm (dep : Name) (init : Option InitFn) (r : Nat) (st : State) :
    (initPhase dep init r st).norm = initPhase dep init r st.norm := by
  match init with
  | none => exact finishDep_norm dep r st
  | some .sync => rw [initPhase_sync, initPhase_sync, awaitValue_norm, emit_norm]; rfl
  | some .throws => rw [initPhase_throws, initPhase_throws, settle_norm, emit_norm]; rfl
  | some .async =>
    rw [initPhase_async, initPhase_async, await_norm, emit_norm, newPromise_norm]; rfl

theorem loopStyles_norm (dep : Name) (styles : List String) (init : Option InitFn) (r : Nat)
    (st : State) : (loopStyles dep styles init r st).norm = loopStyles dep styles init r st.norm := by
  match styles with
  | [] => exact initPhase_norm dep init r st
  | u :: rest =>
    rw [loopStyles_cons, loopStyles_cons, await_norm, (loadCss_norm _ _ _ st).1,
      (loadCss_norm _ _ _ st).2]
    rfl

theorem stylesPhase_norm (dep : Name) (styles : Field) (init : Option InitFn) (r : Nat)
    (st : State) :
    (stylesPhase dep styles init r st).norm = stylesPhase dep styles.norm init r st.norm := by
  unfold stylesPhase
  rw [Field.norm_truthy, Field.norm_toArray]
  split
  · exact loopStyles_norm _ _ _ _ _
  · exact initPhase_norm _ _ _ _

theorem loopScripts_norm (dep : Name) (scripts : List String) (styles : Field)
    (init : Option InitFn) (r : Nat) (st : State) :
    (loopScripts dep scripts styles init r st).norm
      = loopScripts dep scripts styles.norm init r st.norm := by
  match scripts with
  | [] => exact stylesPhase_norm dep styles init r st
  | u :: rest =>
    rw [loopScripts_cons, loopScripts_cons, await_norm, emit_norm, newPromise_norm]
    rfl

theorem scriptsPhase_norm (dep : Name) (scripts styles : Field) (init : Option InitFn) (r : Nat)
    (st : State) :
    (scriptsPhase dep scripts styles init r st).norm
      = scriptsPhase dep scripts.norm styles.norm init r st.norm := by
  unfold scriptsPhase
  rw [Field.norm_truthy, Field.norm_toArray]
  split
  · exact loopScripts_norm _ _ _ _ _ _
  · exact stylesPhase_norm _ _ _ _ _

theorem loopDeps_norm (call : Name → State → Except State (State × Nat))
    (hcall : ∀ d st, call d st.norm = normCallResult (call d st)) :
    ∀ (deps : List Name) (r : Nat) (st : State),
      loopDeps call deps r st.norm = normResult (loopDeps call deps r st) := by
  intro deps
  induction deps with
  | nil =>
    intro r st
    rw [loopDeps_nil, loopDeps_nil]
    simp only [normResult, settle_norm]
  | cons dep rest ih =>
    intro r st
    by_cases ht : (st.getDependency dep).truthy = true
    · have ht' : (st.norm.getDependency dep).truthy = true := by
        rw [getDependency_norm, Value.truthy_norm]; exact ht
      cases hl : st.getLoaded dep with
      | undefined =>
        have hl' : st.norm.getLoaded dep = .undefined := hl
        cases hc : call dep st with
        | error e =>
          have hc' : call dep st.norm = .error e.norm := by rw [hcall, hc]; rfl
          rw [loopDeps_call_error _ _ _ _ _ e ht hl hc,
            loopDeps_call_error _ _ _ _ _ e.norm ht' hl' hc']
          rfl
        | ok res =>
          obtain ⟨st2, p⟩ := res
          have hc' : call dep st.norm = .ok (st2.norm, p) := by rw [hcall, hc]; rfl
          rw [loopDeps_call_ok _ _ _ _ _ st2 p ht hl hc,
            loopDeps_call_ok _ _ _ _ _ st2.norm p ht' hl' hc']
          simp only [normResult, await_norm]
          rfl
      | promise p =>
        have hl' : st.norm.getLoaded dep = .promise p := hl
        rw [loopDeps_promise _ _ _ _ _ p ht hl, loopDeps_promise _ _ _ _ _ p ht' hl']
        simp only [normResult, await_norm]
        rfl
      | inherited =>
        have hl' : st.norm.getLoaded dep = .inherited := hl
        rw [loopDeps_inherited _ _ _ _ _ ht hl, loopDeps_inherited _ _ _ _ _ ht' hl']
        simp only [normResult, awaitValue_norm]
        rfl
    · simp only [Bool.not_eq_true] at ht
      have ht' : (st.norm.getDependency dep).truthy = false := by
        rw [getDependency_norm, Value.truthy_norm]; exact ht
      rw [loopDeps_warn _ _ _ _ _ ht, loopDeps_warn _ _ _ _ _ ht', ← ih]
      rw [emit_norm]
      rfl

theorem nestedCallState_norm (dep : Name) (d : Descriptor) (st : State) :
    (nestedCallState dep d st).norm = nestedCallState dep d.norm st.norm := by
  unfold nestedCallState
  rw [emit_norm, newPromise_norm, emit_norm, newPromise_norm]
  simp only [Event.norm, Descriptor.norm, Field.norm_toArray]
  rfl

theorem leafCallState_norm (dep : Name) (d : Descriptor) (st : State) :
    (leafCallState dep d st).norm = leafCallState dep d.norm st.norm := by
  unfold leafCallState
  rw [emit_norm, newPromise_norm]
  rfl

theorem loadDependency_norm (n : Nat) :
    ∀ (dep : Name) (st : State),
      loadDependency n dep st.norm = normCallResult (loadDependency n dep st) := by
  induction n with
  | zero => intro dep st; rfl
  | succ n ih =>
    intro dep st
    have hd : (st.norm.getDependency dep).destructure = (st.getDependency dep).destructure.norm := by
      rw [getDependency_norm, Value.destructure_norm]
    by_cases ht : (st.getDependency dep).destructure.dependencies.truthy = true
    · have ht' : (st.norm.getDependency dep).destructure.dependencies.truthy = true := by
        rw [hd]; simp only [Descriptor.norm, Field.norm_truthy]; exact ht
      rw [loadDependency_nested n dep st ht, loadDependency_nested n dep st.norm ht', hd,
        ← nestedCallState_norm]
      have hp : st.norm.promises.length = st.promises.length := rfl
      rw [hp]
      have ha : (st.getDependency dep).destructure.norm.dependencies.toArray
          = (st.getDependency dep).destructure.dependencies.toArray := by
        simp only [Descriptor.norm, Field.norm_toArray]
      rw [ha, loopDeps_norm _ ih]
      cases loopDeps (loadDependency n) (st.getDependency dep).destructure.dependencies.toArray
          (st.promises.length + 1) (nestedCallState dep (st.getDependency dep).destructure st) with
      | error e => rfl
      | ok st4 =>
        simp only [normResult, normCallResult, await_norm]
        rfl
    · simp only [Bool.not_eq_true] at ht
      have ht' : (st.norm.getDependency dep).destructure.dependencies.truthy = false := by
        rw [hd]; simp only [Descriptor.norm, Field.norm_truthy]; exact ht
      rw [loadDependency_leaf n dep st ht, loadDependency_leaf n dep st.norm ht', hd,
        ← leafCallState_norm]
      simp only [normCallResult, scriptsPhase_norm]
      rfl

theorem resume_norm (h : Host) (stack : Nat) (f : Frame) (o : Option Err) (st : State) :
    resume h stack f.norm o st.norm = normResult (resume h stack f o st) := by
  cases f with
  | ld dep rest r =>
    cases o with
    | none => exact loopDeps_norm _ (loadDependency_norm stack) rest r st
    | some e => simp only [resume, Frame.norm, normResult, settle_norm]
  | afterDeps dep scripts styles init r =>
    cases o with
    | none => simp only [resume, Frame.norm, normResult, scriptsPhase_norm]
    | some e => simp only [resume, Frame.norm, normResult, settle_norm]
  | afterScript dep rest styles init r =>
    cases o with
    | none => simp only [resume, Frame.norm, normResult, loopScripts_norm]
    | some e => simp only [resume, Frame.norm, normResult, settle_norm]
  | afterStyle dep rest init r =>
    cases o with
    | none => simp only [resume, Frame.norm, normResult, loopStyles_norm]
    | some e => simp only [resume, Frame.norm, normResult, settle_norm]
  | afterInit dep r =>
    cases o with
    | none => simp only [resume, Frame.norm, normResult, finishDep_norm]
    | some e => simp only [resume, Frame.norm, normResult, settle_norm]
  | cssHash c r =>
    cases o with
    | none => simp only [resume, Frame.norm, normResult, loadCssContent_norm]
    | some e => simp only [resume, Frame.norm, normResult, settle_norm]

theorem map_eraseIdx {α β : Type} (g : α → β) (l : List α) (i : Nat) :
    (l.map g).eraseIdx i = (l.eraseIdx i).map g := by
  induction l generalizing i with
  | nil => rfl
  | cons x l ih =>
    cases i with
    | zero => rfl
    | succ i => simp [List.eraseIdx, ih]

theorem externalUrl_norm (st : State) (p : Nat) : st.norm.externalUrl p = st.externalUrl p := by
  unfold State.externalUrl
  have : (st.norm.trace.filterMap Event.external) = st.trace.filterMap Event.external := by
    show (st.trace.map Event.norm).filterMap Event.external = _
    rw [List.filterMap_map]
    congr 1
    funext e
    cases e <;> rfl
  rw [this]

theorem step_norm (h : Host) (stack : Nat) (st : State) (a : Action) :
    step h stack st.norm a.norm = normResult (step h stack st a) := by
  cases a with
  | register n d => simp only [step, Action.norm, normResult, register_norm]
  | loadDependencies names =>
    simp only [step, Action.norm, loadDependencies]
    have h1 : ((st.norm.emit (.call none names st.norm.promises.length)).newPromise .pending).1
        = ((st.emit (.call none names st.promises.length)).newPromise .pending).1.norm := by
      rw [newPromise_norm, emit_norm]; rfl
    have h2 : ((st.norm.emit (.call none names st.norm.promises.length)).newPromise .pending).2
        = ((st.emit (.call none names st.promises.length)).newPromise .pending).2 := rfl
    rw [h1, h2, loopDeps_norm _ (loadDependency_norm stack)]
    cases loopDeps (loadDependency stack) names
      ((st.emit (.call none names st.promises.length)).newPromise .pending).2
      ((st.emit (.call none names st.promises.length)).newPromise .pending).1 <;> rfl
  | loadCss url content =>
    simp only [step, Action.norm, normResult, (loadCss_norm none url content st).1]
  | settle p ok =>
    simp only [step, Action.norm, externalUrl_norm]
    have hp : st.norm.promises = st.promises := rfl
    rw [hp]
    split
    · simp only [normResult, settle_norm, emit_norm]; rfl
    · rfl
  | tick i =>
    simp only [step, Action.norm]
    have hj : st.norm.jobs.get? i = (st.jobs.get? i).map (fun j => (j.1.norm, j.2)) := by
      show (st.jobs.map _).get? i = _
      simp
    rw [hj]
    cases hg : st.jobs.get? i with
    | none => rfl
    | some fo =>
      obtain ⟨f, o⟩ := fo
      simp only [Option.map_some']
      rw [← resume_norm]
      congr 1
      simp [State.norm, map_eraseIdx]

theorem exec_norm (h : Host) (stack : Nat) (as : List Action) :
    ∀ st : State, exec h stack st.norm (as.map Action.norm) = normResult (exec h stack st as) := by
  induction as with
  | nil => intro st; rfl
  | cons a as ih =>
    intro st
    simp only [List.map_cons, exec, step_norm]
    cases step h stack st a with
    | error e => rfl
    | ok st1 => exact ih st1

theorem run_norm (h : Host) (stack : Nat) (as : List Action) :
    normResult (run h stack as) = run h stack (as.map Action.norm) :=
  (exec_norm h stack as State.init).symm

theorem Field.norm_str {s : String} (hs : s ≠ "") : (Field.str s).norm = (Field.arr [s]).norm := by
  simp [Field.norm, hs]

/-- C8 as stated fails for the empty string: given as a string it is falsy and
the field is skipped, given as `[""]` the loop runs and a script element with
an empty `src` is appended. -/
theorem C8_counterexample :
    ∃ s1 s2,
      run ⟨fun _ => []⟩ 1
        [.register "a" ⟨.str "", .undefined, .undefined, none⟩, .loadDependencies ["a"]] = .ok s1 ∧
      run ⟨fun _ => []⟩ 1
        [.register "a" ⟨.arr [""], .undefined, .undefined, none⟩, .loadDependencies ["a"]] = .ok s2 ∧
      s1.trace.filterMap Event.external = [] ∧
      s2.trace.filterMap Event.external = [(2, "")] ∧
      Event.log ("a", 1) ∈ s1.trace ∧ Event.log ("a", 1) ∉ s2.trace :=
  ⟨_, _, rfl, rfl, rfl, rfl, by decide, by decide⟩

/-- C8, amended: for every non-empty string `s`, registering a descriptor with
`scripts` (respectively `styles`, `dependencies`) given as the string `s` or as
the array `[s]` makes no difference to any run: whatever is done before and
after the registration, the two runs reach the same result (same events in the
same order, same promises and memo entries, same loaded-style set, same
pending continuations) once the descriptors recorded in it are written in array form. -/
theorem C8_string_or_array (h : Host) (stack : Nat) (s : String) (hs : s ≠ "")
    (n : Name) (d : Descriptor) (pre post : List Action) :
    normResult (run h stack (pre ++ .register n { d with scripts := .str s } :: post))
      = normResult (run h stack (pre ++ .register n { d with scripts := .arr [s] } :: post)) ∧
    normResult (run h stack (pre ++ .register n { d with styles := .str s } :: post))
      = normResult (run h stack (pre ++ .register n { d with styles := .arr [s] } :: post)) ∧
    normResult (run h stack (pre ++ .register n { d with dependencies := .str s } :: post))
      = normResult (run h stack (pre ++ .register n { d with dependencies := .arr [s] } :: post)) := by
  refine ⟨?_, ?_, ?_⟩ <;>
  · rw [run_norm, run_norm]
    simp only [List.map_append, List.map_cons, Action.norm, Descriptor.norm, Field.norm_str hs]

/-- C8, amended, on the `vue` / `vuex` registration of the documentation. -/
theorem C8_string_or_array_witness :
    normResult (run ⟨fun _ => []⟩ 3
        ([.register "vue" ⟨.str "vue.js", .undefined, .undefined, none⟩] ++
          .register "vuex" { (⟨.str "vuex.js", .undefined, .undefined, some .sync⟩ : Descriptor) with
              dependencies := .str "vue" } ::
          [.loadDependencies ["vuex"], .settle 3 true, .tick 0, .tick 0, .tick 0]))
      = normResult (run ⟨fun _ => []⟩ 3
        ([.register "vue" ⟨.str "vue.js", .undefined, .undefined, none⟩] ++
          .register "vuex" { (⟨.str "vuex.js", .undefined, .undefined, some .sync⟩ : Descriptor) with
              dependencies := .arr ["vue"] } ::
          [.loadDependencies ["vuex"], .settle 3 true, .tick 0, .tick 0, .tick 0])) :=
  (C8_string_or_array ⟨fun _ => []⟩ 3 "vue" (by decide) "vuex"
    ⟨.str "vuex.js", .undefined, .undefined, some .sync⟩
    [.register "vue" ⟨.str "vue.js", .undefined, .undefined, none⟩]
    [.loadDependencies ["vuex"], .settle 3 true, .tick 0, .tick 0, .tick 0]).2.2

end Dlopen
